import Mathlib

/-!
# Verification of `argv.h` (mackron/argv)

A shallow embedding of the argument finder (`argv_find`, `argv_get`) and of the
command-line tokenizer (`argv_from_WinMain_internal`, `argv_from_WinMain`).

Conventions of the embedding:

* a C string is the list of its `char` values before the NUL terminator
  (`CStr`); reading index `i` of a string of length `L` gives the character for
  `i < L`, the terminator `0` for `i = L`, and is an out-of-bounds read for
  `i > L`;
* a pointer into a string is the offset from its first character;
* code that can misbehave returns `Res`: `ok` with its result, `ub` when the
  run has undefined behaviour in C (an access outside an object, the use of an
  indeterminate value), `timeout` when a loop budget is exhausted (the budgets
  are shown to be sufficient);
* loop indices are unbounded naturals. `recordSegment`, `segmentLoop` and
  `argv_from_WinMain_internal` also keep `count` in the natural numbers; this
  is the `int count` of the source as long as fewer than `2^31` segments are
  counted, which every command line of fewer than `2^32 - 1` characters
  guarantees. `recordSegmentInt`, `segmentLoopInt` and
  `argv_from_WinMain_internal_int` repeat the loop with `count` as a 32-bit
  `int` that wraps around; the two readings are shown to agree below that
  bound, and to differ at it.
-/

namespace Argv

/-- A C string: the `char` values before the terminating NUL. -/
abbrev CStr := List Int

/-- Result of running code that may go wrong. -/
inductive Res (α : Type) where
  | ok (a : α)
  | ub
  | timeout

/-- The content of byte `i` of the string object: its character, or the
terminator after the last one. -/
def chr (s : CStr) (i : Nat) : Int := s.getD i 0

/-- Reading `s[i]`: defined up to and including the terminator. -/
def charAt (s : CStr) (i : Nat) : Option Int :=
  if i ≤ s.length then some (chr s i) else none

/-- The values a `char` can take: `sgn` tells whether `char` is signed. -/
def CharRange (sgn : Bool) (c : Int) : Prop :=
  if sgn then -128 ≤ c ∧ c ≤ 127 else 0 ≤ c ∧ c ≤ 255

instance (sgn : Bool) (c : Int) : Decidable (CharRange sgn c) := by
  unfold CharRange; infer_instance

/-- Well-formed C string content: no NUL inside, every value a `char`. -/
def IsCStr (sgn : Bool) (s : CStr) : Prop :=
  ∀ c ∈ s, c ≠ 0 ∧ CharRange sgn c

instance (sgn : Bool) (s : CStr) : Decidable (IsCStr sgn s) := by
  unfold IsCStr; infer_instance

/-! ## The finder -/

/-- Source `argv_strcmp`: walk both strings while `a[0] != 0 && a[0] == b[0]`,
then return `(unsigned char)a[0] - (unsigned char)b[0]`. -/
def argv_strcmp : CStr → CStr → Int
  | [], b => (0 : Int) % 256 - b.headD 0 % 256
  | x :: a, b =>
    if x ≠ 0 ∧ x = b.headD 0 then argv_strcmp a b.tail
    else x % 256 - b.headD 0 % 256

/-- The `for (i = 1; i < argc; ++i)` loop of `argv_find`; the first argument is
the number of iterations left (`argc - i`). `index` is the content of `*index`
(`none` for a null pointer). Reading `argv[i]` outside the array is `ub`. -/
def argv_find_loop (argv : List CStr) (key : CStr) (index : Option Int) :
    Nat → Nat → Res (Int × Option Int)
  | 0, _ => .ok (-1, index)
  | n + 1, i =>
    match argv.get? i with
    | none => .ub
    | some a =>
      if argv_strcmp a key = 0 then
        .ok (0, index.map (fun _ => (i : Int)))
      else argv_find_loop argv key index n (i + 1)

/-- Source `argv_find`. `argv` and `key` are `none` for null pointers, `index`
is `none` for a null pointer and otherwise the current content of `*index`.
The result is the return value and the content of `*index` afterwards. The
elements of `argv` are strings (non-null pointers). -/
def argv_find (argc : Int) (argv : Option (List CStr)) (key : Option CStr)
    (index : Option Int) : Res (Int × Option Int) :=
  match argv, key with
  | some av, some k =>
    if argc ≤ 1 then .ok (-1, index)
    else argv_find_loop av k index (argc - 1).toNat 1
  | _, _ => .ok (-1, index)

/-- Source `argv_get`: the string after the key, `none` for the null pointer.
`ikey` is an uninitialised local passed by address to `argv_find`. -/
def argv_get (argc : Int) (argv : Option (List CStr)) (key : Option CStr)
    (ikey : Int) : Res (Option CStr) :=
  match argv_find argc argv key (some ikey) with
  | .ub => .ub
  | .timeout => .timeout
  | .ok (r, idx) =>
    if r ≠ 0 then .ok none
    else
      let i := idx.getD ikey
      if i + 1 = argc then .ok none
      else
        match argv with
        | none => .ub
        | some av =>
          match av.get? (i + 1).toNat with
          | none => .ub
          | some v => .ok (some v)

/-! ## The tokenizer -/

/-- Source `argv_is_whitespace_ascii`: the `switch` over the value of `cp`,
a `char` promoted to `int` (where `char` is signed, no `char` has the value
`0x85` or `0xA0`). -/
def argv_is_whitespace_ascii (cp : Int) : Bool :=
  decide (cp = 0x09 ∨ cp = 0x0A ∨ cp = 0x0B ∨ cp = 0x0C ∨ cp = 0x0D ∨ cp = 0x20 ∨
    cp = 0x85 ∨ cp = 0xA0)

/-- Source `argv_ltrim` on a non-null string: `str` is the offset of the
pointer, the first argument bounds the number of iterations. -/
def argv_ltrim (s : CStr) : Nat → Nat → Res Nat
  | 0, _ => .timeout
  | fuel + 1, str =>
    match charAt s str with
    | none => .ub
    | some c =>
      if c ≠ 0 then
        if !argv_is_whitespace_ascii c then .ok str
        else argv_ltrim s fuel (str + 1)
      else .ok str

/-- The inner `for (;;)` loop of `argv_from_WinMain_internal` that advances
`segend` to the end of the segment. `segend[-1]` is read only after
`segend[0] == '"'` held, as the `&&` of the source does. -/
def segmentEnd (s : CStr) (quoted : Bool) : Nat → Nat → Res Nat
  | 0, _ => .timeout
  | fuel + 1, segend =>
    match charAt s segend with
    | none => .ub
    | some c =>
      if c = 0 then .ok segend
      else if quoted then
        if c = 34 then
          match charAt s (segend - 1) with
          | none => .ub
          | some b => if b ≠ 92 then .ok segend else segmentEnd s quoted fuel (segend + 1)
        else segmentEnd s quoted fuel (segend + 1)
      else
        if argv_is_whitespace_ascii c then .ok segend
        else segmentEnd s quoted fuel (segend + 1)

/-- A pointer value stored in the pointer tables: into the command line, or
into the string area of the output block. -/
inductive Ptr where
  | cmd (off : Nat)
  | str (off : Nat)
deriving DecidableEq

/-- An array of pointer-sized slots; `val i = none` while slot `i` still has
its indeterminate initial content. -/
structure Slots where
  size : Nat
  val : Nat → Option Ptr

/-- Store to slot `i`; outside the array it is an out-of-bounds write. -/
def Slots.set (m : Slots) (i : Nat) (p : Ptr) : Res Slots :=
  if i < m.size then .ok { m with val := fun j => if j = i then some p else m.val j }
  else .ub

/-- The `if (segend > segbeg) { ... }` block: store the boundaries when both
tables were supplied, and count the segment. `pargvbeg` and `pargvend` are the
slot indices at which the two tables start. `count` is a natural number here
and `count + 1` does not overflow: this is `int count` up to `INT_MAX`, see
`recordSegmentInt` for the increment at `INT_MAX`. -/
def recordSegment (pargvbeg pargvend : Option Nat) (segbeg segend : Nat)
    (count : Nat) (mem : Slots) : Res (Nat × Slots) :=
  if segend > segbeg then
    match pargvbeg, pargvend with
    | some tb, some te =>
      match mem.set (tb + count) (.cmd segbeg) with
      | .ok mem1 =>
        match mem1.set (te + count) (.cmd segend) with
        | .ok mem2 => .ok (count + 1, mem2)
        | .ub => .ub
        | .timeout => .timeout
      | .ub => .ub
      | .timeout => .timeout
    | _, _ => .ok (count + 1, mem)
  else .ok (count, mem)

/-- State of the segment loop: the cursor `cmdline`, `count`, the slot memory
holding the tables, and (ghost, not program state) the boundaries of the
segments counted so far, in order. -/
structure ScanState where
  cmdline : Nat
  count : Nat
  mem : Slots
  trace : List (Nat × Nat)

/-- The `while` loop of `argv_from_WinMain_internal` ("for each segment"). The
first argument bounds the number of iterations; the inner loops get the budget
`s.length + 2`. The last read, for `quoted && segend[0] == '"'`, is of the
character at which the inner loop has just stopped. -/
def segmentLoop (s : CStr) (cap : Int) (pargvbeg pargvend : Option Nat) :
    Nat → ScanState → Res ScanState
  | 0, _ => .timeout
  | fuel + 1, st =>
    if (pargvbeg = none ∨ pargvend = none) ∨ (st.count : Int) < cap then
      match argv_ltrim s (s.length + 2) st.cmdline with
      | .ub => .ub
      | .timeout => .timeout
      | .ok cmdline =>
        match charAt s cmdline with
        | none => .ub
        | some c0 =>
          if c0 = 0 then .ok { st with cmdline := cmdline }
          else
            let quoted := decide (c0 = 34)
            let segbeg := if quoted then cmdline + 1 else cmdline + 0
            match segmentEnd s quoted (s.length + 2) (segbeg + 1) with
            | .ub => .ub
            | .timeout => .timeout
            | .ok segend =>
              match recordSegment pargvbeg pargvend segbeg segend st.count st.mem with
              | .ub => .ub
              | .timeout => .timeout
              | .ok (count, mem) =>
                let trace := if segend > segbeg then st.trace ++ [(segbeg, segend)] else st.trace
                match charAt s segend with
                | none => .ub
                | some c1 =>
                  let next := if quoted ∧ c1 = 34 then segend + 1 else segend
                  segmentLoop s cap pargvbeg pargvend fuel
                    { cmdline := next, count := count, mem := mem, trace := trace }
    else .ok st

/-- What `argv_from_WinMain_internal` leaves behind: the return value, the
content of `*pargc` (`none` when `pargc` is null), the slot memory, and the
ghost list of counted segments. -/
structure ScanOut where
  ret : Int
  argc : Option Int
  mem : Slots
  trace : List (Nat × Nat)

/-- Source `argv_from_WinMain_internal` for a non-null `cmdline`. `pargc` is
`none` for a null pointer and otherwise the content of `*pargc` on entry;
`pargvbeg` and `pargvend` are `none` for null pointers and otherwise the slot
indices in `mem` where the tables start. -/
def argv_from_WinMain_internal (cmdline : CStr) (pargc : Option Int)
    (pargvbeg pargvend : Option Nat) (mem : Slots) : Res ScanOut :=
  match pargc with
  | none => .ok { ret := -1, argc := none, mem := mem, trace := [] }
  | some cap =>
    match segmentLoop cmdline cap pargvbeg pargvend (cmdline.length + 2)
        { cmdline := 0, count := 0, mem := mem, trace := [] } with
    | .ub => .ub
    | .timeout => .timeout
    | .ok st => .ok { ret := 0, argc := some st.count, mem := st.mem, trace := st.trace }

/-! ### The segment loop with `int count`

The source declares `int count` and `int cap`. The definitions of this part
are `recordSegment`, `segmentLoop` and `argv_from_WinMain_internal` once more,
with `count` an `int` of 32 bits whose increment wraps around at `INT_MAX`
(what the compiled code does; in ISO C the overflow is undefined). -/

/-- The value an `int` holds when the mathematical result is `n`: `n` reduced
into `-2^31 .. 2^31 - 1` (32 bits, two's complement). -/
def wrapInt (n : Int) : Int := (n + 2147483648) % 4294967296 - 2147483648

/-- The `if (segend > segbeg) { ... }` block with `int count`: the stores go to
`pargvbeg[count]` and `pargvend[count]`, which lie before the tables for a
negative `count`, and `count += 1` wraps around. -/
def recordSegmentInt (pargvbeg pargvend : Option Nat) (segbeg segend : Nat)
    (count : Int) (mem : Slots) : Res (Int × Slots) :=
  if segend > segbeg then
    match pargvbeg, pargvend with
    | some tb, some te =>
      if count < 0 then .ub
      else
        match mem.set (tb + count.toNat) (.cmd segbeg) with
        | .ok mem1 =>
          match mem1.set (te + count.toNat) (.cmd segend) with
          | .ok mem2 => .ok (wrapInt (count + 1), mem2)
          | .ub => .ub
          | .timeout => .timeout
        | .ub => .ub
        | .timeout => .timeout
    | _, _ => .ok (wrapInt (count + 1), mem)
  else .ok (count, mem)

/-- State of the segment loop with `int count`; the other fields are those of
`ScanState`. -/
structure ScanStateInt where
  cmdline : Nat
  count : Int
  mem : Slots
  trace : List (Nat × Nat)

/-- The `while` loop of `argv_from_WinMain_internal` with `int count`: the
test is `count < cap` between two `int`s, everything else is `segmentLoop`. -/
def segmentLoopInt (s : CStr) (cap : Int) (pargvbeg pargvend : Option Nat) :
    Nat → ScanStateInt → Res ScanStateInt
  | 0, _ => .timeout
  | fuel + 1, st =>
    if (pargvbeg = none ∨ pargvend = none) ∨ st.count < cap then
      match argv_ltrim s (s.length + 2) st.cmdline with
      | .ub => .ub
      | .timeout => .timeout
      | .ok cmdline =>
        match charAt s cmdline with
        | none => .ub
        | some c0 =>
          if c0 = 0 then .ok { st with cmdline := cmdline }
          else
            let quoted := decide (c0 = 34)
            let segbeg := if quoted then cmdline + 1 else cmdline + 0
            match segmentEnd s quoted (s.length + 2) (segbeg + 1) with
            | .ub => .ub
            | .timeout => .timeout
            | .ok segend =>
              match recordSegmentInt pargvbeg pargvend segbeg segend st.count st.mem with
              | .ub => .ub
              | .timeout => .timeout
              | .ok (count, mem) =>
                let trace := if segend > segbeg then st.trace ++ [(segbeg, segend)] else st.trace
                match charAt s segend with
                | none => .ub
                | some c1 =>
                  let next := if quoted ∧ c1 = 34 then segend + 1 else segend
                  segmentLoopInt s cap pargvbeg pargvend fuel
                    { cmdline := next, count := count, mem := mem, trace := trace }
    else .ok st

/-- Source `argv_from_WinMain_internal` with `int count`, for a non-null
`cmdline`; the arguments are those of `argv_from_WinMain_internal` above, and
`*pargc` receives the `int` the loop ends with. -/
def argv_from_WinMain_internal_int (cmdline : CStr) (pargc : Option Int)
    (pargvbeg pargvend : Option Nat) (mem : Slots) : Res ScanOut :=
  match pargc with
  | none => .ok { ret := -1, argc := none, mem := mem, trace := [] }
  | some cap =>
    match segmentLoopInt cmdline cap pargvbeg pargvend (cmdline.length + 2)
        { cmdline := 0, count := 0, mem := mem, trace := [] } with
    | .ub => .ub
    | .timeout => .timeout
    | .ok st => .ok { ret := 0, argc := some st.count, mem := st.mem, trace := st.trace }

/-- Source `argv_strlen`: the number of characters before the first NUL. -/
def argv_strlen : CStr → Nat
  | [] => 0
  | c :: s => if c = 0 then 0 else argv_strlen s + 1

/-- The block returned by the allocator: the pointer area (`argv`, then the
begin table, then the end table) and after it the string area, addressed by
byte offset from its start; `byte i = none` while the byte is indeterminate. -/
structure Block where
  slots : Slots
  nbytes : Nat
  byte : Nat → Option Int

/-- Load from a pointer slot; `none` outside the array or when indeterminate. -/
def Slots.get (m : Slots) (i : Nat) : Option Ptr :=
  if i < m.size then m.val i else none

/-- Store a byte to the string area; outside it is an out-of-bounds write. -/
def Block.setByte (b : Block) (i : Nat) (c : Int) : Res Block :=
  if i < b.nbytes then .ok { b with byte := fun j => if j = i then some c else b.byte j }
  else .ub

/-- Store to a pointer slot of the block. -/
def Block.setSlot (b : Block) (i : Nat) (p : Ptr) : Res Block :=
  match b.slots.set i p with
  | .ok m => .ok { b with slots := m }
  | .ub => .ub
  | .timeout => .timeout

/-- Source `argv_copy_memory` with `dst` in the string area of the block and
`src` at offset `srcOff` of a string: the loop `for (i = 0; i < sz; i += 1)`,
the first argument being `sz - i`. -/
def argv_copy_memory (dst : Nat) (src : CStr) (srcOff : Nat) : Nat → Nat → Block → Res Block
  | 0, _, blk => .ok blk
  | n + 1, i, blk =>
    match charAt src (srcOff + i) with
    | none => .ub
    | some c =>
      match blk.setByte (dst + i) c with
      | .ok blk1 => argv_copy_memory dst src srcOff n (i + 1) blk1
      | .ub => .ub
      | .timeout => .timeout

/-- The statements `argv_copy_memory(str, src, len); str[len] = 0;`. -/
def copyTerminated (str : Nat) (src : CStr) (srcOff len : Nat) (blk : Block) : Res Block :=
  match argv_copy_memory str src srcOff len 0 blk with
  | .ok blk1 => blk1.setByte (str + len) 0
  | .ub => .ub
  | .timeout => .timeout

/-- The loop `for (iarg = 0; iarg < argc; iarg += 1)` of `argv_from_WinMain`
that copies every token into the string area and redirects `argvbeg[iarg]` to
the copy. The first argument is `argc - iarg`; `argvbeg` and `argvend` are
the slot indices of the tables. A table entry that is indeterminate, or an end
before its begin (a negative length converted to `size_t`), is `ub`. -/
def copyTokens (cmdline : CStr) (argvbeg argvend : Nat) : Nat → Nat → Nat → Block → Res Block
  | 0, _, _, blk => .ok blk
  | n + 1, iarg, str, blk =>
    match blk.slots.get (argvend + iarg), blk.slots.get (argvbeg + iarg) with
    | some (.cmd e), some (.cmd b) =>
      if e < b then .ub
      else
        let len := e - b
        match copyTerminated str cmdline b len blk with
        | .ok blk1 =>
          match blk1.setSlot (argvbeg + iarg) (.str str) with
          | .ok blk2 => copyTokens cmdline argvbeg argvend n (iarg + 1) (str + len + 1) blk2
          | .ub => .ub
          | .timeout => .timeout
        | .ub => .ub
        | .timeout => .timeout
    | _, _ => .ub

/-- What `argv_from_WinMain` leaves behind: the return value, the values stored
to `*pargc` and `*pargv` (`none` when nothing was stored), and the numbers of
calls made to `argv_malloc` and `argv_free`. -/
structure WinMainOut where
  ret : Int
  pargc : Option Int
  pargv : Option Block
  mallocs : Nat
  frees : Nat

/-- Source `argv_from_WinMain`. `cmdline` is `none` for a null pointer;
`pargc` and `pargv` tell whether the output pointers are non-null;
`executableName` is the content of the local buffer after the platform
filled it (empty where there is no such call); `mallocOk` tells whether
`argv_malloc` returns a block. The block has `(argc+1)*2` pointer slots and
`executableNameLen + 1 + argv_strlen(cmdline) + 1` bytes of string area. The
string pointer `str` is computed from the count of the second pass; this
model only represents the case where it lands on the start of the string area
(the two counts agree), any other case is reported as `ub`. -/
def argv_from_WinMain (cmdline : Option CStr) (pargc pargv : Bool)
    (executableName : CStr) (mallocOk : Bool) : Res WinMainOut :=
  match cmdline with
  | none => .ok { ret := -1, pargc := none, pargv := none, mallocs := 0, frees := 0 }
  | some cmd =>
    if pargc = false ∨ pargv = false then
      .ok { ret := -1, pargc := none, pargv := none, mallocs := 0, frees := 0 }
    else
      let executableNameLen := argv_strlen executableName
      match argv_from_WinMain_internal cmd (some 0) none none ⟨0, fun _ => none⟩ with
      | .ub => .ub
      | .timeout => .timeout
      | .ok r1 =>
        if r1.ret ≠ 0 then
          .ok { ret := r1.ret, pargc := none, pargv := none, mallocs := 0, frees := 0 }
        else
          let argc : Int := r1.argc.getD 0
          if mallocOk = false then
            .ok { ret := -1, pargc := none, pargv := none, mallocs := 1, frees := 0 }
          else
            let nslots := ((argc + 1) * 2).toNat
            let nbytes := executableNameLen + 1 + argv_strlen cmd + 1
            let argvbeg := 1
            let argvend := argvbeg + argc.toNat
            match argv_from_WinMain_internal cmd (some argc) (some argvbeg) (some argvend)
                ⟨nslots, fun _ => none⟩ with
            | .ub => .ub
            | .timeout => .timeout
            | .ok r2 =>
              if r2.ret ≠ 0 then
                .ok { ret := r2.ret, pargc := none, pargv := none, mallocs := 1, frees := 1 }
              else
                let argc2 : Int := r2.argc.getD argc
                if ((argc2 + 1) * 2).toNat ≠ nslots then .ub
                else
                  let blk : Block := { slots := r2.mem, nbytes := nbytes, byte := fun _ => none }
                  match copyTerminated 0 executableName 0 executableNameLen blk with
                  | .ub => .ub
                  | .timeout => .timeout
                  | .ok blk1 =>
                    match blk1.setSlot 0 (.str 0) with
                    | .ub => .ub
                    | .timeout => .timeout
                    | .ok blk2 =>
                      match copyTokens cmd argvbeg argvend argc2.toNat 0
                          (executableNameLen + 1) blk2 with
                      | .ub => .ub
                      | .timeout => .timeout
                      | .ok blk3 =>
                        .ok { ret := 0, pargc := some (argc2 + 1), pargv := some blk3,
                              mallocs := 1, frees := 0 }

/-- Reading the NUL-terminated string at byte offset `off` of the string area;
`none` when it runs into an indeterminate byte or out of the area. -/
def readCStr (blk : Block) : Nat → Nat → Option CStr
  | 0, _ => none
  | fuel + 1, off =>
    if off < blk.nbytes then
      match blk.byte off with
      | none => none
      | some c => if c = 0 then some [] else (readCStr blk fuel (off + 1)).map (fun t => c :: t)
    else none

/-- The strings `argv[i], .., argv[i+n-1]` of a block as the caller reads
them; `none` when an entry is not a pointer to a string in the string area. -/
def argvStrings (blk : Block) : Nat → Nat → Option (List CStr)
  | 0, _ => some []
  | n + 1, i =>
    match blk.slots.get i with
    | some (.str off) =>
      match readCStr blk blk.nbytes off with
      | some t => (argvStrings blk n (i + 1)).map (fun ts => t :: ts)
      | none => none
    | _ => none

/-! ## Proof devices

Functions derived from the loops above, used to state and prove their
properties: the stop condition of the inner loop, the loop body without its
recording, and the unlimited scan as a list of segments. -/

/-- Whether the inner loop stops with `segend` at offset `e`: at the
terminator, at a double quote not preceded by a backslash (quoted segment),
or at a whitespace character (unquoted segment). -/
def stopsAt (s : CStr) (quoted : Bool) (e : Nat) : Bool :=
  decide (chr s e = 0) ||
    (if quoted then decide (chr s e = 34 ∧ chr s (e - 1) ≠ 92)
     else argv_is_whitespace_ascii (chr s e))

/-- One pass through the body of the segment loop, without the recording:
from the cursor, either the trimmed cursor at which the end of the input was
found (`inl`), or the segment `(segbeg, segend)` and the next cursor (`inr`). -/
def nextSegment (s : CStr) (cursor : Nat) : Res (Nat ⊕ (Nat × Nat × Nat)) :=
  match argv_ltrim s (s.length + 2) cursor with
  | .ub => .ub
  | .timeout => .timeout
  | .ok cmdline =>
    match charAt s cmdline with
    | none => .ub
    | some c0 =>
      if c0 = 0 then .ok (.inl cmdline)
      else
        let quoted := decide (c0 = 34)
        let segbeg := if quoted then cmdline + 1 else cmdline + 0
        match segmentEnd s quoted (s.length + 2) (segbeg + 1) with
        | .ub => .ub
        | .timeout => .timeout
        | .ok segend =>
          match charAt s segend with
          | none => .ub
          | some c1 =>
            .ok (.inr (segbeg, segend, if quoted ∧ c1 = 34 then segend + 1 else segend))

/-- The segments found from a cursor on when nothing limits the scan, with
the cursor at which the end of the input is found: `nextSegment` iterated. -/
def scanFrom (s : CStr) : Nat → Nat → Res (List (Nat × Nat) × Nat)
  | 0, _ => .timeout
  | fuel + 1, p =>
    match nextSegment s p with
    | .ub => .ub
    | .timeout => .timeout
    | .ok (.inl q) => .ok ([], q)
    | .ok (.inr (b, e, nx)) =>
      match scanFrom s fuel nx with
      | .ok (l, c) => .ok ((b, e) :: l, c)
      | .ub => .ub
      | .timeout => .timeout

/-- The slot memory after storing `p` to slot `i`. -/
def Slots.put (m : Slots) (i : Nat) (p : Ptr) : Slots :=
  { m with val := fun j => if j = i then some p else m.val j }

/-- The slot memory after the boundaries of the segments `l` were stored as
entries `count, count+1, ..` of the tables starting at slots `tb` and `te`. -/
def writeSegs (tb te : Nat) : Nat → List (Nat × Nat) → Slots → Slots
  | _, [], m => m
  | count, (b, e) :: l, m =>
    writeSegs tb te (count + 1) l ((m.put (tb + count) (.cmd b)).put (te + count) (.cmd e))

/-- Segments lying in a string of length `len`, in order from offset `lo` on:
each is non-empty and starts after the end of the one before it. -/
def chainOK (len : Nat) : Nat → List (Nat × Nat) → Prop
  | _, [] => True
  | lo, (b, e) :: l => lo ≤ b ∧ b < e ∧ e ≤ len ∧ chainOK len (e + 1) l

/-- The string area holds the characters of `t` followed by a NUL at byte
offset `off`. -/
def HoldsStr (blk : Block) (off : Nat) (t : CStr) : Prop :=
  off + t.length < blk.nbytes ∧ (∀ i, i < t.length → blk.byte (off + i) = some (chr t i)) ∧
    blk.byte (off + t.length) = some 0

/-- The characters of `s` from offset `b` up to, not including, offset `e`. -/
def slice (s : CStr) (b e : Nat) : CStr := (s.drop b).take (e - b)

/-- The token texts of a list of boundaries. -/
def tokenTexts (s : CStr) (tr : List (Nat × Nat)) : List CStr :=
  tr.map (fun p => slice s p.1 p.2)

/-! ## Inputs of the round-trip properties -/

/-- A token wrapped in double quotes. -/
def quoted (t : CStr) : CStr := 34 :: (t ++ [34])

/-- The command line built from a list of tokens by wrapping each in double
quotes and joining them with single spaces. -/
def quoteJoin : List CStr → CStr
  | [] => []
  | [t] => quoted t
  | t :: u :: ts => quoted t ++ 32 :: quoteJoin (u :: ts)

/-- A token that survives quoting: non-empty, no NUL and no double quote
inside, not ending with a backslash. -/
def QuotableToken (t : CStr) : Prop :=
  t ≠ [] ∧ (∀ c ∈ t, c ≠ 0 ∧ c ≠ 34) ∧ t.getLast? ≠ some 92

instance (t : CStr) : Decidable (QuotableToken t) := by
  unfold QuotableToken; infer_instance

/-- Where the tokens lie in `quoteJoin`, the first opening quote being at
offset `off`. -/
def quoteBounds : Nat → List CStr → List (Nat × Nat)
  | _, [] => []
  | off, t :: ts => (off + 1, off + 1 + t.length) :: quoteBounds (off + t.length + 3) ts

/-! ## Inputs of the whitespace properties -/

/-- A run of whitespace characters. -/
def IsBlank (w : CStr) : Prop := ∀ c ∈ w, argv_is_whitespace_ascii c = true

instance (w : CStr) : Decidable (IsBlank w) := by
  unfold IsBlank; infer_instance

/-- A token that can stand unquoted: non-empty, no NUL and no whitespace
inside, not starting with a double quote. -/
def WordToken (t : CStr) : Prop :=
  t ≠ [] ∧ (∀ c ∈ t, c ≠ 0 ∧ argv_is_whitespace_ascii c = false) ∧ t.head? ≠ some 34

instance (t : CStr) : Decidable (WordToken t) := by
  unfold WordToken; infer_instance

/-- How a token is written in a command line: wrapped in double quotes, or
as it is. -/
def renderItem (q : Bool) (t : CStr) : CStr := if q then quoted t else t

/-- A command line written item by item: each item is the whitespace before
the token, whether the token is quoted, and the token; `trail` is the
whitespace after the last token. -/
def joinItems : List (CStr × Bool × CStr) → CStr → CStr
  | [], trail => trail
  | (w, q, t) :: rest, trail => w ++ (renderItem q t ++ joinItems rest trail)

/-- The items are well formed: the separators are whitespace, a quoted token
is quotable and an unquoted one is a word, and every token but the first has
at least one whitespace character before it. -/
def ItemsOK (items : List (CStr × Bool × CStr)) : Prop :=
  (∀ it ∈ items, IsBlank it.1 ∧ (if it.2.1 then QuotableToken it.2.2 else WordToken it.2.2)) ∧
    ∀ it ∈ items.tail, it.1 ≠ []

instance (items : List (CStr × Bool × CStr)) : Decidable (ItemsOK items) := by
  unfold ItemsOK; infer_instance

/-- Where the tokens lie in `joinItems`, the first item starting at offset
`off`. -/
def itemBounds : Nat → List (CStr × Bool × CStr) → List (Nat × Nat)
  | _, [] => []
  | off, (w, q, t) :: rest =>
    (off + w.length + (if q then 1 else 0), off + w.length + (if q then 1 else 0) + t.length) ::
      itemBounds (off + w.length + (renderItem q t).length) rest

/-- A command line of `2^31` tokens: ` a` written `2^31` times. -/
def overflowItems : List (CStr × Bool × CStr) :=
  List.replicate 2147483648 ([32], false, [97])

/-- The bytes the copies of the segments take in the string area: the sum of
`len + 1` over the segments. -/
def segBytes (l : List (Nat × Nat)) : Nat :=
  (l.map (fun p => p.2 - p.1 + 1)).sum

/-! ## Reference notions for the comparison claims -/

/-- Unsigned-byte lexicographic comparison of two strings, as the words
"lexicographic comparison of the unsigned bytes" say: the first position
where the bytes differ decides, and a proper prefix comes first. -/
def lexCompare : CStr → CStr → Ordering
  | [], [] => .eq
  | [], _ :: _ => .lt
  | _ :: _, [] => .gt
  | x :: a, y :: b =>
    if x % 256 < y % 256 then .lt
    else if y % 256 < x % 256 then .gt
    else lexCompare a b

/-- The characters of an ASCII string literal as a C string. -/
def cstr (t : String) : CStr := t.toList.map (fun c => (c.toNat : Int))


/-! ## Theorems: the finder -/

theorem argv_strcmp_eq_zero_iff (sgn : Bool) (a b : CStr) (ha : IsCStr sgn a)
    (hb : IsCStr sgn b) : argv_strcmp a b = 0 ↔ a = b := by
  induction a generalizing b with
  | nil =>
    cases b with
    | nil => simp [argv_strcmp]
    | cons y b =>
      have hy := hb y (List.mem_cons_self _ _)
      simp only [argv_strcmp, List.headD_cons]
      constructor
      · intro h
        exfalso
        rcases hy with ⟨h0, hr⟩
        unfold CharRange at hr
        cases sgn <;> simp at hr <;> omega
      · intro h; cases h
  | cons x a ih =>
    have hx := ha x (List.mem_cons_self _ _)
    have ha2 : IsCStr sgn a := fun c hc => ha c (List.mem_cons_of_mem _ hc)
    cases b with
    | nil =>
      simp only [argv_strcmp, List.headD_nil]
      rcases hx with ⟨h0, hr⟩
      unfold CharRange at hr
      have : ¬ (x ≠ 0 ∧ x = 0) := fun h => h.1 h.2
      rw [if_neg this]
      constructor
      · intro h; exfalso; cases sgn <;> simp at hr <;> omega
      · intro h; cases h
    | cons y b =>
      have hy := hb y (List.mem_cons_self _ _)
      have hb2 : IsCStr sgn b := fun c hc => hb c (List.mem_cons_of_mem _ hc)
      simp only [argv_strcmp, List.headD_cons, List.tail_cons]
      by_cases hxy : x = y
      · subst hxy
        rw [if_pos ⟨hx.1, rfl⟩, ih b ha2 hb2]
        simp
      · have : ¬ (x ≠ 0 ∧ x = y) := fun h => hxy h.2
        rw [if_neg this]
        constructor
        · intro h
          exfalso
          rcases hx with ⟨_, hrx⟩
          rcases hy with ⟨_, hry⟩
          unfold CharRange at hrx hry
          cases sgn <;> simp at hrx hry <;> omega
        · intro h; cases h; exact absurd rfl hxy

/-- The loop of `argv_find` started at index `i` with `n` iterations left finds
the first index in `[i, i+n)` whose string equals the key. -/
theorem argv_find_loop_found (sgn : Bool) (argv : List CStr) (key : CStr)
    (index : Option Int) (hargv : ∀ a ∈ argv, IsCStr sgn a) (hkey : IsCStr sgn key)
    (n i m : Nat) (him : i ≤ m) (hmn : m < i + n) (hlen : i + n ≤ argv.length)
    (hm : argv.get? m = some key)
    (hfirst : ∀ j, i ≤ j → j < m → argv.get? j ≠ some key) :
    argv_find_loop argv key index n i = .ok (0, index.map (fun _ => (m : Int))) := by
  induction n generalizing i with
  | zero => omega
  | succ n ih =>
    have hi : i < argv.length := by omega
    obtain ⟨a, hai⟩ : ∃ a, argv.get? i = some a := ⟨argv[i], List.get?_eq_get hi⟩
    have hamem : a ∈ argv := List.get?_mem hai
    simp only [argv_find_loop, hai]
    by_cases hcmp : argv_strcmp a key = 0
    · rw [if_pos hcmp]
      have hak : a = key := (argv_strcmp_eq_zero_iff sgn a key (hargv a hamem) hkey).1 hcmp
      have : ¬ i < m := fun hlt => hfirst i (le_refl _) hlt (hak ▸ hai)
      have : i = m := by omega
      subst this; rfl
    · rw [if_neg hcmp]
      have hne : i ≠ m := by
        intro h; subst h
        rw [hai] at hm
        cases hm
        exact hcmp ((argv_strcmp_eq_zero_iff sgn key key hkey hkey).2 rfl)
      exact ih (i + 1) (by omega) (by omega) (by omega)
        (fun j hj hjm => hfirst j (by omega) hjm)

/-- The loop of `argv_find` reports not-found when no string in `[i, i+n)`
equals the key. -/
theorem argv_find_loop_absent (sgn : Bool) (argv : List CStr) (key : CStr)
    (index : Option Int) (hargv : ∀ a ∈ argv, IsCStr sgn a) (hkey : IsCStr sgn key)
    (n i : Nat) (hlen : i + n ≤ argv.length)
    (hnone : ∀ j, i ≤ j → j < i + n → argv.get? j ≠ some key) :
    argv_find_loop argv key index n i = .ok (-1, index) := by
  induction n generalizing i with
  | zero => rfl
  | succ n ih =>
    have hi : i < argv.length := by omega
    obtain ⟨a, hai⟩ : ∃ a, argv.get? i = some a := ⟨argv[i], List.get?_eq_get hi⟩
    have hamem : a ∈ argv := List.get?_mem hai
    simp only [argv_find_loop, hai]
    have hcmp : ¬ argv_strcmp a key = 0 := by
      intro h
      have hak : a = key := (argv_strcmp_eq_zero_iff sgn a key (hargv a hamem) hkey).1 h
      exact hnone i (le_refl _) (by omega) (hak ▸ hai)
    rw [if_neg hcmp]
    exact ih (i + 1) (by omega) (fun j hj hjn => hnone j (by omega) (by omega))

/-- C1. In an argument list of at least two strings in which the key equals
the element at some index `i` with `1 ≤ i < argc`, and at no smaller index
from 1 on, `argv_find` returns 0 and stores `i` in `*index` (when `index` is
not null): the first match wins. -/
theorem argv_find_first_match (sgn : Bool) (argv : List CStr) (key : CStr)
    (index : Option Int) (i : Nat)
    (hargv : ∀ a ∈ argv, IsCStr sgn a) (hkey : IsCStr sgn key)
    (hargc : 2 ≤ argv.length) (hi1 : 1 ≤ i) (hi : i < argv.length)
    (hmatch : argv.get? i = some key)
    (hfirst : ∀ j, 1 ≤ j → j < i → argv.get? j ≠ some key) :
    argv_find (argv.length : Int) (some argv) (some key) index
      = .ok (0, index.map (fun _ => (i : Int))) := by
  have h1 : ¬ ((argv.length : Int) ≤ 1) := by omega
  simp only [argv_find, if_neg h1]
  have hn : ((argv.length : Int) - 1).toNat = argv.length - 1 := by omega
  rw [hn]
  exact argv_find_loop_found sgn argv key index hargv hkey (argv.length - 1) 1 i hi1
    (by omega) (by omega) hmatch hfirst

theorem argv_find_first_match_witness :
    argv_find 4 (some [cstr "appname", cstr "key", cstr "x", cstr "key"]) (some (cstr "key"))
      (some 7) = .ok (0, some 1) :=
  argv_find_first_match true [cstr "appname", cstr "key", cstr "x", cstr "key"] (cstr "key")
    (some 7) 1 (by decide) (by decide) (by decide) (by decide) (by decide) (by decide)
    (by intro j h1 h2; omega)


/-- Case analysis of `argv_find` on a well-formed argument list: either no
element from index 1 on equals the key and -1 is returned with `*index`
untouched, or 0 is returned and `*index` is the first such index. -/
theorem argv_find_cases (sgn : Bool) (argc : Int) (argv : Option (List CStr))
    (key : Option CStr) (index : Option Int)
    (hargv : ∀ av, argv = some av → argc = av.length ∧ ∀ a ∈ av, IsCStr sgn a)
    (hkey : ∀ k, key = some k → IsCStr sgn k) :
    (argv_find argc argv key index = .ok (-1, index) ∧
      (argc ≤ 1 ∨ argv = none ∨ key = none ∨
        ∀ av k, argv = some av → key = some k →
          ∀ i : Nat, 1 ≤ i → (i : Int) < argc → av.get? i ≠ some k)) ∨
    (∃ av k, ∃ i : Nat, argv = some av ∧ key = some k ∧ 1 < argc ∧ 1 ≤ i ∧ (i : Int) < argc ∧
      av.get? i = some k ∧ (∀ j, 1 ≤ j → j < i → av.get? j ≠ some k) ∧
      argv_find argc argv key index = .ok (0, index.map (fun _ => (i : Int)))) := by
  cases argv with
  | none => left; exact ⟨by simp [argv_find], Or.inr (Or.inl rfl)⟩
  | some av =>
    cases key with
    | none => left; exact ⟨by simp [argv_find], Or.inr (Or.inr (Or.inl rfl))⟩
    | some k =>
      obtain ⟨hlen, hstr⟩ := hargv av rfl
      have hk := hkey k rfl
      by_cases h1 : argc ≤ 1
      · left; exact ⟨by simp [argv_find, h1], Or.inl h1⟩
      · have hn : (argc - 1).toNat = av.length - 1 := by omega
        by_cases hex : ∃ i : Nat, 1 ≤ i ∧ i < av.length ∧ av.get? i = some k
        · right
          classical
          have hmin := Nat.find_spec hex
          have hlt := fun j (hj : j < Nat.find hex) => Nat.find_min hex hj
          refine ⟨av, k, Nat.find hex, rfl, rfl, by omega, hmin.1, by omega, hmin.2.2, ?_, ?_⟩
          · intro j hj1 hjm hj
            exact hlt j hjm ⟨hj1, by omega, hj⟩
          · simp only [argv_find, if_neg h1, hn]
            refine argv_find_loop_found sgn av k index hstr hk (av.length - 1) 1 (Nat.find hex)
              hmin.1 (by omega) (by omega) hmin.2.2 ?_
            intro j hj1 hjm hj
            exact hlt j hjm ⟨hj1, by omega, hj⟩
        · left
          have hnone : ∀ j, 1 ≤ j → j < 1 + (av.length - 1) → av.get? j ≠ some k :=
            fun j hj1 hj2 hj => hex ⟨j, hj1, by omega, hj⟩
          refine ⟨?_, Or.inr (Or.inr (Or.inr ?_))⟩
          · simp only [argv_find, if_neg h1, hn]
            exact argv_find_loop_absent sgn av k index hstr hk (av.length - 1) 1 (by omega) hnone
          · intro av2 k2 hav hk2 i hi1 hi2
            cases hav; cases hk2
            exact hnone i hi1 (by omega)

/-- C2. On a well-formed argument list (`argc` strings when `argv` is not
null) `argv_find` returns a negative number exactly when `argc ≤ 1`, or `argv`
or `key` is null, or no index `i` with `1 ≤ i < argc` has `argv[i]` equal to
the key; so a list of fewer than two elements, and a key that occurs at index
0 only, are reported not found. -/
theorem argv_find_negative_iff (sgn : Bool) (argc : Int) (argv : Option (List CStr))
    (key : Option CStr) (index : Option Int)
    (hargv : ∀ av, argv = some av → argc = av.length ∧ ∀ a ∈ av, IsCStr sgn a)
    (hkey : ∀ k, key = some k → IsCStr sgn k) :
    ∃ r idx, argv_find argc argv key index = .ok (r, idx) ∧
      (r < 0 ↔ (argc ≤ 1 ∨ argv = none ∨ key = none ∨
        ∀ av k, argv = some av → key = some k →
          ∀ i : Nat, 1 ≤ i → (i : Int) < argc → av.get? i ≠ some k)) := by
  rcases argv_find_cases sgn argc argv key index hargv hkey with ⟨hres, hcond⟩ |
    ⟨av, k, i, hav, hk, hargc, hi1, hi2, hget, _, hres⟩
  · exact ⟨-1, index, hres, fun _ => hcond, fun _ => by norm_num⟩
  · refine ⟨0, index.map (fun _ => (i : Int)), hres, ?_⟩
    constructor
    · intro h; omega
    · rintro (h | h | h | h)
      · omega
      · rw [hav] at h; cases h
      · rw [hk] at h; cases h
      · exact absurd hget (h av k hav hk i hi1 hi2)

theorem argv_find_negative_iff_witness :
    ∃ r idx, argv_find 2 (some [cstr "key", cstr "other"]) (some (cstr "key")) (some 7)
        = .ok (r, idx) ∧
      (r < 0 ↔ ((2 : Int) ≤ 1 ∨ some [cstr "key", cstr "other"] = (none : Option (List CStr)) ∨
        some (cstr "key") = (none : Option CStr) ∨
        ∀ av k, some [cstr "key", cstr "other"] = some av → some (cstr "key") = some k →
          ∀ i : Nat, 1 ≤ i → (i : Int) < 2 → av.get? i ≠ some k)) :=
  argv_find_negative_iff true 2 (some [cstr "key", cstr "other"]) (some (cstr "key")) (some 7)
    (by intro av h; cases h; exact ⟨rfl, by decide⟩)
    (by intro k h; cases h; decide)

/-- C3. On a well-formed argument list, with `i` the index `argv_find` reports
for the key: when the key is found and `i+1 < argc`, `argv_get` returns
`argv[i+1]` itself; and `argv_get` returns null exactly when `argv_find` does
not find the key or `i+1 == argc`. -/
theorem argv_get_follows_find (sgn : Bool) (argc : Int) (argv : Option (List CStr))
    (key : Option CStr) (ikey : Int)
    (hargv : ∀ av, argv = some av → argc = av.length ∧ ∀ a ∈ av, IsCStr sgn a)
    (hkey : ∀ k, key = some k → IsCStr sgn k) :
    ∃ r i, argv_find argc argv key (some ikey) = .ok (r, some i) ∧
      (r = 0 → i + 1 < argc →
        ∃ av v, argv = some av ∧ av.get? (i + 1).toNat = some v ∧
          argv_get argc argv key ikey = .ok (some v)) ∧
      (argv_get argc argv key ikey = .ok none ↔ (r ≠ 0 ∨ i + 1 = argc)) := by
  rcases argv_find_cases sgn argc argv key (some ikey) hargv hkey with ⟨hres, _⟩ |
    ⟨av, k, i, hav, hk, hargc, hi1, hi2, hget, _, hres⟩
  · refine ⟨-1, ikey, hres, fun h => by omega, ?_⟩
    simp [argv_get, hres]
  · obtain ⟨hlen, _⟩ := hargv av hav
    subst hav
    subst hk
    simp only [Option.map_some'] at hres
    refine ⟨0, i, hres, ?_, ?_⟩
    · intro _ hlt
      have hlt2 : i + 1 < av.length := by omega
      have hnat : ((i : Int) + 1).toNat = i + 1 := by omega
      refine ⟨av, av[i + 1], rfl, ?_, ?_⟩
      · rw [hnat]; exact List.get?_eq_get hlt2
      · have hne : ¬ ((i : Int) + 1 = argc) := by omega
        simp only [argv_get, hres, Option.getD_some, if_neg hne, hnat,
          List.get?_eq_get hlt2, ne_eq, not_true_eq_false, if_false]
        rfl
    · by_cases hlast : (i : Int) + 1 = argc
      · simp [argv_get, hres, hlast]
      · have hlt2 : i + 1 < av.length := by omega
        have hnat : ((i : Int) + 1).toNat = i + 1 := by omega
        simp [argv_get, hres, hlast, hnat, List.getElem?_eq_getElem hlt2]

theorem argv_get_follows_find_witness :
    ∃ r i, argv_find 3 (some [cstr "appname", cstr "--key", cstr "value"])
        (some (cstr "--key")) (some 0) = .ok (r, some i) ∧
      (r = 0 → i + 1 < 3 →
        ∃ av v, some [cstr "appname", cstr "--key", cstr "value"] = some av ∧
          av.get? (i + 1).toNat = some v ∧
          argv_get 3 (some [cstr "appname", cstr "--key", cstr "value"])
            (some (cstr "--key")) 0 = .ok (some v)) ∧
      (argv_get 3 (some [cstr "appname", cstr "--key", cstr "value"])
          (some (cstr "--key")) 0 = .ok none ↔ (r ≠ 0 ∨ i + 1 = 3)) :=
  argv_get_follows_find true 3 (some [cstr "appname", cstr "--key", cstr "value"])
    (some (cstr "--key")) 0
    (by intro av h; cases h; exact ⟨rfl, by decide⟩)
    (by intro k h; cases h; decide)

/-! ## Lemmas: the scanning loops -/

theorem charAt_of_le (s : CStr) (i : Nat) (h : i ≤ s.length) :
    charAt s i = some (chr s i) := by
  simp only [charAt, if_pos h]

theorem charAt_of_gt (s : CStr) (i : Nat) (h : s.length < i) : charAt s i = none := by
  have : ¬ i ≤ s.length := by omega
  simp only [charAt, if_neg this]

theorem chr_length (s : CStr) : chr s s.length = 0 :=
  List.getD_eq_default _ _ (le_refl _)

theorem whitespace_ne_zero (c : Int) (h : argv_is_whitespace_ascii c = true) : c ≠ 0 := by
  intro h0
  subst h0
  simp [argv_is_whitespace_ascii] at h

/-- The trimming loop skips `k` whitespace characters and stops at the first
character that is not one. -/
theorem argv_ltrim_skip (s : CStr) (k p fuel : Nat)
    (hws : ∀ j, j < k → argv_is_whitespace_ascii (chr s (p + j)) = true)
    (hend : argv_is_whitespace_ascii (chr s (p + k)) = false)
    (hlen : p + k ≤ s.length) (hfuel : k < fuel) :
    argv_ltrim s fuel p = .ok (p + k) := by
  induction k generalizing p fuel with
  | zero =>
    obtain ⟨f, rfl⟩ : ∃ f, fuel = f + 1 := ⟨fuel - 1, by omega⟩
    simp only [argv_ltrim, charAt_of_le s p (by omega)]
    simp only [Nat.add_zero] at hend
    by_cases h0 : chr s p = 0
    · simp [h0]
    · simp [h0, hend]
  | succ k ih =>
    obtain ⟨f, rfl⟩ : ∃ f, fuel = f + 1 := ⟨fuel - 1, by omega⟩
    have hp := hws 0 (by omega)
    simp only [Nat.add_zero] at hp
    have h0 : chr s p ≠ 0 := whitespace_ne_zero _ hp
    simp only [argv_ltrim, charAt_of_le s p (by omega), ne_eq, h0, not_false_eq_true, if_true,
      hp, Bool.not_true, Bool.false_eq_true, if_false]
    have := ih (p + 1) f (fun j hj => by have := hws (j + 1) (by omega); rwa [show p + 1 + j = p + (j + 1) by omega])
      (by rwa [show p + 1 + k = p + (k + 1) by omega]) (by omega) (by omega)
    rw [this]
    congr 1
    omega

/-- From an in-bounds cursor the trimming loop always succeeds, within the
budget, at an in-bounds offset holding no whitespace. -/
theorem argv_ltrim_total (s : CStr) (n p fuel : Nat) (hn : p + n = s.length)
    (hfuel : n < fuel) :
    ∃ k, p + k ≤ s.length ∧ argv_ltrim s fuel p = .ok (p + k) ∧
      (∀ j, j < k → argv_is_whitespace_ascii (chr s (p + j)) = true) ∧
      argv_is_whitespace_ascii (chr s (p + k)) = false := by
  induction n generalizing p fuel with
  | zero =>
    have hp : p = s.length := by omega
    have hend : argv_is_whitespace_ascii (chr s (p + 0)) = false := by
      rw [Nat.add_zero, hp, chr_length]; rfl
    exact ⟨0, by omega, argv_ltrim_skip s 0 p fuel (fun j hj => by omega) hend (by omega) hfuel,
      fun j hj => by omega, hend⟩
  | succ n ih =>
    by_cases hp : argv_is_whitespace_ascii (chr s p) = true
    · obtain ⟨k, hk1, _, hk3, hk4⟩ := ih (p + 1) (fuel - 1) (by omega) (by omega)
      have hws : ∀ j, j < k + 1 → argv_is_whitespace_ascii (chr s (p + j)) = true := by
        intro j hj
        rcases Nat.eq_zero_or_pos j with h | h
        · subst h; simpa using hp
        · have := hk3 (j - 1) (by omega)
          rwa [show p + 1 + (j - 1) = p + j by omega] at this
      have hend : argv_is_whitespace_ascii (chr s (p + (k + 1))) = false := by
        rwa [show p + (k + 1) = p + 1 + k by omega]
      exact ⟨k + 1, by omega, argv_ltrim_skip s (k + 1) p fuel hws hend (by omega) (by omega),
        hws, hend⟩
    · have hend : argv_is_whitespace_ascii (chr s (p + 0)) = false := by
        simpa using hp
      exact ⟨0, by omega, argv_ltrim_skip s 0 p fuel (fun j hj => by omega) hend (by omega)
        (by omega), fun j hj => by omega, hend⟩

/-- One iteration of the inner loop at a character where it stops. -/
theorem segmentEnd_stop (s : CStr) (quoted : Bool) (fuel e : Nat) (hlen : e ≤ s.length)
    (hstop : stopsAt s quoted e = true) : segmentEnd s quoted (fuel + 1) e = .ok e := by
  simp only [segmentEnd, charAt_of_le s e hlen]
  by_cases h0 : chr s e = 0
  · simp [h0]
  · simp only [h0, if_false]
    cases quoted with
    | true =>
      simp only [stopsAt, h0, decide_False, Bool.false_or, if_true, decide_eq_true_eq] at hstop
      simp only [if_true, hstop.1, charAt_of_le s (e - 1) (by omega), ne_eq, hstop.2,
        not_false_eq_true]
    | false =>
      simp only [stopsAt, h0, decide_False, Bool.false_or, Bool.false_eq_true, if_false] at hstop
      simp only [Bool.false_eq_true, if_false, hstop, if_true]

/-- One iteration of the inner loop at a character where it does not stop. -/
theorem segmentEnd_step (s : CStr) (quoted : Bool) (fuel e : Nat) (hlen : e ≤ s.length)
    (hgo : stopsAt s quoted e = false) :
    segmentEnd s quoted (fuel + 1) e = segmentEnd s quoted fuel (e + 1) := by
  simp only [segmentEnd, charAt_of_le s e hlen]
  have h0 : chr s e ≠ 0 := by
    intro h
    simp [stopsAt, h] at hgo
  simp only [h0, if_false]
  cases quoted with
  | true =>
    simp only [stopsAt, h0, decide_False, Bool.false_or, if_true, decide_eq_false_iff_not,
      not_and, not_not] at hgo
    by_cases hq : chr s e = 34
    · simp only [if_true, hq, charAt_of_le s (e - 1) (by omega), ne_eq, hgo hq,
        not_true_eq_false, if_false]
    · simp only [if_true, hq, if_false]
  | false =>
    simp only [stopsAt, h0, decide_False, Bool.false_or, Bool.false_eq_true, if_false] at hgo
    simp only [Bool.false_eq_true, if_false, hgo]

/-- The inner loop passes `k` characters at which it does not stop and ends at
the first one where it does. -/
theorem segmentEnd_skip (s : CStr) (quoted : Bool) (k e fuel : Nat)
    (hgo : ∀ j, j < k → stopsAt s quoted (e + j) = false)
    (hstop : stopsAt s quoted (e + k) = true)
    (hlen : e + k ≤ s.length) (hfuel : k < fuel) :
    segmentEnd s quoted fuel e = .ok (e + k) := by
  induction k generalizing e fuel with
  | zero =>
    obtain ⟨f, rfl⟩ : ∃ f, fuel = f + 1 := ⟨fuel - 1, by omega⟩
    exact segmentEnd_stop s quoted f e (by omega) (by simpa using hstop)
  | succ k ih =>
    obtain ⟨f, rfl⟩ : ∃ f, fuel = f + 1 := ⟨fuel - 1, by omega⟩
    rw [segmentEnd_step s quoted f e (by omega) (by simpa using hgo 0 (by omega))]
    have := ih (e + 1) f (fun j hj => by have := hgo (j + 1) (by omega); rwa [show e + 1 + j = e + (j + 1) by omega])
      (by rwa [show e + 1 + k = e + (k + 1) by omega]) (by omega) (by omega)
    rw [this]
    congr 1
    omega

theorem stopsAt_length (s : CStr) (quoted : Bool) : stopsAt s quoted s.length = true := by
  simp [stopsAt, chr_length]

/-- From an in-bounds start the inner loop always succeeds, within the budget,
at the first offset where it stops. -/
theorem segmentEnd_total (s : CStr) (quoted : Bool) (n e fuel : Nat) (hn : e + n = s.length)
    (hfuel : n < fuel) :
    ∃ k, e + k ≤ s.length ∧ segmentEnd s quoted fuel e = .ok (e + k) ∧
      (∀ j, j < k → stopsAt s quoted (e + j) = false) ∧ stopsAt s quoted (e + k) = true := by
  induction n generalizing e fuel with
  | zero =>
    have he : e = s.length := by omega
    have hstop : stopsAt s quoted (e + 0) = true := by
      rw [Nat.add_zero, he]; exact stopsAt_length s quoted
    exact ⟨0, by omega, segmentEnd_skip s quoted 0 e fuel (fun j hj => by omega) hstop (by omega)
      hfuel, fun j hj => by omega, hstop⟩
  | succ n ih =>
    by_cases hp : stopsAt s quoted e = true
    · have hstop : stopsAt s quoted (e + 0) = true := by simpa using hp
      exact ⟨0, by omega, segmentEnd_skip s quoted 0 e fuel (fun j hj => by omega) hstop
        (by omega) (by omega), fun j hj => by omega, hstop⟩
    · obtain ⟨k, hk1, _, hk3, hk4⟩ := ih (e + 1) (fuel - 1) (by omega) (by omega)
      have hgo : ∀ j, j < k + 1 → stopsAt s quoted (e + j) = false := by
        intro j hj
        rcases Nat.eq_zero_or_pos j with h | h
        · subst h; simpa using hp
        · have := hk3 (j - 1) (by omega)
          rwa [show e + 1 + (j - 1) = e + j by omega] at this
      have hstop : stopsAt s quoted (e + (k + 1)) = true := by
        rwa [show e + (k + 1) = e + 1 + k by omega]
      exact ⟨k + 1, by omega, segmentEnd_skip s quoted (k + 1) e fuel hgo hstop (by omega)
        (by omega), hgo, hstop⟩


/-- What one pass through the loop body does from an in-bounds cursor `p`:
with `q` the first offset from `p` on that holds no whitespace, it reports the
end of the input when `q` holds the terminator; an unquoted segment from `q`
to the first stop after `q`; undefined behaviour when `q` holds a double
quote that is the last character; and otherwise a quoted segment from `q+1`
to the first stop from `q+2` on. -/
theorem nextSegment_cases (s : CStr) (p : Nat) (hp : p ≤ s.length) :
    ∃ q, p ≤ q ∧ q ≤ s.length ∧
      (∀ j, p ≤ j → j < q → argv_is_whitespace_ascii (chr s j) = true) ∧
      argv_is_whitespace_ascii (chr s q) = false ∧
      ((chr s q = 0 ∧ nextSegment s p = .ok (.inl q)) ∨
       (chr s q ≠ 0 ∧ chr s q ≠ 34 ∧ ∃ e, q < e ∧ e ≤ s.length ∧
          (∀ j, q < j → j < e → stopsAt s false j = false) ∧ stopsAt s false e = true ∧
          nextSegment s p = .ok (.inr (q, e, e))) ∨
       (chr s q = 34 ∧ q + 1 = s.length ∧ nextSegment s p = .ub) ∨
       (chr s q = 34 ∧ ∃ e, q + 2 ≤ e ∧ e ≤ s.length ∧
          (∀ j, q + 2 ≤ j → j < e → stopsAt s true j = false) ∧ stopsAt s true e = true ∧
          nextSegment s p = .ok (.inr (q + 1, e, if chr s e = 34 then e + 1 else e)))) := by
  obtain ⟨k, hk1, hk2, hk3, hk4⟩ := argv_ltrim_total s (s.length - p) p (s.length + 2)
    (by omega) (by omega)
  refine ⟨p + k, by omega, hk1, ?_, hk4, ?_⟩
  · intro j hj1 hj2
    have := hk3 (j - p) (by omega)
    rwa [show p + (j - p) = j by omega] at this
  · by_cases h0 : chr s (p + k) = 0
    · left
      refine ⟨h0, ?_⟩
      simp only [nextSegment, hk2, charAt_of_le s (p + k) hk1, h0, if_true]
    · have hlt : p + k < s.length := by
        rcases Nat.lt_or_ge (p + k) s.length with h | h
        · exact h
        · exfalso
          have : p + k = s.length := by omega
          rw [this, chr_length] at h0
          exact h0 rfl
      by_cases hq : chr s (p + k) = 34
      · right; right
        rcases Nat.lt_or_ge (p + k + 1) s.length with h | h
        · right
          obtain ⟨m, hm1, hm2, hm3, hm4⟩ := segmentEnd_total s true (s.length - (p + k + 2))
            (p + k + 2) (s.length + 2) (by omega) (by omega)
          refine ⟨hq, p + k + 2 + m, by omega, hm1, ?_, hm4, ?_⟩
          · intro j hj1 hj2
            have := hm3 (j - (p + k + 2)) (by omega)
            rwa [show p + k + 2 + (j - (p + k + 2)) = j by omega] at this
          · simp only [nextSegment, hk2, charAt_of_le s (p + k) hk1, h0, if_false, hq,
              decide_True, if_true, hm2, charAt_of_le s (p + k + 2 + m) hm1, true_and]
            rw [if_neg (by decide : ¬ (34 : Int) = 0)]
        · left
          refine ⟨hq, by omega, ?_⟩
          have hub : segmentEnd s true (s.length + 2) (p + k + 1 + 1) = .ub := by
            simp only [segmentEnd, charAt_of_gt s (p + k + 1 + 1) (by omega)]
          simp only [nextSegment, hk2, charAt_of_le s (p + k) hk1, h0, if_false, hq,
            decide_True, if_true, hub]
          rw [if_neg (by decide : ¬ (34 : Int) = 0)]
      · right; left
        obtain ⟨m, hm1, hm2, hm3, hm4⟩ := segmentEnd_total s false (s.length - (p + k + 1))
          (p + k + 1) (s.length + 2) (by omega) (by omega)
        refine ⟨h0, hq, p + k + 1 + m, by omega, hm1, ?_, hm4, ?_⟩
        · intro j hj1 hj2
          have := hm3 (j - (p + k + 1)) (by omega)
          rwa [show p + k + 1 + (j - (p + k + 1)) = j by omega] at this
        · simp only [nextSegment, hk2, charAt_of_le s (p + k) hk1, h0, if_false, hq,
            decide_False, Bool.false_eq_true, Nat.add_zero, hm2,
            charAt_of_le s (p + k + 1 + m) hm1, false_and]

/-- Bounds on the outcome of one pass through the loop body: it never runs
out of budget, a segment is non-empty and inside the string, and the cursor
moves strictly forward without leaving the string. -/
theorem nextSegment_bounds (s : CStr) (p : Nat) (hp : p ≤ s.length) :
    nextSegment s p = .ub ∨
    (∃ q, nextSegment s p = .ok (.inl q) ∧ p ≤ q ∧ q ≤ s.length) ∨
    (∃ b e nx, nextSegment s p = .ok (.inr (b, e, nx)) ∧ p ≤ b ∧ b < e ∧ e ≤ s.length ∧
      e ≤ nx ∧ nx ≤ s.length ∧ (nx = e ∨ nx = e + 1) ∧
      ¬ (chr s e = 34 ∧ chr s (e - 1) = 92)) := by
  obtain ⟨q, hq1, hq2, _, _, h | h | h | h⟩ := nextSegment_cases s p hp
  · exact Or.inr (Or.inl ⟨q, h.2, hq1, hq2⟩)
  · obtain ⟨_, _, e, he1, he2, _, hstop, hres⟩ := h
    refine Or.inr (Or.inr ⟨q, e, e, hres, hq1, he1, he2, le_refl _, he2, Or.inl rfl, ?_⟩)
    rintro ⟨h34, _⟩
    simp [stopsAt, h34, argv_is_whitespace_ascii] at hstop
  · exact Or.inl h.2.2
  · obtain ⟨_, e, he1, he2, _, hstop, hres⟩ := h
    have hesc : ¬ (chr s e = 34 ∧ chr s (e - 1) = 92) := by
      rintro ⟨h34, h92⟩
      simp [stopsAt, h34, h92] at hstop
    by_cases h34 : chr s e = 34
    · have hlt : e < s.length := by
        rcases Nat.lt_or_ge e s.length with h | h
        · exact h
        · exfalso
          have : e = s.length := by omega
          rw [this, chr_length] at h34
          omega
      rw [if_pos h34] at hres
      exact Or.inr (Or.inr ⟨q + 1, e, e + 1, hres, by omega, by omega, he2, by omega, by omega,
        Or.inr rfl, hesc⟩)
    · rw [if_neg h34] at hres
      exact Or.inr (Or.inr ⟨q + 1, e, e, hres, by omega, by omega, he2, le_refl _, he2,
        Or.inl rfl, hesc⟩)


theorem Slots.set_of_lt (m : Slots) (i : Nat) (p : Ptr) (h : i < m.size) :
    m.set i p = .ok (m.put i p) := by
  simp only [Slots.set, if_pos h, Slots.put]

theorem Slots.put_size (m : Slots) (i : Nat) (p : Ptr) : (m.put i p).size = m.size := rfl

theorem Slots.set_cases (m : Slots) (i : Nat) (p : Ptr) :
    m.set i p = .ok (m.put i p) ∨ m.set i p = .ub := by
  by_cases h : i < m.size
  · exact Or.inl (Slots.set_of_lt m i p h)
  · right; simp only [Slots.set, if_neg h]

theorem recordSegment_ne_timeout (tb te : Option Nat) (b e count : Nat) (mem : Slots) :
    recordSegment tb te b e count mem ≠ .timeout := by
  unfold recordSegment
  by_cases h : e > b
  · rw [if_pos h]
    cases tb with
    | none => simp
    | some tb =>
      cases te with
      | none => simp
      | some te =>
        simp only []
        rcases Slots.set_cases mem (tb + count) (.cmd b) with h1 | h1
        · rw [h1]
          simp only []
          rcases Slots.set_cases (mem.put (tb + count) (.cmd b)) (te + count) (.cmd e) with
            h2 | h2
          · rw [h2]; simp
          · rw [h2]; simp
        · rw [h1]; simp
  · rw [if_neg h]; simp

/-- The segment loop, one iteration unfolded, in terms of `nextSegment`. -/
theorem segmentLoop_succ (s : CStr) (cap : Int) (tb te : Option Nat) (fuel : Nat)
    (st : ScanState) :
    segmentLoop s cap tb te (fuel + 1) st =
      if (tb = none ∨ te = none) ∨ (st.count : Int) < cap then
        match nextSegment s st.cmdline with
        | .ub => .ub
        | .timeout => .timeout
        | .ok (.inl q) => .ok { st with cmdline := q }
        | .ok (.inr (b, e, nx)) =>
          match recordSegment tb te b e st.count st.mem with
          | .ub => .ub
          | .timeout => .timeout
          | .ok (count, mem) =>
            segmentLoop s cap tb te fuel
              { cmdline := nx, count := count, mem := mem,
                trace := if e > b then st.trace ++ [(b, e)] else st.trace }
      else .ok st := by
  rw [segmentLoop]
  by_cases hc : (tb = none ∨ te = none) ∨ (st.count : Int) < cap
  · simp only [if_pos hc, nextSegment]
    cases argv_ltrim s (s.length + 2) st.cmdline with
    | ub => rfl
    | timeout => rfl
    | ok q =>
      simp only []
      cases charAt s q with
      | none => rfl
      | some c0 =>
        simp only []
        by_cases h0 : c0 = 0
        · simp only [if_pos h0]
        · simp only [if_neg h0]
          cases segmentEnd s (decide (c0 = 34)) (s.length + 2)
              ((if decide (c0 = 34) = true then q + 1 else q + 0) + 1) with
          | ub => rfl
          | timeout => rfl
          | ok e =>
            simp only []
            cases charAt s e with
            | none =>
              simp only []
              have hne := recordSegment_ne_timeout tb te
                (if decide (c0 = 34) = true then q + 1 else q + 0) e st.count st.mem
              revert hne
              cases recordSegment tb te (if decide (c0 = 34) = true then q + 1 else q + 0) e
                st.count st.mem with
              | ub => intro _; rfl
              | timeout => intro h; exact absurd rfl h
              | ok r => intro _; rfl
            | some c1 => rfl
  · simp only [if_neg hc]


theorem recordSegment_untabled (tb te : Option Nat) (htab : tb = none ∨ te = none)
    (b e count : Nat) (mem : Slots) (hbe : b < e) :
    recordSegment tb te b e count mem = .ok (count + 1, mem) := by
  unfold recordSegment
  rw [if_pos hbe]
  rcases htab with h | h
  · subst h; rfl
  · subst h; cases tb <;> rfl

theorem recordSegment_tabled (tb te : Nat) (b e count : Nat) (mem : Slots) (hbe : b < e)
    (h1 : tb + count < mem.size) (h2 : te + count < mem.size) :
    recordSegment (some tb) (some te) b e count mem =
      .ok (count + 1, (mem.put (tb + count) (.cmd b)).put (te + count) (.cmd e)) := by
  unfold recordSegment
  rw [if_pos hbe]
  simp only [Slots.set_of_lt mem _ _ h1,
    Slots.set_of_lt (mem.put (tb + count) (.cmd b)) (te + count) (.cmd e) h2]

/-- Without both tables the loop does not stop before the end of the input:
it counts and traces exactly the segments of `scanFrom`, and leaves the slot
memory alone. -/
theorem segmentLoop_unlimited (s : CStr) (cap : Int) (tb te : Option Nat)
    (htab : tb = none ∨ te = none) (fuel : Nat) (st : ScanState)
    (hst : st.cmdline ≤ s.length) :
    segmentLoop s cap tb te fuel st =
      match scanFrom s fuel st.cmdline with
      | .ok (l, c) =>
        .ok { cmdline := c, count := st.count + l.length, mem := st.mem, trace := st.trace ++ l }
      | .ub => .ub
      | .timeout => .timeout := by
  induction fuel generalizing st with
  | zero => rfl
  | succ fuel ih =>
    rw [segmentLoop_succ, if_pos (Or.inl htab), scanFrom]
    rcases nextSegment_bounds s st.cmdline hst with h | ⟨q, h, _, _⟩ |
      ⟨b, e, nx, h, _, hbe, _, _, hnx, _, _⟩
    · rw [h]
    · rw [h]
      simp
    · rw [h]
      simp only [recordSegment_untabled tb te htab b e st.count st.mem hbe]
      rw [ih _ hnx]
      simp only [gt_iff_lt, hbe, if_true]
      cases scanFrom s fuel nx with
      | ub => rfl
      | timeout => rfl
      | ok r =>
        obtain ⟨l, c⟩ := r
        simp only [List.length_cons, List.append_assoc, List.singleton_append]
        congr 2
        omega

/-- The scan never runs out of budget when the budget exceeds the distance
from the cursor to the end of the string. -/
theorem scanFrom_ne_timeout (s : CStr) (fuel p : Nat) (hp : p ≤ s.length)
    (hfuel : s.length - p < fuel) : scanFrom s fuel p ≠ .timeout := by
  induction fuel generalizing p with
  | zero => omega
  | succ fuel ih =>
    rw [scanFrom]
    rcases nextSegment_bounds s p hp with h | ⟨q, h, _, _⟩ |
      ⟨b, e, nx, h, _, hbe, _, _, hnx, _, _⟩
    · rw [h]; simp
    · rw [h]; simp
    · rw [h]
      simp only []
      have := ih nx hnx (by omega)
      revert this
      cases scanFrom s fuel nx with
      | ub => intro _; simp
      | timeout => intro h; exact absurd rfl h
      | ok r => intro _; simp

/-- The segments of a scan are non-empty, inside the string, in order, and
separated by at least one character. -/
theorem scanFrom_chain (s : CStr) (fuel p : Nat) (l : List (Nat × Nat)) (c : Nat)
    (hp : p ≤ s.length) (h : scanFrom s fuel p = .ok (l, c)) :
    chainOK s.length p l ∧
      ((chr s p = 0 ∨ argv_is_whitespace_ascii (chr s p) = true) →
        chainOK s.length (p + 1) l) := by
  induction fuel generalizing p l c with
  | zero => simp [scanFrom] at h
  | succ fuel ih =>
    rw [scanFrom] at h
    obtain ⟨q, hq1, hq2, hq3, hq4, hc⟩ := nextSegment_cases s p hp
    have hstart : (chr s p = 0 ∨ argv_is_whitespace_ascii (chr s p) = true) →
        chr s q ≠ 0 → p + 1 ≤ q := by
      intro h0 hq0
      rcases Nat.eq_or_lt_of_le hq1 with heq | hlt
      · exfalso
        subst heq
        rcases h0 with h0 | h0
        · exact hq0 h0
        · rw [h0] at hq4; cases hq4
      · omega
    rcases hc with ⟨_, hres⟩ | ⟨hq0, _, e, he1, he2, _, hstop, hres⟩ | ⟨_, _, hres⟩ |
      ⟨hq34, e, he1, he2, _, hstop, hres⟩
    · rw [hres] at h
      simp only [Res.ok.injEq, Prod.mk.injEq] at h
      rw [← h.1]
      exact ⟨trivial, fun _ => trivial⟩
    · rw [hres] at h
      simp only [] at h
      revert h
      cases hrec : scanFrom s fuel e with
      | ub => intro h; cases h
      | timeout => intro h; cases h
      | ok r =>
        obtain ⟨l2, c2⟩ := r
        intro h
        simp only [Res.ok.injEq, Prod.mk.injEq] at h
        rw [← h.1]
        have hchain : chainOK s.length (e + 1) l2 := by
          refine (ih e l2 c2 he2 hrec).2 ?_
          have : ¬ (34 : Int) = 0 := by decide
          simp only [stopsAt, Bool.or_eq_true, decide_eq_true_eq, Bool.false_eq_true,
            if_false] at hstop
          exact hstop
        exact ⟨⟨hq1, he1, he2, hchain⟩, fun h0 => ⟨hstart h0 hq0, he1, he2, hchain⟩⟩
    · rw [hres] at h; cases h
    · rw [hres] at h
      simp only [] at h
      have hq0 : chr s q ≠ 0 := by rw [hq34]; decide
      by_cases h34 : chr s e = 34
      · have hlt : e < s.length := by
          rcases Nat.lt_or_ge e s.length with h | h
          · exact h
          · exfalso
            have : e = s.length := by omega
            rw [this, chr_length] at h34
            omega
        rw [if_pos h34] at h
        revert h
        cases hrec : scanFrom s fuel (e + 1) with
        | ub => intro h; cases h
        | timeout => intro h; cases h
        | ok r =>
          obtain ⟨l2, c2⟩ := r
          intro h
          simp only [Res.ok.injEq, Prod.mk.injEq] at h
          rw [← h.1]
          have hchain : chainOK s.length (e + 1) l2 := (ih (e + 1) l2 c2 (by omega) hrec).1
          exact ⟨⟨by omega, by omega, he2, hchain⟩,
            fun h0 => ⟨by have := hstart h0 hq0; omega, by omega, he2, hchain⟩⟩
      · rw [if_neg h34] at h
        revert h
        cases hrec : scanFrom s fuel e with
        | ub => intro h; cases h
        | timeout => intro h; cases h
        | ok r =>
          obtain ⟨l2, c2⟩ := r
          intro h
          simp only [Res.ok.injEq, Prod.mk.injEq] at h
          rw [← h.1]
          have hchain : chainOK s.length (e + 1) l2 := by
            refine (ih e l2 c2 he2 hrec).2 (Or.inl ?_)
            simp only [stopsAt, Bool.or_eq_true, decide_eq_true_eq, if_true, h34,
              false_and, or_false] at hstop
            exact hstop
          exact ⟨⟨by omega, by omega, he2, hchain⟩,
            fun h0 => ⟨by have := hstart h0 hq0; omega, by omega, he2, hchain⟩⟩


theorem writeSegs_size (tb te : Nat) (l : List (Nat × Nat)) (count : Nat) (m : Slots) :
    (writeSegs tb te count l m).size = m.size := by
  induction l generalizing count m with
  | nil => rfl
  | cons x l ih =>
    obtain ⟨b, e⟩ := x
    rw [writeSegs, ih]
    rfl

/-- With both tables the loop stores and counts the first segments of the
unlimited scan, as many as the capacity allows. -/
theorem segmentLoop_limited (s : CStr) (cap : Int) (tb te : Nat) (fuel : Nat) (st : ScanState)
    (hst : st.cmdline ≤ s.length) (l : List (Nat × Nat)) (c : Nat)
    (hscan : scanFrom s fuel st.cmdline = .ok (l, c))
    (hfit : tb + st.count + min (cap - st.count).toNat l.length ≤ st.mem.size ∧
      te + st.count + min (cap - st.count).toNat l.length ≤ st.mem.size) :
    ∃ st2, segmentLoop s cap (some tb) (some te) fuel st = .ok st2 ∧
      st2.count = st.count + min (cap - st.count).toNat l.length ∧
      st2.trace = st.trace ++ l.take (min (cap - st.count).toNat l.length) ∧
      st2.mem = writeSegs tb te st.count (l.take (min (cap - st.count).toNat l.length)) st.mem := by
  induction fuel generalizing st l c with
  | zero => simp [scanFrom] at hscan
  | succ fuel ih =>
    rw [segmentLoop_succ]
    by_cases hc : (st.count : Int) < cap
    · rw [if_pos (Or.inr hc)]
      rw [scanFrom] at hscan
      rcases nextSegment_bounds s st.cmdline hst with h | ⟨q, h, _, _⟩ |
        ⟨b, e, nx, h, _, hbe, _, _, hnx, _, _⟩
      · rw [h] at hscan; cases hscan
      · rw [h] at hscan
        simp only [Res.ok.injEq, Prod.mk.injEq] at hscan
        rw [h, ← hscan.1]
        exact ⟨_, rfl, by simp, by simp, by simp [writeSegs]⟩
      · rw [h] at hscan
        simp only [] at hscan
        revert hscan
        cases hrec : scanFrom s fuel nx with
        | ub => intro h; cases h
        | timeout => intro h; cases h
        | ok r =>
          obtain ⟨l2, c2⟩ := r
          intro hscan
          simp only [Res.ok.injEq, Prod.mk.injEq] at hscan
          obtain ⟨hl, _⟩ := hscan
          subst hl
          have hmin : min (cap - st.count).toNat (l2.length + 1) =
              min (cap - (st.count + 1 : Nat)).toNat l2.length + 1 := by
            simp only [Nat.cast_add, Nat.cast_one]
            omega
          simp only [List.length_cons] at hfit ⊢
          rw [hmin] at hfit ⊢
          rw [h]
          simp only [recordSegment_tabled tb te b e st.count st.mem hbe (by omega) (by omega),
            gt_iff_lt, hbe, if_true]
          obtain ⟨st2, h1, h2, h3, h4⟩ := ih
            { cmdline := nx, count := st.count + 1,
              mem := (st.mem.put (tb + st.count) (.cmd b)).put (te + st.count) (.cmd e),
              trace := st.trace ++ [(b, e)] } hnx l2 c2 hrec
            (by
              show tb + (st.count + 1) + min (cap - (st.count + 1 : Nat)).toNat l2.length
                  ≤ st.mem.size ∧
                te + (st.count + 1) + min (cap - (st.count + 1 : Nat)).toNat l2.length
                  ≤ st.mem.size
              omega)
          dsimp only at h2 h3 h4
          refine ⟨st2, h1, ?_, ?_, ?_⟩
          · rw [h2]; omega
          · rw [h3]; simp
          · rw [h4]; simp [writeSegs]
    · have hnc : ¬ (((some tb : Option Nat) = none ∨ (some te : Option Nat) = none) ∨
          (st.count : Int) < cap) := by
        rintro (h | h)
        · rcases h with h | h <;> cases h
        · exact hc h
      rw [if_neg hnc]
      have hz : (cap - st.count).toNat = 0 := by omega
      exact ⟨st, rfl, by simp [hz], by simp [hz], by simp [hz, writeSegs]⟩

/-- The counting pass in terms of the unlimited scan. -/
theorem internal_unlimited (s : CStr) (cap : Int) (tb te : Option Nat)
    (htab : tb = none ∨ te = none) (mem : Slots) :
    argv_from_WinMain_internal s (some cap) tb te mem =
      match scanFrom s (s.length + 2) 0 with
      | .ok (l, _) => .ok { ret := 0, argc := some (l.length : Int), mem := mem, trace := l }
      | .ub => .ub
      | .timeout => .timeout := by
  simp only [argv_from_WinMain_internal]
  rw [segmentLoop_unlimited s cap tb te htab (s.length + 2) _ (Nat.zero_le _)]
  cases scanFrom s (s.length + 2) 0 with
  | ub => rfl
  | timeout => rfl
  | ok r =>
    obtain ⟨l, c⟩ := r
    simp

/-- The materializing pass in terms of the unlimited scan. -/
theorem internal_limited (s : CStr) (cap : Int) (tb te : Nat) (mem : Slots)
    (l : List (Nat × Nat)) (c : Nat) (hscan : scanFrom s (s.length + 2) 0 = .ok (l, c))
    (hfit : tb + min cap.toNat l.length ≤ mem.size ∧ te + min cap.toNat l.length ≤ mem.size) :
    ∃ out, argv_from_WinMain_internal s (some cap) (some tb) (some te) mem = .ok out ∧
      out.ret = 0 ∧ out.argc = some ((min cap.toNat l.length : Nat) : Int) ∧
      out.trace = l.take (min cap.toNat l.length) ∧
      out.mem = writeSegs tb te 0 (l.take (min cap.toNat l.length)) mem := by
  obtain ⟨st2, h1, h2, h3, h4⟩ := segmentLoop_limited s cap tb te (s.length + 2)
    { cmdline := 0, count := 0, mem := mem, trace := [] } (Nat.zero_le _) l c hscan
    (by simpa using hfit)
  simp only [Nat.cast_zero, sub_zero, Nat.zero_add, List.nil_append] at h2 h3 h4
  refine ⟨{ ret := 0, argc := some st2.count, mem := st2.mem, trace := st2.trace }, ?_, rfl, ?_,
    h3, h4⟩
  · simp only [argv_from_WinMain_internal, h1]
  · simp only [h2]


/-- Slots that are not entries of the two tables keep their content. -/
theorem writeSegs_frame (tb te : Nat) (l : List (Nat × Nat)) (count : Nat) (m : Slots)
    (i : Nat) (hi : ∀ j, j < l.length → i ≠ tb + count + j ∧ i ≠ te + count + j) :
    (writeSegs tb te count l m).val i = m.val i := by
  induction l generalizing count m with
  | nil => rfl
  | cons x l ih =>
    obtain ⟨b, e⟩ := x
    rw [writeSegs, ih]
    · have h0 := hi 0 (by simp)
      simp only [Slots.put, Nat.add_zero] at h0 ⊢
      rw [if_neg h0.2, if_neg h0.1]
    · intro j hj
      have := hi (j + 1) (by simpa using hj)
      constructor <;> omega

/-- The entries of disjoint tables hold the boundaries of the segments. -/
theorem writeSegs_val (tb te : Nat) (l : List (Nat × Nat)) (count : Nat) (m : Slots)
    (hdisj : tb + l.length ≤ te ∨ te + l.length ≤ tb) (j : Nat) (hj : j < l.length) :
    (writeSegs tb te count l m).val (tb + count + j) = (l.get? j).map (fun p => Ptr.cmd p.1) ∧
    (writeSegs tb te count l m).val (te + count + j) = (l.get? j).map (fun p => Ptr.cmd p.2) := by
  induction l generalizing count m j with
  | nil => simp at hj
  | cons x l ih =>
    obtain ⟨b, e⟩ := x
    simp only [List.length_cons] at hdisj hj
    rw [writeSegs]
    cases j with
    | zero =>
      constructor
      · rw [writeSegs_frame]
        · have : ¬ (tb + count = te + count) := by omega
          simp only [Slots.put, Nat.add_zero, if_neg this, if_true, List.get?_cons_zero,
            Option.map_some']
        · intro k hk; constructor <;> omega
      · rw [writeSegs_frame]
        · simp only [Slots.put, Nat.add_zero, if_true, List.get?_cons_zero, Option.map_some']
        · intro k hk; constructor <;> omega
    | succ j =>
      have := ih (count + 1) ((m.put (tb + count) (.cmd b)).put (te + count) (.cmd e))
        (by omega) j (by omega)
      rw [show tb + count + (j + 1) = tb + (count + 1) + j by omega,
        show te + count + (j + 1) = te + (count + 1) + j by omega, List.get?_cons_succ]
      exact this

/-- A property that every segment found by the loop body has holds for every
segment in the trace of the loop, whatever the tables and the capacity. -/
theorem segmentLoop_trace_inv (s : CStr) (cap : Int) (tb te : Option Nat)
    (P : Nat × Nat → Prop)
    (hP : ∀ p b e nx, p ≤ s.length → nextSegment s p = .ok (.inr (b, e, nx)) → P (b, e))
    (fuel : Nat) (st st2 : ScanState) (hst : st.cmdline ≤ s.length)
    (h : segmentLoop s cap tb te fuel st = .ok st2) (h0 : ∀ seg ∈ st.trace, P seg) :
    ∀ seg ∈ st2.trace, P seg := by
  induction fuel generalizing st with
  | zero => simp [segmentLoop] at h
  | succ fuel ih =>
    rw [segmentLoop_succ] at h
    by_cases hc : (tb = none ∨ te = none) ∨ (st.count : Int) < cap
    · rw [if_pos hc] at h
      rcases nextSegment_bounds s st.cmdline hst with hn | ⟨q, hn, _, _⟩ |
        ⟨b, e, nx, hn, _, hbe, _, _, hnx, _, _⟩
      · rw [hn] at h; cases h
      · rw [hn] at h
        simp only [Res.ok.injEq] at h
        rw [← h]
        exact h0
      · have hPbe := hP st.cmdline b e nx hst hn
        rw [hn] at h
        simp only [] at h
        revert h
        cases hrec : recordSegment tb te b e st.count st.mem with
        | ub => intro h; cases h
        | timeout => intro h; cases h
        | ok r =>
          obtain ⟨c2, m2⟩ := r
          intro h
          simp only [gt_iff_lt, hbe, if_true] at h
          refine ih _ hnx h ?_
          intro seg hseg
          simp only [List.mem_append, List.mem_singleton] at hseg
          rcases hseg with hseg | hseg
          · exact h0 seg hseg
          · rw [hseg]; exact hPbe
    · rw [if_neg hc] at h
      simp only [Res.ok.injEq] at h
      rw [← h]
      exact h0

/-- The same for `argv_from_WinMain_internal`. -/
theorem internal_trace_inv (s : CStr) (pargc : Option Int) (tb te : Option Nat) (mem : Slots)
    (P : Nat × Nat → Prop)
    (hP : ∀ p b e nx, p ≤ s.length → nextSegment s p = .ok (.inr (b, e, nx)) → P (b, e))
    (out : ScanOut) (h : argv_from_WinMain_internal s pargc tb te mem = .ok out) :
    ∀ seg ∈ out.trace, P seg := by
  cases pargc with
  | none =>
    simp only [argv_from_WinMain_internal, Res.ok.injEq] at h
    rw [← h]
    intro seg hseg
    cases hseg
  | some cap =>
    simp only [argv_from_WinMain_internal] at h
    revert h
    cases hloop : segmentLoop s cap tb te (s.length + 2)
        { cmdline := 0, count := 0, mem := mem, trace := [] } with
    | ub => intro h; cases h
    | timeout => intro h; cases h
    | ok st2 =>
      intro h
      simp only [Res.ok.injEq] at h
      rw [← h]
      exact segmentLoop_trace_inv s cap tb te P hP (s.length + 2) _ st2 (Nat.zero_le _) hloop
        (fun seg hseg => by cases hseg)


/-! ## Lemmas: computing the scan on given text -/

theorem chr_append_right (pre x : CStr) (i : Nat) : chr (pre ++ x) (pre.length + i) = chr x i := by
  unfold chr
  rw [List.getD_append_right _ _ _ _ (by omega)]
  congr 1
  omega

theorem chr_append_left (x y : CStr) (i : Nat) (h : i < x.length) :
    chr (x ++ y) i = chr x i := by
  unfold chr
  exact List.getD_append _ _ _ _ h

theorem chr_cons_zero (c : Int) (x : CStr) : chr (c :: x) 0 = c := rfl

theorem chr_cons_succ (c : Int) (x : CStr) (i : Nat) : chr (c :: x) (i + 1) = chr x i := rfl

theorem chr_mem (t : CStr) (i : Nat) (h : i < t.length) : chr t i ∈ t := by
  unfold chr
  rw [List.getD_eq_getElem _ _ h]
  exact List.getElem_mem _

theorem chr_last (t : CStr) (h : t ≠ []) : t.getLast? = some (chr t (t.length - 1)) := by
  have hpos : 0 < t.length := List.length_pos.2 h
  unfold chr
  rw [List.getD_eq_getElem _ _ (by omega), List.getLast?_eq_getLast _ h,
    List.getLast_eq_getElem]

/-- One pass of the loop body at the end of the input, after `k` whitespace
characters. -/
theorem nextSegment_end (s : CStr) (p k : Nat)
    (hws : ∀ j, j < k → argv_is_whitespace_ascii (chr s (p + j)) = true)
    (h0 : chr s (p + k) = 0) (hlen : p + k ≤ s.length) :
    nextSegment s p = .ok (.inl (p + k)) := by
  have hend : argv_is_whitespace_ascii (chr s (p + k)) = false := by rw [h0]; rfl
  simp only [nextSegment, argv_ltrim_skip s k p (s.length + 2) hws hend hlen (by omega),
    charAt_of_le s (p + k) hlen, h0, if_true]

/-- One pass of the loop body over a quoted segment: `k` whitespace
characters, the opening quote, one character that is not examined, `m`
characters at which the scan does not stop, and one at which it does. -/
theorem nextSegment_quoted (s : CStr) (p k m : Nat)
    (hws : ∀ j, j < k → argv_is_whitespace_ascii (chr s (p + j)) = true)
    (hq : chr s (p + k) = 34)
    (hgo : ∀ j, j < m → stopsAt s true (p + k + 2 + j) = false)
    (hstop : stopsAt s true (p + k + 2 + m) = true) (hlen : p + k + 2 + m ≤ s.length) :
    nextSegment s p = .ok (.inr (p + k + 1, p + k + 2 + m,
      if chr s (p + k + 2 + m) = 34 then p + k + 2 + m + 1 else p + k + 2 + m)) := by
  have hend : argv_is_whitespace_ascii (chr s (p + k)) = false := by rw [hq]; rfl
  have h0 : ¬ chr s (p + k) = 0 := by rw [hq]; decide
  simp only [nextSegment, argv_ltrim_skip s k p (s.length + 2) hws hend (by omega) (by omega),
    charAt_of_le s (p + k) (by omega), h0, if_false]
  simp only [hq, decide_True, if_true,
    segmentEnd_skip s true m (p + k + 2) (s.length + 2) hgo hstop hlen (by omega),
    charAt_of_le s (p + k + 2 + m) hlen, true_and]

/-- One pass of the loop body over an unquoted segment: `k` whitespace
characters, a first character that is neither whitespace, NUL nor a quote,
`m` characters at which the scan does not stop, and one at which it does. -/
theorem nextSegment_unquoted (s : CStr) (p k m : Nat)
    (hws : ∀ j, j < k → argv_is_whitespace_ascii (chr s (p + j)) = true)
    (hend : argv_is_whitespace_ascii (chr s (p + k)) = false)
    (h0 : chr s (p + k) ≠ 0) (hq : chr s (p + k) ≠ 34)
    (hgo : ∀ j, j < m → stopsAt s false (p + k + 1 + j) = false)
    (hstop : stopsAt s false (p + k + 1 + m) = true) (hlen : p + k + 1 + m ≤ s.length) :
    nextSegment s p = .ok (.inr (p + k, p + k + 1 + m, p + k + 1 + m)) := by
  simp only [nextSegment, argv_ltrim_skip s k p (s.length + 2) hws hend (by omega) (by omega),
    charAt_of_le s (p + k) (by omega), h0, if_false, hq, decide_False, Bool.false_eq_true,
    Nat.add_zero, segmentEnd_skip s false m (p + k + 1) (s.length + 2) hgo hstop hlen (by omega),
    charAt_of_le s (p + k + 1 + m) hlen, false_and]


/-- The characters of a command line around a quoted token. -/
theorem chr_quoted_token (pre t rest : CStr) :
    chr (pre ++ 34 :: (t ++ 34 :: rest)) pre.length = 34 ∧
    (∀ i, i < t.length → chr (pre ++ 34 :: (t ++ 34 :: rest)) (pre.length + 1 + i) = chr t i) ∧
    chr (pre ++ 34 :: (t ++ 34 :: rest)) (pre.length + 1 + t.length) = 34 ∧
    (∀ i, chr (pre ++ 34 :: (t ++ 34 :: rest)) (pre.length + t.length + 2 + i) = chr rest i) := by
  refine ⟨?_, ?_, ?_, ?_⟩
  · have := chr_append_right pre (34 :: (t ++ 34 :: rest)) 0
    rwa [Nat.add_zero] at this
  · intro i hi
    rw [show pre.length + 1 + i = pre.length + (i + 1) by omega, chr_append_right,
      chr_cons_succ, chr_append_left _ _ _ hi]
  · rw [show pre.length + 1 + t.length = pre.length + (t.length + 1) by omega, chr_append_right,
      chr_cons_succ]
    have := chr_append_right t (34 :: rest) 0
    rwa [Nat.add_zero] at this
  · intro i
    rw [show pre.length + t.length + 2 + i = pre.length + ((t.length + (i + 1)) + 1) by omega,
      chr_append_right, chr_cons_succ, chr_append_right, chr_cons_succ]

/-- One pass of the loop body over a quoted token: the segment is the token,
and the cursor moves past the closing quote. -/
theorem nextSegment_quoted_token (pre t rest : CStr) (ht : QuotableToken t) (p k : Nat)
    (hpk : p + k = pre.length)
    (hws : ∀ j, j < k →
      argv_is_whitespace_ascii (chr (pre ++ 34 :: (t ++ 34 :: rest)) (p + j)) = true) :
    nextSegment (pre ++ 34 :: (t ++ 34 :: rest)) p =
      .ok (.inr (pre.length + 1, pre.length + 1 + t.length, pre.length + t.length + 2)) := by
  obtain ⟨hne, hchars, hlast⟩ := ht
  obtain ⟨hs0, hs1, hs2, _⟩ := chr_quoted_token pre t rest
  have hpos : 0 < t.length := List.length_pos.2 hne
  have hlen : (pre ++ 34 :: (t ++ 34 :: rest)).length = pre.length + t.length + 2 + rest.length := by
    simp only [List.length_append, List.length_cons]; omega
  have hgo : ∀ j, j < t.length - 1 →
      stopsAt (pre ++ 34 :: (t ++ 34 :: rest)) true (p + k + 2 + j) = false := by
    intro j hj
    have hc := hs1 (j + 1) (by omega)
    have hm := hchars _ (chr_mem t (j + 1) (by omega))
    rw [← hc] at hm
    rw [show p + k + 2 + j = pre.length + 1 + (j + 1) by omega]
    simp only [stopsAt, hm.1, hm.2, decide_False, Bool.false_or, if_true, false_and]
  have hstop : stopsAt (pre ++ 34 :: (t ++ 34 :: rest)) true (p + k + 2 + (t.length - 1)) = true := by
    rw [show p + k + 2 + (t.length - 1) = pre.length + 1 + t.length by omega]
    have hprev := hs1 (t.length - 1) (by omega)
    rw [show pre.length + 1 + (t.length - 1) = pre.length + 1 + t.length - 1 by omega] at hprev
    have h92 : chr t (t.length - 1) ≠ 92 := by
      intro h
      rw [chr_last t hne, h] at hlast
      exact hlast rfl
    simp only [stopsAt, hs2, hprev, if_true, ne_eq, h92, not_false_eq_true, and_self,
      decide_True, Bool.or_true]
  have := nextSegment_quoted (pre ++ 34 :: (t ++ 34 :: rest)) p k (t.length - 1) hws
    (by rw [hpk]; exact hs0) hgo hstop (by rw [hlen]; omega)
  rw [this]
  rw [show p + k + 2 + (t.length - 1) = pre.length + 1 + t.length by omega, hs2]
  simp only [if_true]
  congr 4
  omega

theorem quoteJoin_cons_cons (t u : CStr) (ts : List CStr) :
    quoteJoin (t :: u :: ts) = 34 :: (t ++ 34 :: 32 :: quoteJoin (u :: ts)) := by
  simp [quoteJoin, quoted]

theorem quoteJoin_length (toks : List CStr) : toks.length ≤ (quoteJoin toks).length := by
  induction toks with
  | nil => simp
  | cons t ts ih =>
    cases ts with
    | nil => simp [quoteJoin, quoted]
    | cons u ts =>
      rw [quoteJoin_cons_cons]
      simp only [List.length_cons, List.length_append] at ih ⊢
      omega

/-- The scan of a command line that ends in the quoted tokens `toks`, started
at `k` whitespace characters before them, finds exactly these tokens. -/
theorem scanFrom_quoteJoin (toks : List CStr) (htoks : ∀ t ∈ toks, QuotableToken t)
    (hne : toks ≠ []) (pre : CStr) (fuel p k : Nat) (hfuel : toks.length < fuel)
    (hpk : p + k = pre.length)
    (hws : ∀ j, j < k → argv_is_whitespace_ascii (chr (pre ++ quoteJoin toks) (p + j)) = true) :
    ∃ c, scanFrom (pre ++ quoteJoin toks) fuel p = .ok (quoteBounds pre.length toks, c) := by
  induction toks generalizing pre fuel p k with
  | nil => exact absurd rfl hne
  | cons t ts ih =>
    obtain ⟨f, rfl⟩ : ∃ f, fuel = f + 1 := ⟨fuel - 1, by simp at hfuel; omega⟩
    have ht := htoks t (List.mem_cons_self _ _)
    cases ts with
    | nil =>
      have hs : pre ++ quoteJoin [t] = pre ++ 34 :: (t ++ 34 :: []) := by simp [quoteJoin, quoted]
      rw [hs] at hws ⊢
      obtain ⟨g, rfl⟩ : ∃ g, f = g + 1 := ⟨f - 1, by simp at hfuel; omega⟩
      have hlen : (pre ++ 34 :: (t ++ 34 :: [])).length = pre.length + t.length + 2 := by
        simp only [List.length_append, List.length_cons, List.length_nil]; omega
      have hend := nextSegment_end (pre ++ 34 :: (t ++ 34 :: [])) (pre.length + t.length + 2) 0
        (fun j hj => by omega) (by rw [Nat.add_zero, ← hlen]; exact chr_length _)
        (by omega)
      refine ⟨pre.length + t.length + 2 + 0, ?_⟩
      rw [scanFrom, nextSegment_quoted_token pre t [] ht p k hpk hws]
      simp only [scanFrom, hend, quoteBounds]
    | cons u ts =>
      have hs : pre ++ quoteJoin (t :: u :: ts) =
          pre ++ 34 :: (t ++ 34 :: (32 :: quoteJoin (u :: ts))) := by rw [quoteJoin_cons_cons]
      have hs2 : pre ++ quoteJoin (t :: u :: ts) =
          (pre ++ 34 :: (t ++ [34, 32])) ++ quoteJoin (u :: ts) := by
        rw [quoteJoin_cons_cons]; simp
      have hlen2 : (pre ++ 34 :: (t ++ [34, 32])).length = pre.length + t.length + 3 := by
        simp only [List.length_append, List.length_cons, List.length_nil]; omega
      have hsp : chr (pre ++ quoteJoin (t :: u :: ts)) (pre.length + t.length + 2) = 32 := by
        rw [hs]
        have := (chr_quoted_token pre t (32 :: quoteJoin (u :: ts))).2.2.2 0
        rw [Nat.add_zero] at this
        rw [this]; rfl
      obtain ⟨c, hc⟩ := ih (fun x hx => htoks x (List.mem_cons_of_mem _ hx)) (by simp)
        (pre ++ 34 :: (t ++ [34, 32])) f (pre.length + t.length + 2) 1
        (by simp only [List.length_cons] at hfuel ⊢; omega) (by rw [hlen2])
        (by
          intro j hj
          have hj0 : j = 0 := by omega
          subst hj0
          rw [← hs2, Nat.add_zero, hsp]; rfl)
      refine ⟨c, ?_⟩
      rw [scanFrom]
      have hstep := nextSegment_quoted_token pre t (32 :: quoteJoin (u :: ts)) ht p k hpk
        (by rw [← hs]; exact hws)
      rw [← hs] at hstep
      rw [hstep]
      simp only []
      rw [hs2, hc, hlen2]
      simp only [quoteBounds]

/-- The texts at the positions of `quoteBounds` are the tokens. -/
theorem tokenTexts_quoteJoin (toks : List CStr) (pre : CStr) :
    tokenTexts (pre ++ quoteJoin toks) (quoteBounds pre.length toks) = toks := by
  induction toks generalizing pre with
  | nil => rfl
  | cons t ts ih =>
    have hfirst : ∀ rest : CStr,
        slice (pre ++ 34 :: (t ++ rest)) (pre.length + 1) (pre.length + 1 + t.length) = t := by
      intro rest
      unfold slice
      rw [show pre ++ 34 :: (t ++ rest) = (pre ++ [34]) ++ (t ++ rest) by simp,
        show pre.length + 1 = (pre ++ [34]).length by simp, List.drop_left]
      simp
    cases ts with
    | nil =>
      simp only [quoteJoin, quoted, quoteBounds, tokenTexts, List.map_cons, List.map_nil]
      rw [hfirst]
    | cons u ts =>
      have hs2 : pre ++ quoteJoin (t :: u :: ts) =
          (pre ++ 34 :: (t ++ [34, 32])) ++ quoteJoin (u :: ts) := by
        rw [quoteJoin_cons_cons]; simp
      have hlen2 : (pre ++ 34 :: (t ++ [34, 32])).length = pre.length + t.length + 3 := by
        simp only [List.length_append, List.length_cons, List.length_nil]; omega
      have := ih (pre ++ 34 :: (t ++ [34, 32]))
      rw [← hs2, hlen2] at this
      rw [quoteBounds]
      simp only [tokenTexts, List.map_cons] at this ⊢
      rw [this, quoteJoin_cons_cons, hfirst]


/-! ## Lemmas: assembling the output block -/

theorem argv_strlen_eq_length (s : CStr) (h : ∀ c ∈ s, c ≠ 0) : argv_strlen s = s.length := by
  induction s with
  | nil => rfl
  | cons c s ih =>
    have hc : c ≠ 0 := h c (List.mem_cons_self _ _)
    simp only [argv_strlen, hc, if_false, List.length_cons]
    rw [ih (fun x hx => h x (List.mem_cons_of_mem _ hx))]

theorem Block.setByte_of_lt (b : Block) (i : Nat) (c : Int) (h : i < b.nbytes) :
    b.setByte i c =
      .ok { b with byte := fun j => if j = i then some c else b.byte j } := by
  simp only [Block.setByte, if_pos h]

/-- The byte copy loop, when source and destination are in range. -/
theorem argv_copy_memory_ok (dst : Nat) (src : CStr) (srcOff n i : Nat) (blk : Block)
    (hsrc : srcOff + i + n ≤ src.length + 1) (hdst : dst + i + n ≤ blk.nbytes) :
    argv_copy_memory dst src srcOff n i blk =
      .ok { blk with byte := fun j =>
        if dst + i ≤ j ∧ j < dst + i + n then some (chr src (srcOff + (j - dst)))
        else blk.byte j } := by
  induction n generalizing i blk with
  | zero =>
    simp only [argv_copy_memory, Nat.add_zero]
    congr 1
    have : ∀ j, ¬ (dst + i ≤ j ∧ j < dst + i) := fun j h => by omega
    simp only [this, if_false]
  | succ n ih =>
    simp only [argv_copy_memory, charAt_of_le src (srcOff + i) (by omega),
      Block.setByte_of_lt blk (dst + i) _ (by omega)]
    rw [ih (i + 1) _ (by omega) (by simp only []; omega)]
    congr 2
    funext j
    simp only []
    by_cases h1 : dst + (i + 1) ≤ j ∧ j < dst + (i + 1) + n
    · have h2 : dst + i ≤ j ∧ j < dst + i + (n + 1) := by omega
      rw [if_pos h1, if_pos h2]
    · rw [if_neg h1]
      by_cases h3 : j = dst + i
      · have h2 : dst + i ≤ j ∧ j < dst + i + (n + 1) := by omega
        rw [if_pos h3, if_pos h2, h3]
        congr 2
        omega
      · have h2 : ¬ (dst + i ≤ j ∧ j < dst + i + (n + 1)) := by omega
        rw [if_neg h3, if_neg h2]

/-- Copying `len` characters and terminating them, when everything is in range. -/
theorem copyTerminated_ok (str : Nat) (src : CStr) (srcOff len : Nat) (blk : Block)
    (hsrc : srcOff + len ≤ src.length + 1) (hdst : str + len < blk.nbytes) :
    copyTerminated str src srcOff len blk =
      .ok { blk with byte := fun j =>
        if j = str + len then some 0
        else if str ≤ j ∧ j < str + len then some (chr src (srcOff + (j - str)))
        else blk.byte j } := by
  unfold copyTerminated
  rw [argv_copy_memory_ok str src srcOff len 0 blk (by omega) (by omega)]
  simp only [Nat.add_zero]
  rw [Block.setByte_of_lt _ _ _ (by simp only []; omega)]

theorem slice_length (s : CStr) (b e : Nat) (he : e ≤ s.length) : (slice s b e).length = e - b := by
  simp only [slice, List.length_take, List.length_drop]
  omega

theorem chr_slice (s : CStr) (b e i : Nat) (hi : b + i < e) :
    chr (slice s b e) i = chr s (b + i) := by
  unfold chr slice
  rw [List.getD_eq_getElem?_getD, List.getD_eq_getElem?_getD,
    List.getElem?_take_of_lt (by omega), List.getElem?_drop]

/-- After copying and terminating a segment, the string area holds its text. -/
theorem copyTerminated_holds (str : Nat) (s : CStr) (b e : Nat) (blk : Block)
    (hbe : b ≤ e) (he : e ≤ s.length) (hdst : str + (e - b) < blk.nbytes) :
    ∃ blk1, copyTerminated str s b (e - b) blk = .ok blk1 ∧ blk1.nbytes = blk.nbytes ∧
      blk1.slots = blk.slots ∧ (∀ j, j < str → blk1.byte j = blk.byte j) ∧
      HoldsStr blk1 str (slice s b e) := by
  refine ⟨_, copyTerminated_ok str s b (e - b) blk (by omega) hdst, rfl, rfl, ?_, ?_⟩
  · intro j hj
    have h1 : ¬ j = str + (e - b) := by omega
    have h2 : ¬ (str ≤ j ∧ j < str + (e - b)) := by omega
    simp only [h1, h2, if_false]
  · rw [HoldsStr, slice_length s b e he]
    refine ⟨hdst, ?_, ?_⟩
    · intro i hi
      have h1 : ¬ str + i = str + (e - b) := by omega
      have h2 : str ≤ str + i ∧ str + i < str + (e - b) := by omega
      simp only [h1, h2, if_false, if_true, and_self]
      rw [chr_slice s b e i (by omega)]
      congr 3
      omega
    · simp only [if_true]


theorem Block.setSlot_of_lt (b : Block) (i : Nat) (p : Ptr) (h : i < b.slots.size) :
    b.setSlot i p = .ok { b with slots := b.slots.put i p } := by
  simp only [Block.setSlot, Slots.set_of_lt b.slots i p h]

theorem Slots.get_of_lt (m : Slots) (i : Nat) (h : i < m.size) : m.get i = m.val i := by
  simp only [Slots.get, if_pos h]

/-- A string held in the string area stays held when the bytes below a bound
past its terminator are unchanged. -/
theorem HoldsStr.frame (blk blk2 : Block) (off bound : Nat) (t : CStr)
    (h : HoldsStr blk off t) (hn : blk2.nbytes = blk.nbytes)
    (hb : ∀ j, j < bound → blk2.byte j = blk.byte j) (hlt : off + t.length < bound) :
    HoldsStr blk2 off t := by
  obtain ⟨h1, h2, h3⟩ := h
  refine ⟨by rw [hn]; exact h1, ?_, ?_⟩
  · intro i hi
    rw [hb _ (by omega)]
    exact h2 i hi
  · rw [hb _ hlt]
    exact h3

/-- The token copy loop: when the tables hold the boundaries of the segments
`lr`, which lie in order in the command line, and the string area has room,
every begin entry is redirected to a terminated copy of its segment, and the
bytes below `str` and the other slots are left alone. -/
theorem copyTokens_spec (s : CStr) (tb te : Nat) (lr : List (Nat × Nat)) (lo iarg str : Nat)
    (blk : Block) (hchain : chainOK s.length lo lr)
    (hcap : str + (s.length + 1 - lo) ≤ blk.nbytes)
    (hsz : tb + iarg + lr.length ≤ blk.slots.size ∧ te + iarg + lr.length ≤ blk.slots.size)
    (hdisj : tb + lr.length ≤ te)
    (hbeg : ∀ j, j < lr.length →
      blk.slots.val (tb + iarg + j) = (lr.get? j).map (fun p => Ptr.cmd p.1))
    (hend : ∀ j, j < lr.length →
      blk.slots.val (te + iarg + j) = (lr.get? j).map (fun p => Ptr.cmd p.2)) :
    ∃ blk2, copyTokens s tb te lr.length iarg str blk = .ok blk2 ∧
      blk2.nbytes = blk.nbytes ∧ blk2.slots.size = blk.slots.size ∧
      (∀ j, j < str → blk2.byte j = blk.byte j) ∧
      (∀ i, (∀ j, j < lr.length → i ≠ tb + iarg + j) → blk2.slots.val i = blk.slots.val i) ∧
      (∀ j, j < lr.length → ∃ off t, blk2.slots.val (tb + iarg + j) = some (.str off) ∧
        lr.get? j = some t ∧ HoldsStr blk2 off (slice s t.1 t.2)) := by
  induction lr generalizing lo iarg str blk with
  | nil =>
    exact ⟨blk, rfl, rfl, rfl, fun _ _ => rfl, fun _ _ => rfl, fun j hj => by simp at hj⟩
  | cons x lr ih =>
    obtain ⟨b, e⟩ := x
    obtain ⟨hlo, hbe, he, hchain2⟩ := hchain
    simp only [List.length_cons] at hsz hdisj hbeg hend ⊢
    have hb0 := hbeg 0 (by omega)
    have he0 := hend 0 (by omega)
    simp only [Nat.add_zero, List.get?_cons_zero, Option.map_some'] at hb0 he0
    obtain ⟨blk1, hcopy, hn1, hs1, hbytes1, hholds1⟩ := copyTerminated_holds str s b e blk
      (by omega) he (by omega)
    have hnlt : ¬ e < b := by omega
    simp only [copyTokens, Slots.get_of_lt blk.slots (te + iarg) (by omega),
      Slots.get_of_lt blk.slots (tb + iarg) (by omega), hb0, he0, hnlt, if_false, hcopy]
    rw [Block.setSlot_of_lt blk1 (tb + iarg) (.str str) (by rw [hs1]; omega)]
    simp only []
    obtain ⟨blk2, hrec, hn2, hsz2, hbytes2, hframe2, hent2⟩ := ih (e + 1) (iarg + 1)
      (str + (e - b) + 1) { blk1 with slots := blk1.slots.put (tb + iarg) (.str str) } hchain2
      (by simp only [hn1]; omega)
      (by simp only [Slots.put_size, hs1]; omega)
      (by omega)
      (by
        intro j hj
        have := hbeg (j + 1) (by omega)
        have hne : ¬ (tb + (iarg + 1) + j = tb + iarg) := by omega
        simp only [Slots.put, hs1, hne, if_false]
        rw [show tb + (iarg + 1) + j = tb + iarg + (j + 1) by omega, this, List.get?_cons_succ])
      (by
        intro j hj
        have := hend (j + 1) (by omega)
        have hne : ¬ (te + (iarg + 1) + j = tb + iarg) := by omega
        simp only [Slots.put, hs1, hne, if_false]
        rw [show te + (iarg + 1) + j = te + iarg + (j + 1) by omega, this, List.get?_cons_succ])
    refine ⟨blk2, hrec, by rw [hn2, hn1], by rw [hsz2]; simp only [Slots.put_size, hs1], ?_, ?_,
      ?_⟩
    · intro j hj
      rw [hbytes2 j (by omega)]
      exact hbytes1 j hj
    · intro i hi
      rw [hframe2 i (fun j hj => by have := hi (j + 1) (by omega); omega)]
      have hne : ¬ (i = tb + iarg) := by have := hi 0 (by omega); omega
      simp only [Slots.put, hs1, hne, if_false]
    · intro j hj
      cases j with
      | zero =>
        refine ⟨str, (b, e), ?_, rfl, ?_⟩
        · rw [Nat.add_zero, hframe2 (tb + iarg) (fun j hj => by omega)]
          simp only [Slots.put, if_true]
        · have hlen := slice_length s b e he
          exact HoldsStr.frame blk1 blk2 str (str + (e - b) + 1) (slice s b e) hholds1
            (by rw [hn2]) hbytes2 (by rw [hlen]; omega)
      | succ j =>
        obtain ⟨off, t, h1, h2, h3⟩ := hent2 j (by omega)
        refine ⟨off, t, ?_, ?_, h3⟩
        · rw [show tb + iarg + (j + 1) = tb + (iarg + 1) + j by omega]
          exact h1
        · rw [List.get?_cons_succ]; exact h2

/-- Reading back a string held in the string area. -/
theorem readCStr_of_holds (blk : Block) (t : CStr) (off fuel : Nat) (h : HoldsStr blk off t)
    (hz : ∀ c ∈ t, c ≠ 0) (hfuel : t.length < fuel) : readCStr blk fuel off = some t := by
  induction t generalizing off fuel with
  | nil =>
    obtain ⟨f, rfl⟩ : ∃ f, fuel = f + 1 := ⟨fuel - 1, by simp at hfuel; omega⟩
    obtain ⟨h1, _, h3⟩ := h
    simp only [List.length_nil, Nat.add_zero] at h1 h3
    simp only [readCStr, h1, if_true, h3]
  | cons c t ih =>
    obtain ⟨f, rfl⟩ : ∃ f, fuel = f + 1 := ⟨fuel - 1, by simp at hfuel; omega⟩
    obtain ⟨h1, h2, h3⟩ := h
    simp only [List.length_cons] at h1 h2 h3 hfuel
    have hc0 := h2 0 (by omega)
    simp only [Nat.add_zero, chr_cons_zero] at hc0
    have hc : c ≠ 0 := hz c (List.mem_cons_self _ _)
    have hrec := ih (off + 1) f ⟨by omega,
      fun i hi => by
        have := h2 (i + 1) (by omega)
        rw [chr_cons_succ] at this
        rw [show off + 1 + i = off + (i + 1) by omega]
        exact this,
      by rw [show off + 1 + t.length = off + (t.length + 1) by omega]; exact h3⟩
      (fun x hx => hz x (List.mem_cons_of_mem _ hx)) (by omega)
    have hlt : off < blk.nbytes := by omega
    simp only [readCStr, hlt, if_true, hc0, hc, if_false, hrec, Option.map_some']

/-- Reading back the argument strings when every entry points to a held
string. -/
theorem argvStrings_of_holds (blk : Block) (ts : List CStr) (i : Nat)
    (h : ∀ j, j < ts.length → ∃ off t, blk.slots.get (i + j) = some (.str off) ∧
      ts.get? j = some t ∧ HoldsStr blk off t ∧ ∀ c ∈ t, c ≠ 0) :
    argvStrings blk ts.length i = some ts := by
  induction ts generalizing i with
  | nil => rfl
  | cons t ts ih =>
    obtain ⟨off, t2, h1, h2, h3, h4⟩ := h 0 (by simp)
    simp only [List.get?_cons_zero, Option.some.injEq] at h2
    subst h2
    rw [Nat.add_zero] at h1
    have hread := readCStr_of_holds blk t off blk.nbytes h3 h4 (by have := h3.1; omega)
    have hrec := ih (i + 1) (fun j hj => by
      obtain ⟨o, u, g1, g2, g3⟩ := h (j + 1) (by simpa using hj)
      exact ⟨o, u, by rw [show i + 1 + j = i + (j + 1) by omega]; exact g1,
        by rw [List.get?_cons_succ] at g2; exact g2, g3⟩)
    simp only [List.length_cons, argvStrings, h1, hread, hrec, Option.map_some']


theorem slice_full (t : CStr) : slice t 0 t.length = t := by
  simp [slice]

theorem mem_slice (s : CStr) (b e : Nat) (c : Int) (h : c ∈ slice s b e) : c ∈ s :=
  List.mem_of_mem_drop (List.mem_of_mem_take h)

/-- The wrapper on a command line whose unlimited scan finds the segments
`l`: it succeeds, reports `l.length + 1` arguments, and the block holds the
executable name followed by the texts of the segments. -/
theorem argv_from_WinMain_of_scan (s exe : CStr) (hs : ∀ c ∈ s, c ≠ 0)
    (hexe : ∀ c ∈ exe, c ≠ 0) (l : List (Nat × Nat)) (c : Nat)
    (hscan : scanFrom s (s.length + 2) 0 = .ok (l, c)) :
    ∃ blk, argv_from_WinMain (some s) true true exe true =
        .ok { ret := 0, pargc := some ((l.length : Int) + 1), pargv := some blk,
              mallocs := 1, frees := 0 } ∧
      argvStrings blk (l.length + 1) 0 = some (exe :: tokenTexts s l) := by
  have h1 := internal_unlimited s 0 none none (Or.inl rfl) ⟨0, fun _ => none⟩
  rw [hscan] at h1
  simp only [] at h1
  have hslots : (((l.length : Int) + 1) * 2).toNat = (l.length + 1) * 2 := by omega
  obtain ⟨out2, h2, hret2, hargc2, htrace2, hmem2⟩ := internal_limited s (l.length : Int) 1
    (1 + l.length) ⟨(l.length + 1) * 2, fun _ => none⟩ l c hscan
    (by simp only [Int.toNat_ofNat, min_self]; omega)
  simp only [Int.toNat_ofNat, min_self, List.take_length] at hargc2 htrace2 hmem2
  have hchain := (scanFrom_chain s (s.length + 2) 0 l c (Nat.zero_le _) hscan).1
  have hN : ((l.length : Int)).toNat = l.length := Int.toNat_ofNat _
  obtain ⟨r2ret, r2argc, r2mem, r2trace⟩ := out2
  simp only [] at hret2 hargc2 htrace2 hmem2
  subst hret2 hargc2 htrace2 hmem2
  simp only [argv_from_WinMain, Bool.true_eq_false, or_self, if_false, h1, ne_eq,
    not_true_eq_false, Option.getD_some, hslots, hN, h2, argv_strlen_eq_length s hs,
    argv_strlen_eq_length exe hexe]
  obtain ⟨blk1, hcopy, hn1, hs1, _, hholds1⟩ := copyTerminated_holds 0 exe 0 exe.length
    { slots := writeSegs 1 (1 + r2trace.length) 0 r2trace
        { size := (r2trace.length + 1) * 2, val := fun _ => none },
      nbytes := exe.length + 1 + s.length + 1, byte := fun _ => none }
    (Nat.zero_le _) (le_refl _) (by simp only []; omega)
  rw [Nat.sub_zero] at hcopy
  rw [slice_full] at hholds1
  simp only [] at hn1 hs1
  have hsize1 : blk1.slots.size = (r2trace.length + 1) * 2 := by
    rw [hs1, writeSegs_size]
  rw [hcopy]
  simp only [Block.setSlot_of_lt blk1 0 (.str 0) (by rw [hsize1]; omega)]
  obtain ⟨blk3, hrec, hn3, hsz3, hbytes3, hframe3, hent3⟩ := copyTokens_spec s 1
    (1 + r2trace.length) r2trace 0 0 (exe.length + 1)
    { blk1 with slots := blk1.slots.put 0 (.str 0) } hchain
    (by simp only [hn1]; omega)
    (by simp only [Slots.put_size, hsize1]; omega)
    (le_refl _)
    (by
      intro j hj
      have hne : ¬ (1 + 0 + j = 0) := by omega
      simp only [Slots.put, hne, if_false, hs1]
      exact (writeSegs_val 1 (1 + r2trace.length) r2trace 0 _ (Or.inl (le_refl _)) j hj).1)
    (by
      intro j hj
      have hne : ¬ (1 + r2trace.length + 0 + j = 0) := by omega
      simp only [Slots.put, hne, if_false, hs1]
      exact (writeSegs_val 1 (1 + r2trace.length) r2trace 0 _ (Or.inl (le_refl _)) j hj).2)
  simp only [] at hn3 hsz3 hbytes3 hframe3
  refine ⟨blk3, by rw [hrec], ?_⟩
  have hlen : (exe :: tokenTexts s r2trace).length = r2trace.length + 1 := by
    simp [tokenTexts]
  rw [← hlen]
  apply argvStrings_of_holds
  intro j hj
  rw [hlen] at hj
  have hsize3 : blk3.slots.size = (r2trace.length + 1) * 2 := by
    rw [hsz3, Slots.put_size, hsize1]
  cases j with
  | zero =>
    refine ⟨0, exe, ?_, rfl, ?_, hexe⟩
    · rw [Slots.get_of_lt _ _ (by rw [hsize3]; omega), hframe3 0 (fun j _ => by omega)]
      simp only [Slots.put, if_true]
    · exact HoldsStr.frame blk1 blk3 0 (exe.length + 1) exe hholds1 (by rw [hn3]) hbytes3
        (by omega)
  | succ j =>
    obtain ⟨off, t, g1, g2, g3⟩ := hent3 j (by omega)
    refine ⟨off, slice s t.1 t.2, ?_, ?_, g3, fun x hx => hs x (mem_slice s _ _ x hx)⟩
    · rw [Slots.get_of_lt _ _ (by rw [hsize3]; omega),
        show 0 + (j + 1) = 1 + 0 + j by omega]
      exact g1
    · rw [List.get?_cons_succ]
      rw [List.get?_eq_getElem?] at g2 ⊢
      simp only [tokenTexts, List.getElem?_map, g2, Option.map_some']


/-! ## Theorems: the tokenizer -/

theorem quoteJoin_no_nul (toks : List CStr) (htoks : ∀ t ∈ toks, QuotableToken t) :
    ∀ c ∈ quoteJoin toks, c ≠ 0 := by
  induction toks with
  | nil => intro c hc; simp [quoteJoin] at hc
  | cons t ts ih =>
    have ht := (htoks t (List.mem_cons_self _ _)).2.1
    cases ts with
    | nil =>
      intro c hc
      simp only [quoteJoin, quoted, List.mem_cons, List.mem_append, List.mem_singleton] at hc
      rcases hc with h | h | h
      · rw [h]; decide
      · exact (ht c h).1
      · rcases h with h | h
        · rw [h]; decide
        · cases h
    | cons u ts =>
      intro c hc
      rw [quoteJoin_cons_cons] at hc
      simp only [List.mem_cons, List.mem_append] at hc
      rcases hc with h | h | h | h | h
      · rw [h]; decide
      · exact (ht c h).1
      · rw [h]; decide
      · rw [h]; decide
      · exact ih (fun x hx => htoks x (List.mem_cons_of_mem _ hx)) c h

theorem quoteBounds_length (off : Nat) (toks : List CStr) :
    (quoteBounds off toks).length = toks.length := by
  induction toks generalizing off with
  | nil => rfl
  | cons t ts ih => simp only [quoteBounds, List.length_cons, ih]

/-- The unlimited scan of a command line of quoted tokens. -/
theorem scanFrom_quoteJoin_all (toks : List CStr) (htoks : ∀ t ∈ toks, QuotableToken t) :
    ∃ c, scanFrom (quoteJoin toks) ((quoteJoin toks).length + 2) 0
      = .ok (quoteBounds 0 toks, c) := by
  cases toks with
  | nil => exact ⟨0, rfl⟩
  | cons t ts =>
    have := scanFrom_quoteJoin (t :: ts) htoks (by simp) [] ((quoteJoin (t :: ts)).length + 2) 0 0
      (by have := quoteJoin_length (t :: ts); omega) rfl (fun j hj => by omega)
    simpa using this

/-- C4. Quoted round trip: for every list of tokens that are non-empty, hold
no NUL and no double quote and do not end with a backslash (whitespace is
allowed), the command line made by wrapping each token in double quotes and
joining with single spaces is split into exactly these tokens, in order: the
scanner counts them at their positions, and `argv_from_WinMain` returns them
after the executable name. -/
theorem quoted_round_trip (toks : List CStr) (htoks : ∀ t ∈ toks, QuotableToken t)
    (exe : CStr) (hexe : ∀ c ∈ exe, c ≠ 0) (cap : Int) (mem : Slots) :
    (∃ out, argv_from_WinMain_internal (quoteJoin toks) (some cap) none none mem = .ok out ∧
      out.ret = 0 ∧ out.argc = some (toks.length : Int) ∧
      tokenTexts (quoteJoin toks) out.trace = toks) ∧
    (∃ blk, argv_from_WinMain (some (quoteJoin toks)) true true exe true =
        .ok { ret := 0, pargc := some ((toks.length : Int) + 1), pargv := some blk,
              mallocs := 1, frees := 0 } ∧
      argvStrings blk (toks.length + 1) 0 = some (exe :: toks)) := by
  obtain ⟨c, hscan⟩ := scanFrom_quoteJoin_all toks htoks
  have htexts := tokenTexts_quoteJoin toks []
  simp only [List.nil_append, List.length_nil] at htexts
  constructor
  · refine ⟨ScanOut.mk 0 (some ((quoteBounds 0 toks).length : Int)) mem (quoteBounds 0 toks),
      ?_, rfl, ?_, htexts⟩
    · rw [internal_unlimited _ cap none none (Or.inl rfl) mem, hscan]
    · simp only [quoteBounds_length]
  · obtain ⟨blk, h1, h2⟩ := argv_from_WinMain_of_scan (quoteJoin toks) exe
      (quoteJoin_no_nul toks htoks) hexe _ c hscan
    rw [quoteBounds_length, htexts] at h2
    rw [quoteBounds_length] at h1
    exact ⟨blk, h1, h2⟩

theorem quoted_round_trip_witness :
    (∃ out, argv_from_WinMain_internal (quoteJoin [cstr "--key", cstr "the value"]) (some 0)
        none none ⟨0, fun _ => none⟩ = .ok out ∧
      out.ret = 0 ∧ out.argc = some 2 ∧
      tokenTexts (quoteJoin [cstr "--key", cstr "the value"]) out.trace
        = [cstr "--key", cstr "the value"]) ∧
    (∃ blk, argv_from_WinMain (some (quoteJoin [cstr "--key", cstr "the value"])) true true
        (cstr "app.exe") true =
        .ok { ret := 0, pargc := some 3, pargv := some blk, mallocs := 1, frees := 0 } ∧
      argvStrings blk 3 0 = some [cstr "app.exe", cstr "--key", cstr "the value"]) :=
  quoted_round_trip [cstr "--key", cstr "the value"] (by decide) (cstr "app.exe") (by decide) 0
    ⟨0, fun _ => none⟩

/-- The command line of the test, `"--key" "the value"`, is the quoted join of
its two tokens. -/
theorem quoteJoin_test_line :
    quoteJoin [cstr "--key", cstr "the value"] = cstr "\"--key\" \"the value\"" := by
  decide


/-- C5 (violated by the code on the command line `"`). On the one-character
command line consisting of a double quote, with a successful allocator,
`argv_from_WinMain` does not return 0: its counting pass sets `segbeg` to the
terminator and `segend` one past it, and reads `segend[0]` outside the
string. -/
theorem argv_from_WinMain_lone_quote :
    argv_from_WinMain (some (cstr "\"")) true true [] true = .ub := rfl

theorem argv_strcmp_self (a : CStr) : argv_strcmp a a = 0 := by
  induction a with
  | nil => rfl
  | cons x a ih =>
    by_cases hx : x = 0
    · subst hx; simp [argv_strcmp]
    · simp [argv_strcmp, hx, ih]

/-- C6. End to end: for a key `k` and a value `v` that are non-empty, hold no
NUL and no double quote and do not end with a backslash, `argv_from_WinMain`
on the raw string `"k" "v"` yields an argument list of length 3 whose slot 1
is `k` and slot 2 is `v` (slot 0 the executable name), and `argv_get` on that
list with key `k` returns `v`. -/
theorem end_to_end_key_value (k v exe : CStr) (hk : QuotableToken k) (hv : QuotableToken v)
    (hexe : ∀ c ∈ exe, c ≠ 0) (ikey : Int) :
    ∃ blk, argv_from_WinMain (some (quoted k ++ 32 :: quoted v)) true true exe true =
        .ok { ret := 0, pargc := some 3, pargv := some blk, mallocs := 1, frees := 0 } ∧
      argvStrings blk 3 0 = some [exe, k, v] ∧
      argv_get 3 (argvStrings blk 3 0) (some k) ikey = .ok (some v) := by
  have htoks : ∀ t ∈ [k, v], QuotableToken t := by
    intro t ht
    simp only [List.mem_cons, List.mem_singleton, List.not_mem_nil, or_false] at ht
    rcases ht with h | h <;> rw [h] <;> assumption
  obtain ⟨c, hscan⟩ := scanFrom_quoteJoin_all [k, v] htoks
  have htexts := tokenTexts_quoteJoin [k, v] []
  simp only [List.nil_append, List.length_nil] at htexts
  obtain ⟨blk, h1, h2⟩ := argv_from_WinMain_of_scan (quoteJoin [k, v]) exe
    (quoteJoin_no_nul [k, v] htoks) hexe _ c hscan
  rw [quoteBounds_length, htexts] at h2
  rw [quoteBounds_length] at h1
  refine ⟨blk, h1, h2, ?_⟩
  have h2b : argvStrings blk 3 0 = some [exe, k, v] := h2
  rw [h2b]
  simp [argv_get, argv_find, argv_find_loop, argv_strcmp_self]

theorem end_to_end_key_value_witness :
    ∃ blk, argv_from_WinMain (some (cstr "\"--key\" \"the value\"")) true true [] true =
        .ok { ret := 0, pargc := some 3, pargv := some blk, mallocs := 1, frees := 0 } ∧
      argvStrings blk 3 0 = some [[], cstr "--key", cstr "the value"] ∧
      argv_get 3 (argvStrings blk 3 0) (some (cstr "--key")) 0 = .ok (some (cstr "the value")) :=
  end_to_end_key_value (cstr "--key") (cstr "the value") [] (by decide) (by decide)
    (by decide) 0

/-- C8 (violated by the code). The command line `""`, an empty quoted pair,
yields one token, the text `"`, and the command line `"" foo` yields the
single token `" foo` instead of `foo`: `segend` starts one past `segbeg`, so
the closing quote of an empty pair is never examined and the test
`segend > segbeg` never fails. -/
theorem empty_pair_yields_token :
    argv_from_WinMain_internal (cstr "\"\"") (some 0) none none ⟨0, fun _ => none⟩ =
        .ok { ret := 0, argc := some 1, mem := ⟨0, fun _ => none⟩, trace := [(1, 2)] } ∧
      tokenTexts (cstr "\"\"") [(1, 2)] = [cstr "\""] ∧
      argv_from_WinMain_internal (cstr "\"\" foo") (some 0) none none ⟨0, fun _ => none⟩ =
        .ok { ret := 0, argc := some 1, mem := ⟨0, fun _ => none⟩, trace := [(1, 6)] } ∧
      tokenTexts (cstr "\"\" foo") [(1, 6)] = [cstr "\" foo"] :=
  ⟨rfl, by decide, rfl, by decide⟩

/-- C9 (violated by the code on the command line `"`). On a command line that
ends right after an opening double quote the scan does not return success:
it reads `segend[0]` one character past the terminator. -/
theorem lone_quote_reads_past_end :
    argv_from_WinMain_internal (cstr "\"") (some 0) none none ⟨0, fun _ => none⟩ = .ub ∧
      argv_from_WinMain_internal (cstr "abc \"") (some 0) none none ⟨0, fun _ => none⟩ = .ub :=
  ⟨rfl, rfl⟩

/-- C10. Escaped quote: in a quoted segment the inner loop, on reading a
double quote whose preceding character is a backslash, moves on to the next
character instead of ending the segment; and no segment counted by the
scanner ends at such a quote, so the backslash and the quote stay in the
token text. -/
theorem escaped_quote_never_ends_segment (s : CStr) (pargc : Option Int) (tb te : Option Nat)
    (mem : Slots) (out : ScanOut)
    (h : argv_from_WinMain_internal s pargc tb te mem = .ok out) :
    (∀ fuel e, e ≤ s.length → chr s e = 34 → chr s (e - 1) = 92 →
      segmentEnd s true (fuel + 1) e = segmentEnd s true fuel (e + 1)) ∧
    ∀ seg ∈ out.trace, ¬ (chr s seg.2 = 34 ∧ chr s (seg.2 - 1) = 92) := by
  constructor
  · intro fuel e he h34 h92
    refine segmentEnd_step s true fuel e he ?_
    simp [stopsAt, h34, h92]
  · refine internal_trace_inv s pargc tb te mem
      (fun seg => ¬ (chr s seg.2 = 34 ∧ chr s (seg.2 - 1) = 92)) ?_ out h
    intro p b e nx hp hn
    rcases nextSegment_bounds s p hp with h1 | ⟨q, h1, _⟩ |
      ⟨b2, e2, nx2, h1, _, _, _, _, _, _, hesc⟩
    · rw [h1] at hn; cases hn
    · rw [h1] at hn; cases hn
    · rw [h1] at hn
      simp only [Res.ok.injEq, Sum.inr.injEq, Prod.mk.injEq] at hn
      rw [← hn.2.1]
      exact hesc

theorem escaped_quote_never_ends_segment_witness :
    tokenTexts (cstr "\"a\\\"b\"") [(1, 5)] = [cstr "a\\\"b"] ∧
      (∀ fuel e, e ≤ (cstr "\"a\\\"b\"").length → chr (cstr "\"a\\\"b\"") e = 34 →
        chr (cstr "\"a\\\"b\"") (e - 1) = 92 →
        segmentEnd (cstr "\"a\\\"b\"") true (fuel + 1) e
          = segmentEnd (cstr "\"a\\\"b\"") true fuel (e + 1)) ∧
      ∀ seg ∈ [((1 : Nat), (5 : Nat))],
        ¬ (chr (cstr "\"a\\\"b\"") seg.2 = 34 ∧ chr (cstr "\"a\\\"b\"") (seg.2 - 1) = 92) :=
  ⟨by decide,
    escaped_quote_never_ends_segment (cstr "\"a\\\"b\"") (some 0) none none ⟨0, fun _ => none⟩
      { ret := 0, argc := some 1, mem := ⟨0, fun _ => none⟩, trace := [(1, 5)] } rfl⟩

/-! ## Theorems: classifier and comparison -/

theorem argv_is_whitespace_ascii_iff (cp : Int) :
    argv_is_whitespace_ascii cp = true ↔
      (cp = 9 ∨ cp = 10 ∨ cp = 11 ∨ cp = 12 ∨ cp = 13 ∨ cp = 32 ∨ cp = 133 ∨ cp = 160) := by
  simp [argv_is_whitespace_ascii]

/-- Where `char` is unsigned the classifier accepts exactly the eight byte
values of its `case` labels. -/
theorem whitespace_bytes_unsigned (cp : Int) (h : CharRange false cp) :
    argv_is_whitespace_ascii cp = true ↔
      (cp % 256 = 9 ∨ cp % 256 = 10 ∨ cp % 256 = 11 ∨ cp % 256 = 12 ∨ cp % 256 = 13 ∨
        cp % 256 = 32 ∨ cp % 256 = 133 ∨ cp % 256 = 160) := by
  rw [argv_is_whitespace_ascii_iff]
  simp only [CharRange, Bool.false_eq_true, if_false] at h
  omega

/-- Where `char` is signed the classifier accepts exactly the six byte values
below `0x80` among its `case` labels. -/
theorem whitespace_bytes_signed (cp : Int) (h : CharRange true cp) :
    argv_is_whitespace_ascii cp = true ↔
      (cp % 256 = 9 ∨ cp % 256 = 10 ∨ cp % 256 = 11 ∨ cp % 256 = 12 ∨ cp % 256 = 13 ∨
        cp % 256 = 32) := by
  rw [argv_is_whitespace_ascii_iff]
  simp only [CharRange, if_true] at h
  omega

/-- C11 (violated by the code where `char` is signed). The `char` whose byte
value is `0x85` has the value -123 there, and the one whose byte value is
`0xA0` has the value -96; the classifier returns false for both, because the
labels `case 0x85` and `case 0xA0` are compared with the promoted value. -/
theorem whitespace_high_bytes_signed :
    CharRange true (-123) ∧ (-123 : Int) % 256 = 0x85 ∧
      argv_is_whitespace_ascii (-123) = false ∧
    CharRange true (-96) ∧ (-96 : Int) % 256 = 0xA0 ∧
      argv_is_whitespace_ascii (-96) = false := by
  decide

/-- C17. On well-formed strings `argv_strcmp a b` is 0 exactly when the two
strings are the same byte sequence (so a proper prefix, a proper extension or
a case variant is not a match), and otherwise it is negative or positive as
the unsigned-byte lexicographic comparison of `a` against `b` says. -/
theorem argv_strcmp_sign (sgn : Bool) (a b : CStr) (ha : IsCStr sgn a) (hb : IsCStr sgn b) :
    (argv_strcmp a b = 0 ↔ a = b) ∧
    (argv_strcmp a b < 0 ↔ lexCompare a b = .lt) ∧
    (0 < argv_strcmp a b ↔ lexCompare a b = .gt) := by
  refine ⟨argv_strcmp_eq_zero_iff sgn a b ha hb, ?_⟩
  induction a generalizing b with
  | nil =>
    cases b with
    | nil => simp [argv_strcmp, lexCompare]
    | cons y b =>
      obtain ⟨h0, hr⟩ := hb y (List.mem_cons_self _ _)
      unfold CharRange at hr
      simp only [argv_strcmp, List.headD_cons, lexCompare, iff_true, reduceCtorEq, iff_false]
      cases sgn <;> simp at hr <;> omega
  | cons x a ih =>
    obtain ⟨hx0, hrx⟩ := ha x (List.mem_cons_self _ _)
    have ha2 : IsCStr sgn a := fun c hc => ha c (List.mem_cons_of_mem _ hc)
    unfold CharRange at hrx
    cases b with
    | nil =>
      have hn : ¬ (x ≠ 0 ∧ x = 0) := fun h => h.1 h.2
      simp only [argv_strcmp, List.headD_nil, if_neg hn, lexCompare, reduceCtorEq, iff_false,
        iff_true]
      cases sgn <;> simp at hrx <;> omega
    | cons y b =>
      obtain ⟨hy0, hry⟩ := hb y (List.mem_cons_self _ _)
      have hb2 : IsCStr sgn b := fun c hc => hb c (List.mem_cons_of_mem _ hc)
      unfold CharRange at hry
      simp only [argv_strcmp, List.headD_cons, List.tail_cons, lexCompare]
      by_cases hxy : x = y
      · subst hxy
        rw [if_pos ⟨hx0, rfl⟩, if_neg (lt_irrefl _), if_neg (lt_irrefl _)]
        exact ih b ha2 hb2
      · have hn : ¬ (x ≠ 0 ∧ x = y) := fun h => hxy h.2
        rw [if_neg hn]
        have hmod : x % 256 ≠ y % 256 := by
          cases sgn <;> simp at hrx hry <;> omega
        by_cases hlt : x % 256 < y % 256
        · rw [if_pos hlt]
          simp only [reduceCtorEq, iff_false, iff_true]
          omega
        · have hgt : y % 256 < x % 256 := by omega
          rw [if_neg hlt, if_pos hgt]
          simp only [reduceCtorEq, iff_false, iff_true]
          omega

theorem argv_strcmp_sign_witness :
    (argv_strcmp (cstr "key") (cstr "keyx") = 0 ↔ cstr "key" = cstr "keyx") ∧
    (argv_strcmp (cstr "key") (cstr "keyx") < 0 ↔ lexCompare (cstr "key") (cstr "keyx") = .lt) ∧
    (0 < argv_strcmp (cstr "key") (cstr "keyx") ↔
      lexCompare (cstr "key") (cstr "keyx") = .gt) :=
  argv_strcmp_sign true (cstr "key") (cstr "keyx") (by decide) (by decide)


/-! ## Theorems: failure paths of `argv_from_WinMain` -/

theorem internal_ret_zero (s : CStr) (cap : Int) (tb te : Option Nat) (mem : Slots)
    (out : ScanOut) (h : argv_from_WinMain_internal s (some cap) tb te mem = .ok out) :
    out.ret = 0 := by
  simp only [argv_from_WinMain_internal] at h
  revert h
  cases segmentLoop s cap tb te (s.length + 2)
      { cmdline := 0, count := 0, mem := mem, trace := [] } with
  | ub => intro h; cases h
  | timeout => intro h; cases h
  | ok st =>
    intro h
    simp only [Res.ok.injEq] at h
    rw [← h]

/-- C12. `argv_from_WinMain` returns -1, stores nothing to `*pargc` and
`*pargv` and does not call the allocator when `cmdline`, `pargc` or `pargv`
is null; it returns -1 and stores nothing when the allocator, reached after
the counting pass, returns null; and whenever it returns a failure code
nothing was stored and every block obtained from the allocator was freed. -/
theorem argv_from_WinMain_failure_paths (cmdline : Option CStr) (pargc pargv : Bool)
    (executableName : CStr) (mallocOk : Bool) :
    ((cmdline = none ∨ pargc = false ∨ pargv = false) →
      argv_from_WinMain cmdline pargc pargv executableName mallocOk =
        .ok { ret := -1, pargc := none, pargv := none, mallocs := 0, frees := 0 }) ∧
    (∀ s r1, cmdline = some s → pargc = true → pargv = true → mallocOk = false →
      argv_from_WinMain_internal s (some 0) none none ⟨0, fun _ => none⟩ = .ok r1 →
      argv_from_WinMain cmdline pargc pargv executableName mallocOk =
        .ok { ret := -1, pargc := none, pargv := none, mallocs := 1, frees := 0 }) ∧
    (∀ out, argv_from_WinMain cmdline pargc pargv executableName mallocOk = .ok out →
      out.ret ≠ 0 →
      out.pargc = none ∧ out.pargv = none ∧
        (mallocOk = true → out.mallocs = out.frees) ∧
        (mallocOk = false → out.mallocs ≤ 1 ∧ out.frees = 0)) := by
  refine ⟨?_, ?_, ?_⟩
  · intro h
    cases cmdline with
    | none => rfl
    | some s =>
      have h2 : pargc = false ∨ pargv = false := by
        rcases h with h | h | h
        · cases h
        · exact Or.inl h
        · exact Or.inr h
      simp only [argv_from_WinMain, if_pos h2]
  · intro s r1 hc hpc hpv hm h1
    subst hc hpc hpv hm
    have hret := internal_ret_zero s 0 none none _ r1 h1
    simp [argv_from_WinMain, h1, hret]
  · intro out h hne
    cases cmdline with
    | none =>
      simp only [argv_from_WinMain, Res.ok.injEq] at h
      rw [← h]
      simp
    | some s =>
      by_cases h2 : pargc = false ∨ pargv = false
      · simp only [argv_from_WinMain, if_pos h2, Res.ok.injEq] at h
        rw [← h]
        simp
      · simp only [argv_from_WinMain, if_neg h2] at h
        revert h
        cases h1 : argv_from_WinMain_internal s (some 0) none none ⟨0, fun _ => none⟩ with
        | ub => intro h; cases h
        | timeout => intro h; cases h
        | ok r1 =>
          have hret1 := internal_ret_zero s 0 none none _ r1 h1
          simp only [hret1, ne_eq, not_true_eq_false, if_false]
          cases mallocOk with
          | false =>
            intro h
            simp only [if_true, Res.ok.injEq] at h
            rw [← h]
            simp
          | true =>
            simp only [Bool.true_eq_false, if_false]
            cases h3 : argv_from_WinMain_internal s (some (r1.argc.getD 0)) (some 1)
                (some (1 + (r1.argc.getD 0).toNat))
                ⟨((r1.argc.getD 0 + 1) * 2).toNat, fun _ => none⟩ with
            | ub => intro h; cases h
            | timeout => intro h; cases h
            | ok r2 =>
              have hret2 := internal_ret_zero s _ _ _ _ r2 h3
              simp only [hret2, ne_eq, not_true_eq_false, if_false]
              intro h
              exfalso
              split at h
              · cases h
              · split at h
                · cases h
                · cases h
                · split at h
                  · cases h
                  · cases h
                  · split at h
                    · cases h
                    · cases h
                    · simp only [Res.ok.injEq] at h
                      rw [← h] at hne
                      exact hne rfl

theorem argv_from_WinMain_failure_paths_witness :
    argv_from_WinMain (some (cstr "a b")) true true [] false =
      .ok { ret := -1, pargc := none, pargv := none, mallocs := 1, frees := 0 } :=
  (argv_from_WinMain_failure_paths (some (cstr "a b")) true true [] false).2.1 (cstr "a b")
    { ret := 0, argc := some 2, mem := ⟨0, fun _ => none⟩, trace := [(0, 1), (2, 3)] }
    rfl rfl rfl rfl rfl


/-! ## Lemmas: order and bounds of the counted segments -/

/-- The trace of the loop stays ordered: every segment is non-empty, ends at
or before the cursor, and begins at or after the end of the segments before
it. -/
theorem segmentLoop_ordered (s : CStr) (cap : Int) (tb te : Option Nat) (fuel : Nat)
    (st st2 : ScanState) (hst : st.cmdline ≤ s.length)
    (h : segmentLoop s cap tb te fuel st = .ok st2)
    (h0 : st.trace.Pairwise (fun a b => a.2 ≤ b.1))
    (h1 : ∀ seg ∈ st.trace, seg.1 < seg.2 ∧ seg.2 ≤ st.cmdline) :
    st2.trace.Pairwise (fun a b => a.2 ≤ b.1) ∧
      ∀ seg ∈ st2.trace, seg.1 < seg.2 ∧ seg.2 ≤ s.length := by
  induction fuel generalizing st with
  | zero => simp [segmentLoop] at h
  | succ fuel ih =>
    rw [segmentLoop_succ] at h
    have hkeep : ∀ seg ∈ st.trace, seg.1 < seg.2 ∧ seg.2 ≤ s.length :=
      fun seg hseg => ⟨(h1 seg hseg).1, le_trans (h1 seg hseg).2 hst⟩
    by_cases hc : (tb = none ∨ te = none) ∨ (st.count : Int) < cap
    · rw [if_pos hc] at h
      rcases nextSegment_bounds s st.cmdline hst with hn | ⟨q, hn, _, _⟩ |
        ⟨b, e, nx, hn, hpb, hbe, hel, henx, hnx, _, _⟩
      · rw [hn] at h; cases h
      · rw [hn] at h
        simp only [Res.ok.injEq] at h
        rw [← h]
        exact ⟨h0, hkeep⟩
      · rw [hn] at h
        simp only [] at h
        revert h
        cases hrec : recordSegment tb te b e st.count st.mem with
        | ub => intro h; cases h
        | timeout => intro h; cases h
        | ok r =>
          obtain ⟨c2, m2⟩ := r
          intro h
          simp only [gt_iff_lt, hbe, if_true] at h
          refine ih _ hnx h ?_ ?_
          · rw [List.pairwise_append]
            refine ⟨h0, List.pairwise_singleton _ _, ?_⟩
            intro a ha x hx
            simp only [List.mem_singleton] at hx
            rw [hx]
            exact le_trans (h1 a ha).2 hpb
          · intro seg hseg
            simp only [List.mem_append, List.mem_singleton] at hseg
            rcases hseg with hseg | hseg
            · exact ⟨(h1 seg hseg).1, by have := (h1 seg hseg).2; simp only []; omega⟩
            · rw [hseg]; exact ⟨hbe, henx⟩
    · rw [if_neg hc] at h
      simp only [Res.ok.injEq] at h
      rw [← h]
      exact ⟨h0, hkeep⟩

/-- The same for `argv_from_WinMain_internal`. -/
theorem internal_ordered (s : CStr) (pargc : Option Int) (tb te : Option Nat) (mem : Slots)
    (out : ScanOut) (h : argv_from_WinMain_internal s pargc tb te mem = .ok out) :
    out.trace.Pairwise (fun a b => a.2 ≤ b.1) ∧
      ∀ seg ∈ out.trace, seg.1 < seg.2 ∧ seg.2 ≤ s.length := by
  cases pargc with
  | none =>
    simp only [argv_from_WinMain_internal, Res.ok.injEq] at h
    rw [← h]
    exact ⟨List.Pairwise.nil, fun seg hseg => by cases hseg⟩
  | some cap =>
    simp only [argv_from_WinMain_internal] at h
    revert h
    cases hloop : segmentLoop s cap tb te (s.length + 2)
        { cmdline := 0, count := 0, mem := mem, trace := [] } with
    | ub => intro h; cases h
    | timeout => intro h; cases h
    | ok st2 =>
      intro h
      simp only [Res.ok.injEq] at h
      rw [← h]
      exact segmentLoop_ordered s cap tb te (s.length + 2) _ st2 (Nat.zero_le _) hloop
        List.Pairwise.nil (fun seg hseg => by cases hseg)

/-- C20. Ordered disjoint substrings: the boundary pairs the scanner reports
are in left-to-right order, each non-empty and inside the input, each
beginning at or after the end of every earlier one; the text of a token is the
run of input characters between its boundaries, character for character; and
these texts are what `argv_from_WinMain` hands out after the executable name. -/
theorem tokens_ordered_disjoint (s : CStr) (pargc : Option Int) (tb te : Option Nat)
    (mem : Slots) (out : ScanOut)
    (h : argv_from_WinMain_internal s pargc tb te mem = .ok out) :
    out.trace.Pairwise (fun a b => a.2 ≤ b.1) ∧
    (∀ seg ∈ out.trace, seg.1 < seg.2 ∧ seg.2 ≤ s.length ∧
      (slice s seg.1 seg.2).length = seg.2 - seg.1 ∧
      ∀ i, i < seg.2 - seg.1 → chr (slice s seg.1 seg.2) i = chr s (seg.1 + i)) ∧
    (pargc ≠ none → (tb = none ∨ te = none) → (∀ c ∈ s, c ≠ 0) →
      ∀ exe : CStr, (∀ c ∈ exe, c ≠ 0) →
        ∃ blk, argv_from_WinMain (some s) true true exe true =
            .ok { ret := 0, pargc := some ((out.trace.length : Int) + 1), pargv := some blk,
                  mallocs := 1, frees := 0 } ∧
          argvStrings blk (out.trace.length + 1) 0 = some (exe :: tokenTexts s out.trace)) := by
  obtain ⟨hpair, hb⟩ := internal_ordered s pargc tb te mem out h
  refine ⟨hpair, ?_, ?_⟩
  · intro seg hseg
    obtain ⟨h1, h2⟩ := hb seg hseg
    exact ⟨h1, h2, slice_length s seg.1 seg.2 h2,
      fun i hi => chr_slice s seg.1 seg.2 i (by omega)⟩
  · intro hpargc htab hs exe hexe
    cases pargc with
    | none => exact absurd rfl hpargc
    | some cap =>
      rw [internal_unlimited s cap tb te htab mem] at h
      revert h
      cases hscan : scanFrom s (s.length + 2) 0 with
      | ub => intro h; cases h
      | timeout => intro h; cases h
      | ok r =>
        obtain ⟨l, c⟩ := r
        intro h
        simp only [Res.ok.injEq] at h
        rw [← h]
        exact argv_from_WinMain_of_scan s exe hs hexe l c hscan

theorem tokens_ordered_disjoint_witness :
    ([((1 : Nat), (6 : Nat)), (9, 18)]).Pairwise (fun a b => a.2 ≤ b.1) ∧
    (∀ seg ∈ [((1 : Nat), (6 : Nat)), (9, 18)],
      seg.1 < seg.2 ∧ seg.2 ≤ (cstr "\"--key\" \"the value\"").length ∧
      (slice (cstr "\"--key\" \"the value\"") seg.1 seg.2).length = seg.2 - seg.1 ∧
      ∀ i, i < seg.2 - seg.1 →
        chr (slice (cstr "\"--key\" \"the value\"") seg.1 seg.2) i
          = chr (cstr "\"--key\" \"the value\"") (seg.1 + i)) ∧
    ((some (0 : Int)) ≠ none → ((none : Option Nat) = none ∨ (none : Option Nat) = none) →
      (∀ c ∈ cstr "\"--key\" \"the value\"", c ≠ 0) →
      ∀ exe : CStr, (∀ c ∈ exe, c ≠ 0) →
        ∃ blk, argv_from_WinMain (some (cstr "\"--key\" \"the value\"")) true true exe true =
            .ok { ret := 0, pargc := some ((([((1 : Nat), (6 : Nat)), (9, 18)].length : Nat) : Int) + 1),
                  pargv := some blk, mallocs := 1, frees := 0 } ∧
          argvStrings blk ([((1 : Nat), (6 : Nat)), (9, 18)].length + 1) 0
            = some (exe :: tokenTexts (cstr "\"--key\" \"the value\"") [(1, 6), (9, 18)])) :=
  tokens_ordered_disjoint (cstr "\"--key\" \"the value\"") (some 0) none none ⟨0, fun _ => none⟩
    { ret := 0, argc := some 2, mem := ⟨0, fun _ => none⟩, trace := [(1, 6), (9, 18)] } rfl


/-! ## Theorems: reads and termination -/

/-- C18 (violated by the code on the command line `"`). The string has length
1, so its object is the offsets 0..1; the inner loop is started with `segend`
at offset 2, whose read is outside the string, in the counting pass and in
the materializing pass alike. -/
theorem scan_reads_offset_past_terminator :
    (cstr "\"").length = 1 ∧ charAt (cstr "\"") 2 = none ∧
      segmentEnd (cstr "\"") true ((cstr "\"").length + 2) 2 = .ub ∧
      nextSegment (cstr "\"") 0 = .ub ∧
      argv_from_WinMain_internal (cstr "\"") (some 1) (some 0) (some 1) ⟨2, fun _ => none⟩
        = .ub :=
  ⟨rfl, rfl, rfl, rfl, rfl⟩

/-- The loop never exhausts a budget that exceeds the distance from the
cursor to the end of the string. -/
theorem segmentLoop_ne_timeout (s : CStr) (cap : Int) (tb te : Option Nat) (fuel : Nat)
    (st : ScanState) (hst : st.cmdline ≤ s.length) (hfuel : s.length - st.cmdline < fuel) :
    segmentLoop s cap tb te fuel st ≠ .timeout := by
  induction fuel generalizing st with
  | zero => omega
  | succ fuel ih =>
    rw [segmentLoop_succ]
    by_cases hc : (tb = none ∨ te = none) ∨ (st.count : Int) < cap
    · rw [if_pos hc]
      rcases nextSegment_bounds s st.cmdline hst with hn | ⟨q, hn, _, _⟩ |
        ⟨b, e, nx, hn, hpb, hbe, hel, henx, hnx, _, _⟩
      · rw [hn]; simp
      · rw [hn]; simp
      · rw [hn]
        simp only []
        have hne := recordSegment_ne_timeout tb te b e st.count st.mem
        revert hne
        cases recordSegment tb te b e st.count st.mem with
        | ub => intro _; simp
        | timeout => intro h; exact absurd rfl h
        | ok r =>
          intro _
          obtain ⟨c2, m2⟩ := r
          exact ih _ hnx (by simp only []; omega)
    · rw [if_neg hc]; simp

/-- More budget does not change an outcome that was reached within the
budget. -/
theorem segmentLoop_fuel_succ (s : CStr) (cap : Int) (tb te : Option Nat) (fuel : Nat)
    (st : ScanState) (h : segmentLoop s cap tb te fuel st ≠ .timeout) :
    segmentLoop s cap tb te (fuel + 1) st = segmentLoop s cap tb te fuel st := by
  induction fuel generalizing st with
  | zero => exact absurd rfl h
  | succ fuel ih =>
    rw [segmentLoop_succ s cap tb te (fuel + 1), segmentLoop_succ s cap tb te fuel]
    rw [segmentLoop_succ s cap tb te fuel] at h
    by_cases hc : (tb = none ∨ te = none) ∨ (st.count : Int) < cap
    · simp only [if_pos hc] at h ⊢
      revert h
      cases nextSegment s st.cmdline with
      | ub => intro _; rfl
      | timeout => intro _; rfl
      | ok r =>
        cases r with
        | inl q => intro _; rfl
        | inr x =>
          obtain ⟨b, e, nx⟩ := x
          simp only []
          cases recordSegment tb te b e st.count st.mem with
          | ub => intro _; rfl
          | timeout => intro _; rfl
          | ok r2 =>
            obtain ⟨c2, m2⟩ := r2
            intro h
            exact ih _ h
    · simp only [if_neg hc]

theorem segmentLoop_fuel_add (s : CStr) (cap : Int) (tb te : Option Nat) (fuel k : Nat)
    (st : ScanState) (h : segmentLoop s cap tb te fuel st ≠ .timeout) :
    segmentLoop s cap tb te (fuel + k) st = segmentLoop s cap tb te fuel st := by
  induction k with
  | zero => rfl
  | succ k ih =>
    rw [show fuel + (k + 1) = (fuel + k) + 1 by omega,
      segmentLoop_fuel_succ s cap tb te (fuel + k) st (by rw [ih]; exact h), ih]

/-- Progress of the segment loop while the run stays inside the string: an
iteration that neither stops nor goes wrong continues with a cursor that is
strictly larger and still inside the string (the segment it found ends after
the trimmed cursor); so the loop does not exhaust a budget larger than the
distance from the cursor to the end of the string, and any larger budget
gives the same outcome. This says nothing about a run that reads outside the
string (outcome `ub`), whose length the string does not determine. -/
theorem segmentLoop_progress (s : CStr) (cap : Int) (tb te : Option Nat) :
    (∀ fuel st, st.cmdline ≤ s.length →
      (∃ st2, segmentLoop s cap tb te (fuel + 1) st = .ok st2) ∨
      segmentLoop s cap tb te (fuel + 1) st = .ub ∨
      (∃ st2, st.cmdline < st2.cmdline ∧ st2.cmdline ≤ s.length ∧
        (∃ seg ∈ st2.trace, st.cmdline ≤ seg.1 ∧ seg.1 < seg.2 ∧ seg.2 ≤ st2.cmdline) ∧
        segmentLoop s cap tb te (fuel + 1) st = segmentLoop s cap tb te fuel st2)) ∧
    (∀ fuel st, st.cmdline ≤ s.length → s.length - st.cmdline < fuel →
      segmentLoop s cap tb te fuel st ≠ .timeout ∧
      ∀ k, segmentLoop s cap tb te (fuel + k) st = segmentLoop s cap tb te fuel st) ∧
    (∀ pargc mem, argv_from_WinMain_internal s pargc tb te mem ≠ .timeout) := by
  refine ⟨?_, ?_, ?_⟩
  · intro fuel st hst
    rw [segmentLoop_succ]
    by_cases hc : (tb = none ∨ te = none) ∨ (st.count : Int) < cap
    · rw [if_pos hc]
      rcases nextSegment_bounds s st.cmdline hst with hn | ⟨q, hn, _, _⟩ |
        ⟨b, e, nx, hn, hpb, hbe, hel, henx, hnx, _, _⟩
      · rw [hn]; exact Or.inr (Or.inl rfl)
      · rw [hn]; exact Or.inl ⟨_, rfl⟩
      · rw [hn]
        simp only []
        have hne := recordSegment_ne_timeout tb te b e st.count st.mem
        revert hne
        cases recordSegment tb te b e st.count st.mem with
        | ub => intro _; exact Or.inr (Or.inl rfl)
        | timeout => intro h; exact absurd rfl h
        | ok r =>
          intro _
          obtain ⟨c2, m2⟩ := r
          refine Or.inr (Or.inr ⟨_, ?_, ?_, ⟨(b, e), ?_, hpb, hbe, henx⟩, rfl⟩)
          · simp only []; omega
          · exact hnx
          · simp only [gt_iff_lt, hbe, if_true, List.mem_append, List.mem_singleton, or_true]
    · rw [if_neg hc]; exact Or.inl ⟨_, rfl⟩
  · intro fuel st hst hfuel
    have h := segmentLoop_ne_timeout s cap tb te fuel st hst hfuel
    exact ⟨h, fun k => segmentLoop_fuel_add s cap tb te fuel k st h⟩
  · intro pargc mem
    cases pargc with
    | none => simp [argv_from_WinMain_internal]
    | some c =>
      have h := segmentLoop_ne_timeout s c tb te (s.length + 2)
        { cmdline := 0, count := 0, mem := mem, trace := [] } (Nat.zero_le _)
        (by simp only []; omega)
      simp only [argv_from_WinMain_internal]
      revert h
      cases segmentLoop s c tb te (s.length + 2)
          { cmdline := 0, count := 0, mem := mem, trace := [] } with
      | ub => intro _; simp
      | timeout => intro h; exact absurd rfl h
      | ok st => intro _; simp

/-- A run of `argv_from_WinMain_internal` that does not read outside the
string returns. -/
theorem internal_returns_or_ub (s : CStr) (pargc : Option Int) (tb te : Option Nat)
    (mem : Slots) :
    (∃ out, argv_from_WinMain_internal s pargc tb te mem = .ok out) ∨
      argv_from_WinMain_internal s pargc tb te mem = .ub := by
  have h := (segmentLoop_progress s 0 tb te).2.2 pargc mem
  revert h
  cases argv_from_WinMain_internal s pargc tb te mem with
  | ok out => intro _; exact Or.inl ⟨out, rfl⟩
  | ub => intro _; exact Or.inr rfl
  | timeout => intro h; exact absurd rfl h

/-- C19 (violated by the code on the command line `"`). The first iteration
of the segment loop trims to offset 0, takes the quote as the opening of a
segment and enters the inner loop with `segend` at offset 2, one past the
terminator: whatever budget the inner loop and the segment loop are given,
and whatever the capacity and the tables are in the counting pass, the run
does not end inside the string (the inner loop goes on over the bytes that
follow the string, until one of them stops it), so no budget makes
`segmentLoop` return. -/
theorem scan_loop_leaves_string (cap : Int) (mem : Slots) (fuel : Nat) :
    charAt (cstr "\"") 2 = none ∧
    segmentEnd (cstr "\"") true (fuel + 1) 2 = .ub ∧
    segmentLoop (cstr "\"") cap none none (fuel + 1)
      { cmdline := 0, count := 0, mem := mem, trace := [] } = .ub ∧
    ¬ ∃ st, segmentLoop (cstr "\"") cap none none fuel
      { cmdline := 0, count := 0, mem := mem, trace := [] } = .ok st := by
  have hn : nextSegment (cstr "\"") 0 = .ub := rfl
  have hub : ∀ f, segmentLoop (cstr "\"") cap none none (f + 1)
      { cmdline := 0, count := 0, mem := mem, trace := [] } = .ub := by
    intro f
    rw [segmentLoop_succ, if_pos (Or.inl (Or.inl rfl))]
    simp only [hn]
  refine ⟨rfl, rfl, hub fuel, ?_⟩
  rintro ⟨st, hst⟩
  cases fuel with
  | zero => cases hst
  | succ f => rw [hub f] at hst; cases hst

/-! ## Theorems: capacity -/

/-- C15. Capacity limit: when the unlimited scan (no tables) of a command
line counts `N` segments, a call with both tables and capacity `c ≥ 0`
reports `min c N`, its segments are the first `min c N` of the unlimited
scan, their boundaries are stored at entries `0 .. min c N - 1` of the two
(disjoint) tables and no other slot is written; and a call without both
tables reports `N` whatever `*pargc` held on entry. -/
theorem capacity_limit (s : CStr) (cap0 : Int) (mem0 : Slots) (out1 : ScanOut)
    (h1 : argv_from_WinMain_internal s (some cap0) none none mem0 = .ok out1) :
    (∀ (cap : Int) (tb te : Option Nat) (mem : Slots), (tb = none ∨ te = none) →
      argv_from_WinMain_internal s (some cap) tb te mem =
        .ok { ret := 0, argc := some (out1.trace.length : Int), mem := mem,
              trace := out1.trace }) ∧
    (∀ (c tb te : Nat) (mem : Slots),
      tb + min c out1.trace.length ≤ mem.size → te + min c out1.trace.length ≤ mem.size →
      (tb + min c out1.trace.length ≤ te ∨ te + min c out1.trace.length ≤ tb) →
      ∃ out2, argv_from_WinMain_internal s (some (c : Int)) (some tb) (some te) mem = .ok out2 ∧
        out2.ret = 0 ∧ out2.argc = some ((min c out1.trace.length : Nat) : Int) ∧
        out2.trace = out1.trace.take (min c out1.trace.length) ∧
        (∀ j, j < min c out1.trace.length →
          out2.mem.val (tb + j) = (out1.trace.get? j).map (fun p => Ptr.cmd p.1) ∧
          out2.mem.val (te + j) = (out1.trace.get? j).map (fun p => Ptr.cmd p.2)) ∧
        (∀ i, (∀ j, j < min c out1.trace.length → i ≠ tb + j ∧ i ≠ te + j) →
          out2.mem.val i = mem.val i)) := by
  rw [internal_unlimited s cap0 none none (Or.inl rfl) mem0] at h1
  revert h1
  cases hscan : scanFrom s (s.length + 2) 0 with
  | ub => intro h; cases h
  | timeout => intro h; cases h
  | ok r =>
    obtain ⟨l, c0⟩ := r
    intro h1
    simp only [Res.ok.injEq] at h1
    subst h1
    simp only []
    constructor
    · intro cap tb te mem htab
      rw [internal_unlimited s cap tb te htab mem, hscan]
    · intro c tb te mem hfit1 hfit2 hdisj
      obtain ⟨out2, h2, hret, hargc, htrace, hmem⟩ := internal_limited s (c : Int) tb te mem
        l c0 hscan (by simp only [Int.toNat_ofNat]; exact ⟨hfit1, hfit2⟩)
      simp only [Int.toNat_ofNat] at hargc htrace hmem
      have hlen : (l.take (min c l.length)).length = min c l.length := by
        rw [List.length_take]; omega
      refine ⟨out2, h2, hret, hargc, htrace, ?_, ?_⟩
      · intro j hj
        have := writeSegs_val tb te (l.take (min c l.length)) 0 mem (by rw [hlen]; exact hdisj)
          j (by rw [hlen]; exact hj)
        rw [hmem]
        have hget : (l.take (min c l.length)).get? j = l.get? j := by
          rw [List.get?_eq_getElem?, List.get?_eq_getElem?, List.getElem?_take_of_lt hj]
        rw [hget] at this
        simpa using this
      · intro i hi
        rw [hmem]
        exact writeSegs_frame tb te _ 0 mem i (by rw [hlen]; simpa using hi)

theorem capacity_limit_witness :
    (∀ (cap : Int) (tb te : Option Nat) (mem : Slots), (tb = none ∨ te = none) →
      argv_from_WinMain_internal (cstr "a b c") (some cap) tb te mem =
        .ok { ret := 0, argc := some (([((0 : Nat), (1 : Nat)), (2, 3), (4, 5)].length : Nat) : Int),
              mem := mem, trace := [(0, 1), (2, 3), (4, 5)] }) ∧
    (∀ (c tb te : Nat) (mem : Slots),
      tb + min c [((0 : Nat), (1 : Nat)), (2, 3), (4, 5)].length ≤ mem.size →
      te + min c [((0 : Nat), (1 : Nat)), (2, 3), (4, 5)].length ≤ mem.size →
      (tb + min c [((0 : Nat), (1 : Nat)), (2, 3), (4, 5)].length ≤ te ∨
        te + min c [((0 : Nat), (1 : Nat)), (2, 3), (4, 5)].length ≤ tb) →
      ∃ out2, argv_from_WinMain_internal (cstr "a b c") (some (c : Int)) (some tb) (some te) mem
          = .ok out2 ∧
        out2.ret = 0 ∧
        out2.argc = some ((min c [((0 : Nat), (1 : Nat)), (2, 3), (4, 5)].length : Nat) : Int) ∧
        out2.trace = [((0 : Nat), (1 : Nat)), (2, 3), (4, 5)].take
          (min c [((0 : Nat), (1 : Nat)), (2, 3), (4, 5)].length) ∧
        (∀ j, j < min c [((0 : Nat), (1 : Nat)), (2, 3), (4, 5)].length →
          out2.mem.val (tb + j)
            = ([((0 : Nat), (1 : Nat)), (2, 3), (4, 5)].get? j).map (fun p => Ptr.cmd p.1) ∧
          out2.mem.val (te + j)
            = ([((0 : Nat), (1 : Nat)), (2, 3), (4, 5)].get? j).map (fun p => Ptr.cmd p.2)) ∧
        (∀ i, (∀ j, j < min c [((0 : Nat), (1 : Nat)), (2, 3), (4, 5)].length →
            i ≠ tb + j ∧ i ≠ te + j) →
          out2.mem.val i = mem.val i)) :=
  capacity_limit (cstr "a b c") 0 ⟨0, fun _ => none⟩
    { ret := 0, argc := some 3, mem := ⟨0, fun _ => none⟩, trace := [(0, 1), (2, 3), (4, 5)] } rfl

/-- The capacity limit on the command line `a b c` with capacity 2: two of
the three segments are counted and stored. -/
theorem capacity_two_of_three :
    ∃ out2, argv_from_WinMain_internal (cstr "a b c") (some 2) (some 0) (some 2)
        ⟨4, fun _ => none⟩ = .ok out2 ∧
      out2.argc = some 2 ∧ out2.trace = [(0, 1), (2, 3)] ∧
      out2.mem.val 0 = some (.cmd 0) ∧ out2.mem.val 1 = some (.cmd 2) ∧
      out2.mem.val 2 = some (.cmd 1) ∧ out2.mem.val 3 = some (.cmd 3) :=
  ⟨_, rfl, rfl, rfl, rfl, rfl, rfl, rfl⟩


/-! ## Theorems: the layout of the block -/

theorem segBytes_cons (b e : Nat) (l : List (Nat × Nat)) :
    segBytes ((b, e) :: l) = (e - b + 1) + segBytes l := by
  simp [segBytes]

/-- The copies of segments that lie in order in a string of length `len`
from offset `lo` on take at most `len + 1 - lo` bytes. -/
theorem chainOK_segBytes (len lo : Nat) (l : List (Nat × Nat)) (h : chainOK len lo l) :
    segBytes l ≤ len + 1 - lo := by
  induction l generalizing lo with
  | nil => simp [segBytes]
  | cons x l ih =>
    obtain ⟨b, e⟩ := x
    obtain ⟨h1, h2, h3, h4⟩ := h
    have := ih (e + 1) h4
    rw [segBytes_cons]
    omega

/-- The token copy loop with the place of every copy: the copy of segment `j`
starts where the copies of the segments before it end. -/
theorem copyTokens_layout (s : CStr) (tb te : Nat) (lr : List (Nat × Nat)) (lo iarg str : Nat)
    (blk : Block) (hchain : chainOK s.length lo lr)
    (hcap : str + (s.length + 1 - lo) ≤ blk.nbytes)
    (hsz : tb + iarg + lr.length ≤ blk.slots.size ∧ te + iarg + lr.length ≤ blk.slots.size)
    (hdisj : tb + lr.length ≤ te)
    (hbeg : ∀ j, j < lr.length →
      blk.slots.val (tb + iarg + j) = (lr.get? j).map (fun p => Ptr.cmd p.1))
    (hend : ∀ j, j < lr.length →
      blk.slots.val (te + iarg + j) = (lr.get? j).map (fun p => Ptr.cmd p.2)) :
    ∃ blk2, copyTokens s tb te lr.length iarg str blk = .ok blk2 ∧
      blk2.nbytes = blk.nbytes ∧ blk2.slots.size = blk.slots.size ∧
      (∀ j, j < str → blk2.byte j = blk.byte j) ∧
      (∀ i, (∀ j, j < lr.length → i ≠ tb + iarg + j) → blk2.slots.val i = blk.slots.val i) ∧
      (∀ j, j < lr.length → ∃ t, lr.get? j = some t ∧
        blk2.slots.val (tb + iarg + j) = some (.str (str + segBytes (lr.take j))) ∧
        HoldsStr blk2 (str + segBytes (lr.take j)) (slice s t.1 t.2)) := by
  induction lr generalizing lo iarg str blk with
  | nil =>
    exact ⟨blk, rfl, rfl, rfl, fun _ _ => rfl, fun _ _ => rfl, fun j hj => by simp at hj⟩
  | cons x lr ih =>
    obtain ⟨b, e⟩ := x
    obtain ⟨hlo, hbe, he, hchain2⟩ := hchain
    simp only [List.length_cons] at hsz hdisj hbeg hend ⊢
    have hb0 := hbeg 0 (by omega)
    have he0 := hend 0 (by omega)
    simp only [Nat.add_zero, List.get?_cons_zero, Option.map_some'] at hb0 he0
    obtain ⟨blk1, hcopy, hn1, hs1, hbytes1, hholds1⟩ := copyTerminated_holds str s b e blk
      (by omega) he (by omega)
    have hnlt : ¬ e < b := by omega
    simp only [copyTokens, Slots.get_of_lt blk.slots (te + iarg) (by omega),
      Slots.get_of_lt blk.slots (tb + iarg) (by omega), hb0, he0, hnlt, if_false, hcopy]
    rw [Block.setSlot_of_lt blk1 (tb + iarg) (.str str) (by rw [hs1]; omega)]
    simp only []
    obtain ⟨blk2, hrec, hn2, hsz2, hbytes2, hframe2, hent2⟩ := ih (e + 1) (iarg + 1)
      (str + (e - b) + 1) { blk1 with slots := blk1.slots.put (tb + iarg) (.str str) } hchain2
      (by simp only [hn1]; omega)
      (by simp only [Slots.put_size, hs1]; omega)
      (by omega)
      (by
        intro j hj
        have := hbeg (j + 1) (by omega)
        have hne : ¬ (tb + (iarg + 1) + j = tb + iarg) := by omega
        simp only [Slots.put, hs1, hne, if_false]
        rw [show tb + (iarg + 1) + j = tb + iarg + (j + 1) by omega, this, List.get?_cons_succ])
      (by
        intro j hj
        have := hend (j + 1) (by omega)
        have hne : ¬ (te + (iarg + 1) + j = tb + iarg) := by omega
        simp only [Slots.put, hs1, hne, if_false]
        rw [show te + (iarg + 1) + j = te + iarg + (j + 1) by omega, this, List.get?_cons_succ])
    refine ⟨blk2, hrec, by rw [hn2, hn1], by rw [hsz2]; simp only [Slots.put_size, hs1], ?_, ?_,
      ?_⟩
    · intro j hj
      rw [hbytes2 j (by omega)]
      exact hbytes1 j hj
    · intro i hi
      rw [hframe2 i (fun j hj => by have := hi (j + 1) (by omega); omega)]
      have hne : ¬ (i = tb + iarg) := by have := hi 0 (by omega); omega
      simp only [Slots.put, hs1, hne, if_false]
    · intro j hj
      cases j with
      | zero =>
        refine ⟨(b, e), rfl, ?_, ?_⟩
        · rw [Nat.add_zero, hframe2 (tb + iarg) (fun j hj => by omega)]
          simp [Slots.put, segBytes]
        · have hlen := slice_length s b e he
          have hz : str + segBytes (List.take 0 ((b, e) :: lr)) = str := by simp [segBytes]
          rw [hz]
          exact HoldsStr.frame blk1 blk2 str (str + (e - b) + 1) (slice s b e) hholds1
            (by rw [hn2]) hbytes2 (by rw [hlen]; omega)
      | succ j =>
        obtain ⟨t, h1, h2, h3⟩ := hent2 j (by omega)
        have hoff : str + segBytes (List.take (j + 1) ((b, e) :: lr))
            = str + (e - b) + 1 + segBytes (List.take j lr) := by
          rw [List.take_succ_cons, segBytes_cons]; omega
        rw [hoff]
        refine ⟨t, ?_, ?_, h3⟩
        · rw [List.get?_cons_succ]; exact h1
        · rw [show tb + iarg + (j + 1) = tb + (iarg + 1) + j by omega]
          exact h2

/-- The wrapper on a command line whose unlimited scan finds the segments
`l`, with the layout of the block it returns: sizes of the two areas, the
executable name at the start of the string area, the copy of every segment
right after the copies before it, and the end markers left in the end table. -/
theorem argv_from_WinMain_layout (s exe : CStr) (hs : ∀ c ∈ s, c ≠ 0)
    (hexe : ∀ c ∈ exe, c ≠ 0) (l : List (Nat × Nat)) (c : Nat)
    (hscan : scanFrom s (s.length + 2) 0 = .ok (l, c)) :
    ∃ blk, argv_from_WinMain (some s) true true exe true =
        .ok { ret := 0, pargc := some ((l.length : Int) + 1), pargv := some blk,
              mallocs := 1, frees := 0 } ∧
      blk.nbytes = exe.length + 1 + s.length + 1 ∧
      blk.slots.size = (l.length + 1) * 2 ∧
      blk.slots.val 0 = some (.str 0) ∧ HoldsStr blk 0 exe ∧
      (∀ j, j < l.length → ∃ t, l.get? j = some t ∧
        blk.slots.val (1 + j) = some (.str (exe.length + 1 + segBytes (l.take j))) ∧
        HoldsStr blk (exe.length + 1 + segBytes (l.take j)) (slice s t.1 t.2) ∧
        blk.slots.val (1 + l.length + j) = some (.cmd t.2)) := by
  have h1 := internal_unlimited s 0 none none (Or.inl rfl) ⟨0, fun _ => none⟩
  rw [hscan] at h1
  simp only [] at h1
  have hslots : (((l.length : Int) + 1) * 2).toNat = (l.length + 1) * 2 := by omega
  obtain ⟨out2, h2, hret2, hargc2, htrace2, hmem2⟩ := internal_limited s (l.length : Int) 1
    (1 + l.length) ⟨(l.length + 1) * 2, fun _ => none⟩ l c hscan
    (by simp only [Int.toNat_ofNat, min_self]; omega)
  simp only [Int.toNat_ofNat, min_self, List.take_length] at hargc2 htrace2 hmem2
  have hchain := (scanFrom_chain s (s.length + 2) 0 l c (Nat.zero_le _) hscan).1
  have hN : ((l.length : Int)).toNat = l.length := Int.toNat_ofNat _
  obtain ⟨r2ret, r2argc, r2mem, r2trace⟩ := out2
  simp only [] at hret2 hargc2 htrace2 hmem2
  subst hret2 hargc2 htrace2 hmem2
  simp only [argv_from_WinMain, Bool.true_eq_false, or_self, if_false, h1, ne_eq,
    not_true_eq_false, Option.getD_some, hslots, hN, h2, argv_strlen_eq_length s hs,
    argv_strlen_eq_length exe hexe]
  obtain ⟨blk1, hcopy, hn1, hs1, _, hholds1⟩ := copyTerminated_holds 0 exe 0 exe.length
    { slots := writeSegs 1 (1 + r2trace.length) 0 r2trace
        { size := (r2trace.length + 1) * 2, val := fun _ => none },
      nbytes := exe.length + 1 + s.length + 1, byte := fun _ => none }
    (Nat.zero_le _) (le_refl _) (by simp only []; omega)
  rw [Nat.sub_zero] at hcopy
  rw [slice_full] at hholds1
  simp only [] at hn1 hs1
  have hsize1 : blk1.slots.size = (r2trace.length + 1) * 2 := by
    rw [hs1, writeSegs_size]
  rw [hcopy]
  simp only [Block.setSlot_of_lt blk1 0 (.str 0) (by rw [hsize1]; omega)]
  have hendv : ∀ j, j < r2trace.length →
      ({ blk1 with slots := blk1.slots.put 0 (.str 0) } : Block).slots.val
        (1 + r2trace.length + 0 + j) = (r2trace.get? j).map (fun p => Ptr.cmd p.2) := by
    intro j hj
    have hne : ¬ (1 + r2trace.length + 0 + j = 0) := by omega
    simp only [Slots.put, hne, if_false, hs1]
    exact (writeSegs_val 1 (1 + r2trace.length) r2trace 0 _ (Or.inl (le_refl _)) j hj).2
  obtain ⟨blk3, hrec, hn3, hsz3, hbytes3, hframe3, hent3⟩ := copyTokens_layout s 1
    (1 + r2trace.length) r2trace 0 0 (exe.length + 1)
    { blk1 with slots := blk1.slots.put 0 (.str 0) } hchain
    (by simp only [hn1]; omega)
    (by simp only [Slots.put_size, hsize1]; omega)
    (le_refl _)
    (by
      intro j hj
      have hne : ¬ (1 + 0 + j = 0) := by omega
      simp only [Slots.put, hne, if_false, hs1]
      exact (writeSegs_val 1 (1 + r2trace.length) r2trace 0 _ (Or.inl (le_refl _)) j hj).1)
    hendv
  simp only [] at hn3 hsz3 hbytes3 hframe3
  refine ⟨blk3, by rw [hrec], by rw [hn3, hn1], ?_, ?_, ?_, ?_⟩
  · rw [hsz3, Slots.put_size, hsize1]
  · rw [hframe3 0 (fun j _ => by omega)]
    simp only [Slots.put, if_true]
  · exact HoldsStr.frame blk1 blk3 0 (exe.length + 1) exe hholds1 (by rw [hn3]) hbytes3
      (by omega)
  · intro j hj
    obtain ⟨t, g1, g2, g3⟩ := hent3 j hj
    refine ⟨t, g1, ?_, g3, ?_⟩
    · rw [show 1 + j = 1 + 0 + j by omega]; exact g2
    · rw [hframe3 (1 + r2trace.length + j) (fun k hk => by omega)]
      have := hendv j hj
      rw [g1] at this
      rw [show 1 + r2trace.length + j = 1 + r2trace.length + 0 + j by omega]
      simpa using this

/-- C16. Allocation size suffices: when the scan of a command line counts the
segments of `out1.trace`, the sum of `len + 1` over them is at most
`strlen(cmdline) + 1`; `argv_from_WinMain` then completes without a store
outside the block, whose string area of
`executableNameLen + 1 + strlen(cmdline) + 1` bytes holds the terminated
executable name and after it the terminated copy of every token, each inside
the area, and whose pointer area of `2 * (N + 1)` slots holds the `N + 1`
argument entries at slots `0 .. N` and the `N` end markers at slots
`N + 1 .. 2 N`. -/
theorem allocation_size_suffices (s exe : CStr) (hs : ∀ c ∈ s, c ≠ 0)
    (hexe : ∀ c ∈ exe, c ≠ 0) (cap0 : Int) (mem0 : Slots) (out1 : ScanOut)
    (h1 : argv_from_WinMain_internal s (some cap0) none none mem0 = .ok out1) :
    segBytes out1.trace ≤ argv_strlen s + 1 ∧
    argv_strlen exe + 1 + segBytes out1.trace ≤ argv_strlen exe + 1 + argv_strlen s + 1 ∧
    ∃ blk, argv_from_WinMain (some s) true true exe true =
        .ok { ret := 0, pargc := some ((out1.trace.length : Int) + 1), pargv := some blk,
              mallocs := 1, frees := 0 } ∧
      blk.nbytes = argv_strlen exe + 1 + argv_strlen s + 1 ∧
      blk.slots.size = 2 * (out1.trace.length + 1) ∧
      blk.slots.val 0 = some (.str 0) ∧ HoldsStr blk 0 exe ∧
      (∀ j, j < out1.trace.length → ∃ t, out1.trace.get? j = some t ∧
        1 + j < blk.slots.size ∧ 1 + out1.trace.length + j < blk.slots.size ∧
        blk.slots.val (1 + j)
          = some (.str (argv_strlen exe + 1 + segBytes (out1.trace.take j))) ∧
        HoldsStr blk (argv_strlen exe + 1 + segBytes (out1.trace.take j)) (slice s t.1 t.2) ∧
        argv_strlen exe + 1 + segBytes (out1.trace.take (j + 1)) ≤ blk.nbytes ∧
        blk.slots.val (1 + out1.trace.length + j) = some (.cmd t.2)) := by
  rw [internal_unlimited s cap0 none none (Or.inl rfl) mem0] at h1
  revert h1
  cases hscan : scanFrom s (s.length + 2) 0 with
  | ub => intro h; cases h
  | timeout => intro h; cases h
  | ok r =>
    obtain ⟨l, c⟩ := r
    intro h1
    simp only [Res.ok.injEq] at h1
    subst h1
    simp only []
    have hchain := (scanFrom_chain s (s.length + 2) 0 l c (Nat.zero_le _) hscan).1
    have hsum := chainOK_segBytes s.length 0 l hchain
    rw [argv_strlen_eq_length s hs, argv_strlen_eq_length exe hexe]
    obtain ⟨blk, hw, hn, hsz, h0, hexeh, htok⟩ := argv_from_WinMain_layout s exe hs hexe l c hscan
    refine ⟨by omega, by omega, blk, hw, hn, by rw [hsz]; omega, h0, hexeh, ?_⟩
    intro j hj
    obtain ⟨t, g1, g2, g3, g4⟩ := htok j hj
    refine ⟨t, g1, by rw [hsz]; omega, by rw [hsz]; omega, g2, g3, ?_, g4⟩
    have hlen : (slice s t.1 t.2).length + 1 = t.2 - t.1 + 1 := by
      have hmem : t ∈ l := List.get?_mem g1
      have hb := (internal_ordered s (some 0) none none ⟨0, fun _ => none⟩
        { ret := 0, argc := some (l.length : Int), mem := ⟨0, fun _ => none⟩, trace := l }
        (by rw [internal_unlimited s 0 none none (Or.inl rfl), hscan])).2 t hmem
      rw [slice_length s t.1 t.2 hb.2]
    have htake : segBytes (l.take (j + 1)) = segBytes (l.take j) + (t.2 - t.1 + 1) := by
      rw [List.take_succ]
      rw [List.get?_eq_getElem?] at g1
      simp [segBytes, g1]
    have := g3.1
    rw [htake]
    omega

theorem allocation_size_suffices_witness :
    segBytes [(1, 6), (9, 18)] ≤ argv_strlen (cstr "\"--key\" \"the value\"") + 1 ∧
    argv_strlen (cstr "app") + 1 + segBytes [(1, 6), (9, 18)]
      ≤ argv_strlen (cstr "app") + 1 + argv_strlen (cstr "\"--key\" \"the value\"") + 1 ∧
    ∃ blk, argv_from_WinMain (some (cstr "\"--key\" \"the value\"")) true true (cstr "app") true =
        .ok { ret := 0, pargc := some ((([((1 : Nat), (6 : Nat)), (9, 18)].length : Nat) : Int) + 1),
              pargv := some blk, mallocs := 1, frees := 0 } ∧
      blk.nbytes = argv_strlen (cstr "app") + 1 + argv_strlen (cstr "\"--key\" \"the value\"") + 1 ∧
      blk.slots.size = 2 * ([((1 : Nat), (6 : Nat)), (9, 18)].length + 1) ∧
      blk.slots.val 0 = some (.str 0) ∧ HoldsStr blk 0 (cstr "app") ∧
      (∀ j, j < [((1 : Nat), (6 : Nat)), (9, 18)].length →
        ∃ t, [((1 : Nat), (6 : Nat)), (9, 18)].get? j = some t ∧
        1 + j < blk.slots.size ∧
        1 + [((1 : Nat), (6 : Nat)), (9, 18)].length + j < blk.slots.size ∧
        blk.slots.val (1 + j)
          = some (.str (argv_strlen (cstr "app") + 1
              + segBytes ([((1 : Nat), (6 : Nat)), (9, 18)].take j))) ∧
        HoldsStr blk (argv_strlen (cstr "app") + 1
            + segBytes ([((1 : Nat), (6 : Nat)), (9, 18)].take j))
          (slice (cstr "\"--key\" \"the value\"") t.1 t.2) ∧
        argv_strlen (cstr "app") + 1 + segBytes ([((1 : Nat), (6 : Nat)), (9, 18)].take (j + 1))
          ≤ blk.nbytes ∧
        blk.slots.val (1 + [((1 : Nat), (6 : Nat)), (9, 18)].length + j) = some (.cmd t.2)) :=
  allocation_size_suffices (cstr "\"--key\" \"the value\"") (cstr "app") (by decide) (by decide)
    0 ⟨0, fun _ => none⟩
    { ret := 0, argc := some 2, mem := ⟨0, fun _ => none⟩, trace := [(1, 6), (9, 18)] } rfl


/-! ## Lemmas: command lines written item by item -/

theorem chr_blank (w : CStr) (hw : IsBlank w) (i : Nat) (hi : i < w.length) :
    argv_is_whitespace_ascii (chr w i) = true :=
  hw _ (chr_mem w i hi)

/-- The first character of what follows a token is whitespace or the end. -/
theorem joinItems_head (rest : List (CStr × Bool × CStr)) (trail : CStr)
    (hrest : ∀ it ∈ rest, IsBlank it.1) (hsep : ∀ it ∈ rest, it.1 ≠ [])
    (htrail : IsBlank trail) :
    chr (joinItems rest trail) 0 = 0 ∨
      argv_is_whitespace_ascii (chr (joinItems rest trail) 0) = true := by
  cases rest with
  | nil =>
    simp only [joinItems]
    cases trail with
    | nil => left; rfl
    | cons c tr => right; exact htrail c (List.mem_cons_self _ _)
  | cons it rest =>
    obtain ⟨w, q, t⟩ := it
    have hw := hrest (w, q, t) (List.mem_cons_self _ _)
    have hne := hsep (w, q, t) (List.mem_cons_self _ _)
    simp only [joinItems]
    cases w with
    | nil => exact absurd rfl hne
    | cons c w => right; exact hw c (List.mem_cons_self _ _)

theorem joinItems_length (items : List (CStr × Bool × CStr)) (trail : CStr)
    (h : ∀ it ∈ items, it.2.2 ≠ []) : items.length ≤ (joinItems items trail).length := by
  induction items with
  | nil => simp
  | cons it rest ih =>
    obtain ⟨w, q, t⟩ := it
    have ht : t ≠ [] := h (w, q, t) (List.mem_cons_self _ _)
    have hpos : 0 < t.length := List.length_pos.2 ht
    have := ih (fun x hx => h x (List.mem_cons_of_mem _ hx))
    cases q <;>
      simp only [joinItems, renderItem, quoted, List.length_append, List.length_cons,
        List.length_nil, if_true, Bool.false_eq_true, if_false] <;> omega

/-- One pass of the loop body over an unquoted word after whitespace: the
segment is the word, and the cursor stops right after it. -/
theorem nextSegment_word (pre w t rest : CStr) (hw : IsBlank w) (ht : WordToken t)
    (hrest : chr rest 0 = 0 ∨ argv_is_whitespace_ascii (chr rest 0) = true) :
    nextSegment (pre ++ (w ++ (t ++ rest))) pre.length =
      .ok (.inr (pre.length + w.length, pre.length + w.length + t.length,
        pre.length + w.length + t.length)) := by
  obtain ⟨hne, hchars, hhead⟩ := ht
  have hpos : 0 < t.length := List.length_pos.2 hne
  have hlen : (pre ++ (w ++ (t ++ rest))).length
      = pre.length + w.length + t.length + rest.length := by
    simp only [List.length_append]; omega
  have hcw : ∀ j, j < w.length → chr (pre ++ (w ++ (t ++ rest))) (pre.length + j) = chr w j := by
    intro j hj
    rw [chr_append_right, chr_append_left _ _ _ hj]
  have hct : ∀ j, j < t.length →
      chr (pre ++ (w ++ (t ++ rest))) (pre.length + w.length + j) = chr t j := by
    intro j hj
    rw [show pre.length + w.length + j = pre.length + (w.length + j) by omega, chr_append_right,
      chr_append_right, chr_append_left _ _ _ hj]
  have hcr : chr (pre ++ (w ++ (t ++ rest))) (pre.length + w.length + t.length) = chr rest 0 := by
    rw [show pre.length + w.length + t.length = pre.length + (w.length + (t.length + 0)) by omega,
      chr_append_right, chr_append_right, chr_append_right]
  have h0 := hct 0 hpos
  rw [Nat.add_zero] at h0
  have hfirst := hchars _ (chr_mem t 0 hpos)
  have hq : chr t 0 ≠ 34 := by
    intro h
    apply hhead
    cases t with
    | nil => exact absurd rfl hne
    | cons c t => simp only [chr_cons_zero] at h; simp [h]
  have := nextSegment_unquoted (pre ++ (w ++ (t ++ rest))) pre.length w.length (t.length - 1)
    (fun j hj => by rw [hcw j hj]; exact chr_blank w hw j hj)
    (by rw [h0]; exact hfirst.2) (by rw [h0]; exact hfirst.1) (by rw [h0]; exact hq)
    (fun j hj => by
      have hc := hct (j + 1) (by omega)
      have hm := hchars _ (chr_mem t (j + 1) (by omega))
      rw [← hc] at hm
      rw [show pre.length + w.length + 1 + j = pre.length + w.length + (j + 1) by omega]
      simp only [stopsAt, hm.1, hm.2, decide_False, Bool.false_or, Bool.false_eq_true,
        if_false])
    (by
      rw [show pre.length + w.length + 1 + (t.length - 1) = pre.length + w.length + t.length
        by omega]
      simp only [stopsAt, hcr, Bool.false_eq_true, if_false, Bool.or_eq_true,
        decide_eq_true_eq]
      exact hrest)
    (by rw [hlen]; omega)
  rw [this, show pre.length + w.length + 1 + (t.length - 1) = pre.length + w.length + t.length
    by omega]

/-- One pass of the loop body over a quoted token after whitespace. -/
theorem nextSegment_quoted_item (pre w t rest : CStr) (hw : IsBlank w) (ht : QuotableToken t) :
    nextSegment (pre ++ (w ++ (quoted t ++ rest))) pre.length =
      .ok (.inr (pre.length + w.length + 1, pre.length + w.length + 1 + t.length,
        pre.length + w.length + t.length + 2)) := by
  have hs : pre ++ (w ++ (quoted t ++ rest)) = (pre ++ w) ++ 34 :: (t ++ 34 :: rest) := by
    simp [quoted]
  have hcw : ∀ j, j < w.length → chr (pre ++ (w ++ (quoted t ++ rest))) (pre.length + j)
      = chr w j := by
    intro j hj
    rw [chr_append_right, chr_append_left _ _ _ hj]
  have := nextSegment_quoted_token (pre ++ w) t rest ht pre.length w.length (by simp)
    (fun j hj => by rw [← hs, hcw j hj]; exact chr_blank w hw j hj)
  rw [hs, this]
  simp only [List.length_append]

/-- The scan of a command line written item by item finds the tokens of the
items at their places, however long the whitespace runs are. -/
theorem scanFrom_items (items : List (CStr × Bool × CStr)) (trail : CStr)
    (hok : ItemsOK items) (htrail : IsBlank trail) (pre : CStr) (fuel : Nat)
    (hfuel : items.length < fuel) :
    ∃ c, scanFrom (pre ++ joinItems items trail) fuel pre.length
      = .ok (itemBounds pre.length items, c) := by
  induction items generalizing pre fuel with
  | nil =>
    obtain ⟨f, rfl⟩ : ∃ f, fuel = f + 1 := ⟨fuel - 1, by simp at hfuel; omega⟩
    have hend := nextSegment_end (pre ++ trail) pre.length trail.length
      (fun j hj => by rw [chr_append_right]; exact chr_blank trail htrail j hj)
      (by rw [← List.length_append]; exact chr_length _)
      (by simp)
    exact ⟨pre.length + trail.length, by simp only [joinItems, scanFrom, hend, itemBounds]⟩
  | cons it rest ih =>
    obtain ⟨w, q, t⟩ := it
    obtain ⟨f, rfl⟩ : ∃ f, fuel = f + 1 := ⟨fuel - 1, by simp at hfuel; omega⟩
    obtain ⟨hall, hsep⟩ := hok
    obtain ⟨hw, htok⟩ := hall (w, q, t) (List.mem_cons_self _ _)
    simp only [List.tail_cons] at hsep
    have hall2 : ∀ x ∈ rest, IsBlank x.1 ∧
        (if x.2.1 then QuotableToken x.2.2 else WordToken x.2.2) :=
      fun x hx => hall x (List.mem_cons_of_mem _ hx)
    have hok2 : ItemsOK rest :=
      ⟨hall2, fun x hx => hsep x (List.mem_of_mem_tail hx)⟩
    simp only [] at hw htok
    cases q with
    | true =>
      simp only [if_true] at htok
      have hstep := nextSegment_quoted_item pre w t (joinItems rest trail) hw htok
      obtain ⟨c, hc⟩ := ih hok2 (pre ++ (w ++ quoted t)) f
        (by simp only [List.length_cons] at hfuel; omega)
      have hs : pre ++ joinItems ((w, true, t) :: rest) trail
          = (pre ++ (w ++ quoted t)) ++ joinItems rest trail := by
        simp [joinItems, renderItem]
      have hs0 : pre ++ joinItems ((w, true, t) :: rest) trail
          = pre ++ (w ++ (quoted t ++ joinItems rest trail)) := by
        simp [joinItems, renderItem]
      have hl : (pre ++ (w ++ quoted t)).length = pre.length + w.length + t.length + 2 := by
        simp only [quoted, List.length_append, List.length_cons, List.length_nil]; omega
      refine ⟨c, ?_⟩
      rw [scanFrom, hs0, hstep]
      simp only []
      have hoff : (pre ++ (w ++ quoted t)).length
          = pre.length + w.length + (renderItem true t).length := by
        simp only [renderItem, if_true, List.length_append]; omega
      rw [← hs0, hs, ← hl, hc, hoff]
      simp only [itemBounds, if_true]
    | false =>
      simp only [Bool.false_eq_true, if_false] at htok
      have hstep := nextSegment_word pre w t (joinItems rest trail) hw htok
        (joinItems_head rest trail (fun x hx => (hall2 x hx).1) hsep htrail)
      obtain ⟨c, hc⟩ := ih hok2 (pre ++ (w ++ t)) f
        (by simp only [List.length_cons] at hfuel; omega)
      have hs : pre ++ joinItems ((w, false, t) :: rest) trail
          = (pre ++ (w ++ t)) ++ joinItems rest trail := by
        simp [joinItems, renderItem]
      have hs0 : pre ++ joinItems ((w, false, t) :: rest) trail
          = pre ++ (w ++ (t ++ joinItems rest trail)) := by
        simp [joinItems, renderItem]
      have hl : (pre ++ (w ++ t)).length = pre.length + w.length + t.length := by
        simp only [List.length_append]; omega
      refine ⟨c, ?_⟩
      rw [scanFrom, hs0, hstep]
      simp only []
      have hoff : (pre ++ (w ++ t)).length
          = pre.length + w.length + (renderItem false t).length := by
        simp only [renderItem, Bool.false_eq_true, if_false, List.length_append]; omega
      rw [← hs0, hs, ← hl, hc, hoff]
      simp only [itemBounds, renderItem, Bool.false_eq_true, if_false, Nat.add_zero]


theorem slice_append_mid (A t B : CStr) :
    slice (A ++ (t ++ B)) A.length (A.length + t.length) = t := by
  unfold slice
  rw [List.drop_left]
  simp

/-- The texts at the positions of `itemBounds` are the tokens of the items. -/
theorem tokenTexts_items (items : List (CStr × Bool × CStr)) (trail pre : CStr) :
    tokenTexts (pre ++ joinItems items trail) (itemBounds pre.length items)
      = items.map (fun it => it.2.2) := by
  induction items generalizing pre with
  | nil => rfl
  | cons it rest ih =>
    obtain ⟨w, q, t⟩ := it
    have hrec := ih (pre ++ (w ++ renderItem q t))
    have hs : pre ++ joinItems ((w, q, t) :: rest) trail
        = (pre ++ (w ++ renderItem q t)) ++ joinItems rest trail := by
      simp [joinItems]
    have hl : (pre ++ (w ++ renderItem q t)).length
        = pre.length + w.length + (renderItem q t).length := by
      simp only [List.length_append]; omega
    rw [← hs, hl] at hrec
    simp only [itemBounds, tokenTexts, List.map_cons] at hrec ⊢
    rw [hrec]
    congr 1
    cases q with
    | true =>
      have h1 : pre ++ joinItems ((w, true, t) :: rest) trail
          = (pre ++ (w ++ [34])) ++ (t ++ (34 :: joinItems rest trail)) := by
        simp [joinItems, renderItem, quoted]
      have h2 : pre.length + w.length + 1 = (pre ++ (w ++ [34])).length := by
        simp only [List.length_append, List.length_cons, List.length_nil]; omega
      simp only [if_true]
      rw [h1, h2]
      exact slice_append_mid _ _ _
    | false =>
      have h1 : pre ++ joinItems ((w, false, t) :: rest) trail
          = (pre ++ w) ++ (t ++ joinItems rest trail) := by
        simp [joinItems, renderItem]
      have h2 : pre.length + w.length + 0 = (pre ++ w).length := by
        simp only [List.length_append]; omega
      simp only [Bool.false_eq_true, if_false]
      rw [h1, h2]
      exact slice_append_mid _ _ _

theorem itemBounds_length (off : Nat) (items : List (CStr × Bool × CStr)) :
    (itemBounds off items).length = items.length := by
  induction items generalizing off with
  | nil => rfl
  | cons it rest ih =>
    obtain ⟨w, q, t⟩ := it
    simp only [itemBounds, List.length_cons, ih]

/-- The counting pass on a command line written item by item. -/
theorem internal_items (items : List (CStr × Bool × CStr)) (trail : CStr)
    (hok : ItemsOK items) (htrail : IsBlank trail) (cap : Int) (mem : Slots) :
    argv_from_WinMain_internal (joinItems items trail) (some cap) none none mem =
        .ok { ret := 0, argc := some (items.length : Int), mem := mem,
              trace := itemBounds 0 items } ∧
      tokenTexts (joinItems items trail) (itemBounds 0 items) = items.map (fun it => it.2.2) := by
  have hne : ∀ it ∈ items, it.2.2 ≠ [] := by
    intro it hit
    have := (hok.1 it hit).2
    by_cases hq : it.2.1 = true
    · rw [if_pos hq] at this; exact this.1
    · rw [if_neg hq] at this; exact this.1
  obtain ⟨c, hc⟩ := scanFrom_items items trail hok htrail [] ((joinItems items trail).length + 2)
    (by have := joinItems_length items trail hne; omega)
  simp only [List.nil_append, List.length_nil] at hc
  constructor
  · rw [internal_unlimited _ cap none none (Or.inl rfl) mem, hc]
    simp only [itemBounds_length]
  · have := tokenTexts_items items trail []
    simpa using this


/-! ## Theorems: unquoted segments and whitespace -/

theorem chr_of_ge (s : CStr) (i : Nat) (h : s.length ≤ i) : chr s i = 0 :=
  List.getD_eq_default _ _ h

/-- C13. Unquoted segments: when the loop goes on from a cursor, `q` is the
first offset from the cursor on that holds no whitespace, and the character
at `q` is neither the terminator nor a double quote, the iteration counts the
segment from `q` to some `e > q` and continues at `e`, where every character
of `[q, e)` is neither whitespace nor NUL and the character at `e` is
whitespace or the end of the input: the token is the maximal run of
non-whitespace characters starting at `q`. -/
theorem unquoted_segment_maximal_run (s : CStr) (cap : Int) (tb te : Option Nat) (fuel : Nat)
    (st : ScanState) (q : Nat)
    (hcond : (tb = none ∨ te = none) ∨ (st.count : Int) < cap)
    (hq1 : st.cmdline ≤ q)
    (hws : ∀ j, st.cmdline ≤ j → j < q → argv_is_whitespace_ascii (chr s j) = true)
    (hq : argv_is_whitespace_ascii (chr s q) = false)
    (h0 : chr s q ≠ 0) (h34 : chr s q ≠ 34) :
    ∃ e, q < e ∧ e ≤ s.length ∧
      (∀ j, q ≤ j → j < e → argv_is_whitespace_ascii (chr s j) = false ∧ chr s j ≠ 0) ∧
      (chr s e = 0 ∨ argv_is_whitespace_ascii (chr s e) = true) ∧
      segmentLoop s cap tb te (fuel + 1) st =
        match recordSegment tb te q e st.count st.mem with
        | .ub => .ub
        | .timeout => .timeout
        | .ok (count, mem) =>
          segmentLoop s cap tb te fuel
            { cmdline := e, count := count, mem := mem, trace := st.trace ++ [(q, e)] } := by
  have hlt : q < s.length := by
    rcases Nat.lt_or_ge q s.length with h | h
    · exact h
    · exact absurd (chr_of_ge s q h) h0
  obtain ⟨k, hk1, _, hgo, hstop⟩ := segmentEnd_total s false (s.length - (q + 1)) (q + 1)
    (s.length + 2) (by omega) (by omega)
  have hnext := nextSegment_unquoted s st.cmdline (q - st.cmdline) k
    (fun j hj => hws (st.cmdline + j) (by omega) (by omega))
    (by rw [show st.cmdline + (q - st.cmdline) = q by omega]; exact hq)
    (by rw [show st.cmdline + (q - st.cmdline) = q by omega]; exact h0)
    (by rw [show st.cmdline + (q - st.cmdline) = q by omega]; exact h34)
    (fun j hj => by
      rw [show st.cmdline + (q - st.cmdline) + 1 + j = q + 1 + j by omega]; exact hgo j hj)
    (by rw [show st.cmdline + (q - st.cmdline) + 1 + k = q + 1 + k by omega]; exact hstop)
    (by omega)
  rw [show st.cmdline + (q - st.cmdline) = q by omega] at hnext
  refine ⟨q + 1 + k, by omega, hk1, ?_, ?_, ?_⟩
  · intro j hj1 hj2
    rcases Nat.eq_or_lt_of_le hj1 with h | h
    · rw [← h]; exact ⟨hq, h0⟩
    · have := hgo (j - (q + 1)) (by omega)
      rw [show q + 1 + (j - (q + 1)) = j by omega] at this
      simp only [stopsAt, Bool.false_eq_true, if_false, Bool.or_eq_false_iff,
        decide_eq_false_iff_not] at this
      exact ⟨this.2, this.1⟩
  · simpa [stopsAt] using hstop
  · rw [segmentLoop_succ, if_pos hcond, hnext]
    have hgt : q + 1 + k > q := by omega
    simp only [hgt, if_true]

theorem unquoted_segment_maximal_run_witness :
    ∃ e, 2 < e ∧ e ≤ (cstr "  ab\"c d").length ∧
      (∀ j, 2 ≤ j → j < e →
        argv_is_whitespace_ascii (chr (cstr "  ab\"c d") j) = false ∧
          chr (cstr "  ab\"c d") j ≠ 0) ∧
      (chr (cstr "  ab\"c d") e = 0 ∨ argv_is_whitespace_ascii (chr (cstr "  ab\"c d") e) = true) ∧
      segmentLoop (cstr "  ab\"c d") 0 none none (9 + 1)
          { cmdline := 0, count := 0, mem := ⟨0, fun _ => none⟩, trace := [] } =
        match recordSegment none none 2 e 0 ⟨0, fun _ => none⟩ with
        | .ub => .ub
        | .timeout => .timeout
        | .ok (count, mem) =>
          segmentLoop (cstr "  ab\"c d") 0 none none 9
            { cmdline := e, count := count, mem := mem, trace := [] ++ [(2, e)] } :=
  unquoted_segment_maximal_run (cstr "  ab\"c d") 0 none none 9
    { cmdline := 0, count := 0, mem := ⟨0, fun _ => none⟩, trace := [] } 2
    (Or.inl (Or.inl rfl)) (by decide)
    (by
      intro j _ hj
      have : j = 0 ∨ j = 1 := by omega
      rcases this with h | h <;> rw [h] <;> decide)
    (by decide) (by decide) (by decide)

/-- The unquoted segment of the command line `  ab"c d` found from the start
is `ab"c`, offsets 2 to 6. -/
theorem unquoted_segment_example :
    nextSegment (cstr "  ab\"c d") 0 = .ok (.inr (2, 6, 6)) ∧
      slice (cstr "  ab\"c d") 2 6 = cstr "ab\"c" :=
  ⟨rfl, by decide⟩

/-- C14. No empty tokens: every segment the scanner counts is non-empty and
inside the input, so its text has at least one character; a command line that
is empty or holds only whitespace yields zero tokens; and in a command line
written as tokens (unquoted words or quoted tokens) with whitespace runs
before, between and after them, the scanner finds exactly the tokens, however
long the runs are. -/
theorem no_empty_tokens :
    (∀ (s : CStr) (pargc : Option Int) (tb te : Option Nat) (mem : Slots) (out : ScanOut),
      argv_from_WinMain_internal s pargc tb te mem = .ok out →
      ∀ seg ∈ out.trace, seg.1 < seg.2 ∧ seg.2 ≤ s.length ∧
        1 ≤ (slice s seg.1 seg.2).length) ∧
    (∀ (s : CStr) (cap : Int) (tb te : Option Nat) (mem : Slots), IsBlank s →
      argv_from_WinMain_internal s (some cap) tb te mem =
        .ok { ret := 0, argc := some 0, mem := mem, trace := [] }) ∧
    (∀ (items : List (CStr × Bool × CStr)) (trail : CStr) (cap : Int) (mem : Slots),
      ItemsOK items → IsBlank trail →
      argv_from_WinMain_internal (joinItems items trail) (some cap) none none mem =
          .ok { ret := 0, argc := some (items.length : Int), mem := mem,
                trace := itemBounds 0 items } ∧
        tokenTexts (joinItems items trail) (itemBounds 0 items)
          = items.map (fun it => it.2.2)) := by
  refine ⟨?_, ?_, ?_⟩
  · intro s pargc tb te mem out h seg hseg
    obtain ⟨h1, h2⟩ := (internal_ordered s pargc tb te mem out h).2 seg hseg
    refine ⟨h1, h2, ?_⟩
    rw [slice_length s seg.1 seg.2 h2]
    omega
  · intro s cap tb te mem hs
    have hend := nextSegment_end s 0 s.length
      (fun j hj => by rw [Nat.zero_add]; exact chr_blank s hs j hj)
      (by rw [Nat.zero_add]; exact chr_length s) (by omega)
    simp only [argv_from_WinMain_internal]
    rw [show s.length + 2 = (s.length + 1) + 1 by omega, segmentLoop_succ]
    simp only [hend]
    split_ifs <;> rfl
  · intro items trail cap mem hok htrail
    exact internal_items items trail hok htrail cap mem

/-- The same three tokens, whatever the whitespace before, between and after
them. -/
theorem whitespace_runs_example :
    tokenTexts (cstr "a \"b c\" d") [(0, 1), (3, 6), (8, 9)]
        = [cstr "a", cstr "b c", cstr "d"] ∧
      argv_from_WinMain_internal (cstr "a \"b c\" d") (some 0) none none ⟨0, fun _ => none⟩ =
        .ok { ret := 0, argc := some 3, mem := ⟨0, fun _ => none⟩,
              trace := [(0, 1), (3, 6), (8, 9)] } ∧
      tokenTexts (cstr "  a \t \"b c\"\n\n d   ") [(2, 3), (7, 10), (14, 15)]
        = [cstr "a", cstr "b c", cstr "d"] ∧
      argv_from_WinMain_internal (cstr "  a \t \"b c\"\n\n d   ") (some 0) none none
          ⟨0, fun _ => none⟩ =
        .ok { ret := 0, argc := some 3, mem := ⟨0, fun _ => none⟩,
              trace := [(2, 3), (7, 10), (14, 15)] } :=
  ⟨by decide, rfl, by decide, rfl⟩


theorem no_empty_tokens_witness :
    argv_from_WinMain_internal
        (joinItems [(cstr "  ", false, cstr "a"), (cstr " \t ", true, cstr "b c"),
          (cstr "\n\n ", false, cstr "d")] (cstr "   "))
        (some 0) none none ⟨0, fun _ => none⟩ =
        .ok { ret := 0,
              argc := some (([(cstr "  ", false, cstr "a"), (cstr " \t ", true, cstr "b c"),
                (cstr "\n\n ", false, cstr "d")].length : Nat) : Int),
              mem := ⟨0, fun _ => none⟩,
              trace := itemBounds 0 [(cstr "  ", false, cstr "a"), (cstr " \t ", true, cstr "b c"),
                (cstr "\n\n ", false, cstr "d")] } ∧
      tokenTexts
          (joinItems [(cstr "  ", false, cstr "a"), (cstr " \t ", true, cstr "b c"),
            (cstr "\n\n ", false, cstr "d")] (cstr "   "))
          (itemBounds 0 [(cstr "  ", false, cstr "a"), (cstr " \t ", true, cstr "b c"),
            (cstr "\n\n ", false, cstr "d")])
        = [(cstr "  ", false, cstr "a"), (cstr " \t ", true, cstr "b c"),
            (cstr "\n\n ", false, cstr "d")].map (fun it => it.2.2) :=
  no_empty_tokens.2.2 [(cstr "  ", false, cstr "a"), (cstr " \t ", true, cstr "b c"),
    (cstr "\n\n ", false, cstr "d")] (cstr "   ") 0 ⟨0, fun _ => none⟩ (by decide) (by decide)

/-! ## Theorems: the two passes with `int count` -/

theorem wrapInt_of_range (n : Int) (h1 : -2147483648 ≤ n) (h2 : n < 2147483648) :
    wrapInt n = n := by
  unfold wrapInt; omega

theorem wrapInt_add (a b : Int) : wrapInt (wrapInt a + b) = wrapInt (a + b) := by
  unfold wrapInt; omega

theorem recordSegmentInt_ne_timeout (tb te : Option Nat) (b e : Nat) (count : Int)
    (mem : Slots) : recordSegmentInt tb te b e count mem ≠ .timeout := by
  unfold recordSegmentInt
  by_cases h : e > b
  · rw [if_pos h]
    cases tb with
    | none => simp
    | some tb =>
      cases te with
      | none => simp
      | some te =>
        simp only []
        by_cases hneg : count < 0
        · rw [if_pos hneg]; simp
        · rw [if_neg hneg]
          rcases Slots.set_cases mem (tb + count.toNat) (.cmd b) with h1 | h1
          · rw [h1]
            simp only []
            rcases Slots.set_cases (mem.put (tb + count.toNat) (.cmd b)) (te + count.toNat)
              (.cmd e) with h2 | h2
            · rw [h2]; simp
            · rw [h2]; simp
          · rw [h1]; simp
  · rw [if_neg h]; simp

/-- The segment loop with `int count`, one iteration unfolded, in terms of
`nextSegment`. -/
theorem segmentLoopInt_succ (s : CStr) (cap : Int) (tb te : Option Nat) (fuel : Nat)
    (st : ScanStateInt) :
    segmentLoopInt s cap tb te (fuel + 1) st =
      if (tb = none ∨ te = none) ∨ st.count < cap then
        match nextSegment s st.cmdline with
        | .ub => .ub
        | .timeout => .timeout
        | .ok (.inl q) => .ok { st with cmdline := q }
        | .ok (.inr (b, e, nx)) =>
          match recordSegmentInt tb te b e st.count st.mem with
          | .ub => .ub
          | .timeout => .timeout
          | .ok (count, mem) =>
            segmentLoopInt s cap tb te fuel
              { cmdline := nx, count := count, mem := mem,
                trace := if e > b then st.trace ++ [(b, e)] else st.trace }
      else .ok st := by
  rw [segmentLoopInt]
  by_cases hc : (tb = none ∨ te = none) ∨ st.count < cap
  · simp only [if_pos hc, nextSegment]
    cases argv_ltrim s (s.length + 2) st.cmdline with
    | ub => rfl
    | timeout => rfl
    | ok q =>
      simp only []
      cases charAt s q with
      | none => rfl
      | some c0 =>
        simp only []
        by_cases h0 : c0 = 0
        · simp only [if_pos h0]
        · simp only [if_neg h0]
          cases segmentEnd s (decide (c0 = 34)) (s.length + 2)
              ((if decide (c0 = 34) = true then q + 1 else q + 0) + 1) with
          | ub => rfl
          | timeout => rfl
          | ok e =>
            simp only []
            cases charAt s e with
            | none =>
              simp only []
              have hne := recordSegmentInt_ne_timeout tb te
                (if decide (c0 = 34) = true then q + 1 else q + 0) e st.count st.mem
              revert hne
              cases recordSegmentInt tb te (if decide (c0 = 34) = true then q + 1 else q + 0) e
                st.count st.mem with
              | ub => intro _; rfl
              | timeout => intro h; exact absurd rfl h
              | ok r => intro _; rfl
            | some c1 => rfl
  · simp only [if_neg hc]

theorem recordSegmentInt_untabled (tb te : Option Nat) (htab : tb = none ∨ te = none)
    (b e : Nat) (count : Int) (mem : Slots) (hbe : b < e) :
    recordSegmentInt tb te b e count mem = .ok (wrapInt (count + 1), mem) := by
  unfold recordSegmentInt
  rw [if_pos hbe]
  rcases htab with h | h
  · subst h; rfl
  · subst h; cases tb <;> rfl

/-- Below `INT_MAX` the block with `int count` does what `recordSegment`
does. -/
theorem recordSegmentInt_cast (tb te : Option Nat) (b e n : Nat) (mem : Slots)
    (hn : (n : Int) < 2147483647) :
    recordSegmentInt tb te b e (n : Int) mem =
      match recordSegment tb te b e n mem with
      | .ok (c, m) => .ok ((c : Int), m)
      | .ub => .ub
      | .timeout => .timeout := by
  have hw : wrapInt ((n : Int) + 1) = ((n + 1 : Nat) : Int) := by
    rw [wrapInt_of_range] <;> omega
  have hneg : ¬ ((n : Int) < 0) := by omega
  unfold recordSegmentInt recordSegment
  by_cases h : e > b
  · simp only [if_pos h]
    cases tb with
    | none => simp only [hw]
    | some tb =>
      cases te with
      | none => simp only [hw]
      | some te =>
        simp only [if_neg hneg, Int.toNat_ofNat, hw]
        rcases Slots.set_cases mem (tb + n) (.cmd b) with h1 | h1
        · rw [h1]
          simp only []
          rcases Slots.set_cases (mem.put (tb + n) (.cmd b)) (te + n) (.cmd e) with h2 | h2
          · rw [h2]
          · rw [h2]
        · rw [h1]
  · simp only [if_neg h]

/-- Without both tables the loop with `int count` traces the segments of
`scanFrom` and ends with their number reduced into the range of `int`. -/
theorem segmentLoopInt_unlimited (s : CStr) (cap : Int) (tb te : Option Nat)
    (htab : tb = none ∨ te = none) (fuel : Nat) (st : ScanStateInt)
    (hst : st.cmdline ≤ s.length) (hcount : wrapInt st.count = st.count) :
    segmentLoopInt s cap tb te fuel st =
      match scanFrom s fuel st.cmdline with
      | .ok (l, c) =>
        .ok { cmdline := c, count := wrapInt (st.count + l.length), mem := st.mem,
              trace := st.trace ++ l }
      | .ub => .ub
      | .timeout => .timeout := by
  induction fuel generalizing st with
  | zero => rfl
  | succ fuel ih =>
    rw [segmentLoopInt_succ, if_pos (Or.inl htab), scanFrom]
    rcases nextSegment_bounds s st.cmdline hst with h | ⟨q, h, _, _⟩ |
      ⟨b, e, nx, h, _, hbe, _, _, hnx, _, _⟩
    · rw [h]
    · rw [h]
      simp [hcount]
    · rw [h]
      simp only [recordSegmentInt_untabled tb te htab b e st.count st.mem hbe]
      rw [ih _ hnx (by simp only []; unfold wrapInt; omega)]
      simp only [gt_iff_lt, hbe, if_true]
      cases scanFrom s fuel nx with
      | ub => rfl
      | timeout => rfl
      | ok r =>
        obtain ⟨l, c⟩ := r
        simp only [List.length_cons, List.append_assoc, List.singleton_append, wrapInt_add,
          Nat.cast_add, Nat.cast_one]
        congr 2
        unfold wrapInt
        omega

/-- With a capacity that is an `int`, the loop with `int count` and both
tables is `segmentLoop`: `count` stays below the capacity and its increment
does not overflow. -/
theorem segmentLoopInt_tabled (s : CStr) (cap : Int) (hcap : cap ≤ 2147483647)
    (tb te : Nat) (fuel : Nat) (st : ScanState) :
    segmentLoopInt s cap (some tb) (some te) fuel
        { cmdline := st.cmdline, count := st.count, mem := st.mem, trace := st.trace } =
      match segmentLoop s cap (some tb) (some te) fuel st with
      | .ok st2 =>
        .ok { cmdline := st2.cmdline, count := st2.count, mem := st2.mem, trace := st2.trace }
      | .ub => .ub
      | .timeout => .timeout := by
  induction fuel generalizing st with
  | zero => rfl
  | succ fuel ih =>
    rw [segmentLoopInt_succ, segmentLoop_succ]
    by_cases hc : (st.count : Int) < cap
    · simp only [if_pos (Or.inr hc : ((some tb : Option Nat) = none ∨ (some te : Option Nat) = none)
        ∨ (st.count : Int) < cap)]
      cases nextSegment s st.cmdline with
      | ub => rfl
      | timeout => rfl
      | ok r =>
        cases r with
        | inl q => rfl
        | inr x =>
          obtain ⟨b, e, nx⟩ := x
          simp only [recordSegmentInt_cast (some tb) (some te) b e st.count st.mem (by omega)]
          cases recordSegment (some tb) (some te) b e st.count st.mem with
          | ub => rfl
          | timeout => rfl
          | ok r2 =>
            obtain ⟨c2, m2⟩ := r2
            exact ih { cmdline := nx, count := c2, mem := m2,
                       trace := if e > b then st.trace ++ [(b, e)] else st.trace }
    · have hnc : ¬ (((some tb : Option Nat) = none ∨ (some te : Option Nat) = none) ∨
          (st.count : Int) < cap) := by
        rintro (h | h)
        · rcases h with h | h <;> cases h
        · exact hc h
      simp only [if_neg hnc]

/-- The counting pass with `int count` in terms of the unlimited scan: it
reports the number of segments reduced into the range of `int`. -/
theorem internalInt_counting (s : CStr) (cap : Int) (tb te : Option Nat)
    (htab : tb = none ∨ te = none) (mem : Slots) :
    argv_from_WinMain_internal_int s (some cap) tb te mem =
      match scanFrom s (s.length + 2) 0 with
      | .ok (l, _) =>
        .ok { ret := 0, argc := some (wrapInt (l.length : Int)), mem := mem, trace := l }
      | .ub => .ub
      | .timeout => .timeout := by
  simp only [argv_from_WinMain_internal_int]
  rw [segmentLoopInt_unlimited s cap tb te htab (s.length + 2) _ (Nat.zero_le _)
    (show wrapInt (0 : Int) = 0 from rfl)]
  cases scanFrom s (s.length + 2) 0 with
  | ub => rfl
  | timeout => rfl
  | ok r =>
    obtain ⟨l, c⟩ := r
    simp

/-- The materializing pass with `int count` is the one with an unbounded
count, whatever `int` the capacity is. -/
theorem internalInt_tabled (s : CStr) (cap : Int) (hcap : cap ≤ 2147483647) (tb te : Nat)
    (mem : Slots) :
    argv_from_WinMain_internal_int s (some cap) (some tb) (some te) mem =
      argv_from_WinMain_internal s (some cap) (some tb) (some te) mem := by
  simp only [argv_from_WinMain_internal_int, argv_from_WinMain_internal]
  have h := segmentLoopInt_tabled s cap hcap tb te (s.length + 2)
    { cmdline := 0, count := 0, mem := mem, trace := [] }
  simp only [Nat.cast_zero] at h
  rw [h]
  cases segmentLoop s cap (some tb) (some te) (s.length + 2)
      { cmdline := 0, count := 0, mem := mem, trace := [] } with
  | ub => rfl
  | timeout => rfl
  | ok st => rfl

/-- With a capacity of zero or less the materializing pass stores nothing and
reports `0`. -/
theorem internalInt_no_capacity (s : CStr) (cap : Int) (hcap : cap ≤ 0) (tb te : Nat)
    (mem : Slots) :
    argv_from_WinMain_internal_int s (some cap) (some tb) (some te) mem =
      .ok { ret := 0, argc := some 0, mem := mem, trace := [] } := by
  have hnc : ¬ (((some tb : Option Nat) = none ∨ (some te : Option Nat) = none) ∨
      (0 : Int) < cap) := by
    rintro (h | h)
    · rcases h with h | h <;> cases h
    · omega
  simp only [argv_from_WinMain_internal_int]
  rw [show s.length + 2 = (s.length + 1) + 1 from rfl, segmentLoopInt_succ]
  simp only [if_neg hnc]

/-- Every segment takes at least two characters of the command line, its
terminator included: a scan of `n` segments needs `2 * n - 1` characters. -/
theorem scanFrom_count_le (s : CStr) (l : List (Nat × Nat)) (c : Nat)
    (h : scanFrom s (s.length + 2) 0 = .ok (l, c)) : 2 * l.length ≤ s.length + 1 := by
  have hchain := (scanFrom_chain s (s.length + 2) 0 l c (Nat.zero_le _) h).1
  have hbytes := chainOK_segBytes s.length 0 l hchain
  have hlen : ∀ (lo : Nat) (l : List (Nat × Nat)), chainOK s.length lo l →
      2 * l.length ≤ segBytes l := by
    intro lo l
    induction l generalizing lo with
    | nil => intro _; simp [segBytes]
    | cons x l ih =>
      obtain ⟨b, e⟩ := x
      intro hc
      obtain ⟨h1, h2, h3, h4⟩ := hc
      have := ih (e + 1) h4
      rw [segBytes_cons]
      simp only [List.length_cons]
      omega
  have := hlen 0 l hchain
  omega

theorem overflowItems_length : overflowItems.length = 2147483648 :=
  List.length_replicate _ _

theorem overflowItems_ok : ItemsOK overflowItems := by
  have hmem : ∀ it ∈ overflowItems, it = (([32], false, [97]) : CStr × Bool × CStr) :=
    fun it hit => List.eq_of_mem_replicate hit
  refine ⟨?_, ?_⟩
  · intro it hit
    rw [hmem it hit]
    decide
  · intro it hit
    rw [hmem it (List.mem_of_mem_tail hit)]
    decide

/-- C7, as stated, fails on the command line ` a` written `2^31` times. The
counting pass counts `2^31` segments, which `int count` holds as
`-2147483648`, and reports that as `N`; the materializing pass with capacity
`N`, whatever the tables are, stores no segment and reports `0`, not `N`. -/
theorem two_pass_int_overflow :
    ∃ out1,
      argv_from_WinMain_internal_int (joinItems overflowItems []) (some 0) none none
        ⟨0, fun _ => none⟩ = .ok out1 ∧
      out1.argc = some (-2147483648) ∧ out1.trace.length = 2147483648 ∧
      ∀ tb te mem,
        argv_from_WinMain_internal_int (joinItems overflowItems []) (some (-2147483648))
          (some tb) (some te) mem = .ok { ret := 0, argc := some 0, mem := mem, trace := [] } := by
  have hitems := (internal_items overflowItems [] overflowItems_ok (by decide) 0
    ⟨0, fun _ => none⟩).1
  rw [internal_unlimited _ 0 none none (Or.inl rfl)] at hitems
  rw [internalInt_counting _ 0 none none (Or.inl rfl)]
  revert hitems
  cases scanFrom (joinItems overflowItems []) ((joinItems overflowItems []).length + 2) 0 with
  | ub => intro h; cases h
  | timeout => intro h; cases h
  | ok r =>
    obtain ⟨l, c⟩ := r
    intro hitems
    simp only [Res.ok.injEq, ScanOut.mk.injEq, Option.some.injEq, Nat.cast_inj, true_and]
      at hitems
    have hlen : l.length = 2147483648 := by rw [hitems.1, overflowItems_length]
    refine ⟨_, rfl, ?_, hlen, ?_⟩
    · show some (wrapInt (l.length : Int)) = some (-2147483648)
      rw [hlen]
      rfl
    · intro tb te mem
      exact internalInt_no_capacity _ _ (by decide) tb te mem

/-- C7, amended. Two-pass consistency as long as fewer than `2^31` segments
are counted (so for every command line of fewer than `2^32 - 1` characters,
`scanFrom_count_le`): when the counting pass with `int count` reports `N`,
then `N` is the number of segments it counted, and the materializing pass on
the same string with two disjoint tables of `N` entries and capacity `N` also
reports `N`, its segments are those the counting pass counted, entry `j < N`
of the begin and end tables holds the boundaries of the `j`-th of them, and
no other slot is written. -/
theorem two_pass_consistency_int (s : CStr) (cap0 : Int) (mem0 : Slots) (out1 : ScanOut)
    (N : Int)
    (h1 : argv_from_WinMain_internal_int s (some cap0) none none mem0 = .ok out1)
    (hN : out1.argc = some N)
    (hcount : out1.trace.length < 2147483648)
    (tb te : Nat) (mem : Slots)
    (hfit : tb + out1.trace.length ≤ mem.size ∧ te + out1.trace.length ≤ mem.size)
    (hdisj : tb + out1.trace.length ≤ te ∨ te + out1.trace.length ≤ tb) :
    N = (out1.trace.length : Int) ∧
    ∃ out2, argv_from_WinMain_internal_int s (some N) (some tb) (some te) mem = .ok out2 ∧
      out2.ret = 0 ∧ out2.argc = some N ∧ out2.trace = out1.trace ∧
      (∀ j, j < out1.trace.length →
        out2.mem.val (tb + j) = (out1.trace.get? j).map (fun p => Ptr.cmd p.1) ∧
        out2.mem.val (te + j) = (out1.trace.get? j).map (fun p => Ptr.cmd p.2)) ∧
      (∀ i, (∀ j, j < out1.trace.length → i ≠ tb + j ∧ i ≠ te + j) →
        out2.mem.val i = mem.val i) := by
  rw [internalInt_counting s cap0 none none (Or.inl rfl) mem0] at h1
  revert h1
  cases hscan : scanFrom s (s.length + 2) 0 with
  | ub => intro h; cases h
  | timeout => intro h; cases h
  | ok r =>
    obtain ⟨l, c⟩ := r
    intro h1
    simp only [Res.ok.injEq] at h1
    subst h1
    simp only [] at hcount hfit hdisj ⊢
    have hw : wrapInt (l.length : Int) = (l.length : Int) := by
      rw [wrapInt_of_range] <;> omega
    simp only [hw, Option.some.injEq] at hN
    subst hN
    obtain ⟨out2, h2, hret, hargc, htrace, hmem⟩ := internal_limited s (l.length : Int) tb te mem
      l c hscan (by simpa using hfit)
    simp only [Int.toNat_ofNat, Nat.min_self, List.take_length] at hargc htrace hmem
    refine ⟨rfl, out2, ?_, hret, hargc, htrace, ?_, ?_⟩
    · rw [internalInt_tabled s _ (by omega) tb te mem]
      exact h2
    · intro j hj
      rw [hmem]
      have := writeSegs_val tb te l 0 mem hdisj j hj
      simpa using this
    · intro i hi
      rw [hmem]
      exact writeSegs_frame tb te l 0 mem i (by simpa using hi)

theorem two_pass_consistency_int_witness :
    argv_from_WinMain_internal_int (cstr "\"--key\" \"the value\"") (some 0) none none
        ⟨0, fun _ => none⟩ = .ok ⟨0, some 2, ⟨0, fun _ => none⟩, [(1, 6), (9, 18)]⟩ ∧
    ∃ out2, argv_from_WinMain_internal_int (cstr "\"--key\" \"the value\"") (some 2)
        (some 1) (some 3) ⟨6, fun _ => none⟩ = .ok out2 ∧
      out2.argc = some 2 ∧ out2.trace = [(1, 6), (9, 18)] :=
  ⟨rfl,
    (two_pass_consistency_int (cstr "\"--key\" \"the value\"") 0 ⟨0, fun _ => none⟩
      ⟨0, some 2, ⟨0, fun _ => none⟩, [(1, 6), (9, 18)]⟩ 2 rfl rfl (by decide)
      1 3 ⟨6, fun _ => none⟩ (by decide) (by decide)).2.elim
      (fun out2 h => ⟨out2, h.1, h.2.2.1, h.2.2.2.1⟩)⟩

end Argv
